import Mathlib

/-!
# Coin3D: `SbXfBox3f` and five smaller units

A shallow embedding of `src/base/SbXfBox3f.cpp`, followed by `src/fields/SoSFFloat.cpp`,
`src/projectors/SbSphereProjector.cpp`, `src/threads/storage.c`, the traversal state that
`Inventor/elements/SoPickRayElement.h` declares an element of, and
`src/engines/SoComposeVec4f.cpp`.

* C `float` values are idealised as exact rationals (no rounding, no NaN, no infinities);
  `FLT_MAX` is the rational value of the largest finite `float`.
* A member function that mutates `this` becomes a function returning the new object.  `const`
  members that fill the inverse cache through a cast (`calcInverse`, `getInverse`, `intersect`)
  return the object with the cache filled in.
* `SbMatrix`, `SbVec3f` and `SbBox3f` are implemented in other files of the library.  Their
  data layout is modelled directly; the member functions that `SbXfBox3f.cpp` calls are the
  fields of `SbBase`, and every definition translated from `SbXfBox3f.cpp` takes an `SbBase`.
  `coin` is the standard implementation, used where a concrete evaluation is wanted.  The
  collaborators of the other units are parameters in the same way (`SoInputBase`,
  `SbProjectorBase`) or small models of what the specification says of them (`cc_hash`,
  `SoState`).
* `COIN_DEBUG` is a compile-time switch; it is a `Bool` argument of the functions that test it.
* A local variable that the source declares without a value is an argument of the function.
* Calls that leave the translated code (`malloc`, `free`, the hooks of a storage, the posting
  of a read error, the writes of an engine to its output) are collected in lists, in the order
  in which they are made.
-/

namespace Coin

/-! ## Value types of the base library -/

/-- Largest finite `float`, `FLT_MAX` of `<float.h>`: `(2^24 - 1) * 2^104`. -/
def FLT_MAX : ℚ := 340282346638528859811704183484516925440

/-- Three-component vector `SbVec3f`. -/
structure SbVec3f where
  x : ℚ
  y : ℚ
  z : ℚ
deriving DecidableEq

/-- Component access `v[i]` of `SbVec3f`. -/
def SbVec3f.get (v : SbVec3f) (i : Nat) : ℚ :=
  if i = 0 then v.x else if i = 1 then v.y else v.z

/-- Modelled from the spec: `operator-` on two `SbVec3f`, whose body is in SbVec3f.cpp; the
componentwise difference. -/
def SbVec3f.sub (a b : SbVec3f) : SbVec3f := ⟨a.x - b.x, a.y - b.y, a.z - b.z⟩

/-- The 4x4 matrix `SbMatrix`; field `aIJ` is `matrix[I][J]`. -/
structure SbMatrix where
  a00 : ℚ
  a01 : ℚ
  a02 : ℚ
  a03 : ℚ
  a10 : ℚ
  a11 : ℚ
  a12 : ℚ
  a13 : ℚ
  a20 : ℚ
  a21 : ℚ
  a22 : ℚ
  a23 : ℚ
  a30 : ℚ
  a31 : ℚ
  a32 : ℚ
  a33 : ℚ
deriving DecidableEq

/-- Result of `SbMatrix::makeIdentity()`, also `SbMatrix::identity()`. -/
def SbMatrix.identity : SbMatrix :=
  { a00 := 1, a01 := 0, a02 := 0, a03 := 0,
    a10 := 0, a11 := 1, a12 := 0, a13 := 0,
    a20 := 0, a21 := 0, a22 := 1, a23 := 0,
    a30 := 0, a31 := 0, a32 := 0, a33 := 1 }

/-- Axis-aligned box `SbBox3f`: the two corner points. -/
structure SbBox3f where
  min : SbVec3f
  max : SbVec3f
deriving DecidableEq

/-- Accessor `SbBox3f::getMin()`. -/
def SbBox3f.getMin (b : SbBox3f) : SbVec3f := b.min

/-- Accessor `SbBox3f::getMax()`. -/
def SbBox3f.getMax (b : SbBox3f) : SbVec3f := b.max

/-- Modelled from the spec: `SbBox3f::makeEmpty()` / the default constructor of `SbBox3f`,
whose body is in SbBox3f.cpp; the empty box has its minimum at `FLT_MAX` and its maximum at
`-FLT_MAX`. -/
def SbBox3f.empty : SbBox3f :=
  { min := ⟨FLT_MAX, FLT_MAX, FLT_MAX⟩, max := ⟨-FLT_MAX, -FLT_MAX, -FLT_MAX⟩ }

/-- Modelled from the spec: `SbBox3f::isEmpty()`, whose body is in SbBox3f.cpp; a box is empty
when its maximum lies below its minimum on the first axis. -/
def SbBox3f.isEmpty (b : SbBox3f) : Bool := decide (b.max.get 0 < b.min.get 0)

/-- Modelled from the spec: `SbBox3f::hasVolume()`, whose body is in SbBox3f.cpp; the box has
volume when the maximum is strictly above the minimum on all three axes. -/
def SbBox3f.hasVolume (b : SbBox3f) : Bool :=
  decide (b.max.get 0 > b.min.get 0) && decide (b.max.get 1 > b.min.get 1)
    && decide (b.max.get 2 > b.min.get 2)

/-- Modelled from the spec: `SbBox3f::getVolume()` of the parent class, whose body is in
SbBox3f.cpp; the plain box volume, `0` for a box without volume. -/
def SbBox3f.getVolume (b : SbBox3f) : ℚ :=
  if !b.hasVolume then 0
  else (b.max.get 0 - b.min.get 0) * (b.max.get 1 - b.min.get 1) * (b.max.get 2 - b.min.get 2)

/-- The eight corners of a box, listed with the first coordinate varying slowest and the
third fastest, each coordinate running from the minimum to the maximum. -/
def SbBox3f.corners (b : SbBox3f) : List SbVec3f :=
  [⟨b.min.x, b.min.y, b.min.z⟩, ⟨b.min.x, b.min.y, b.max.z⟩,
   ⟨b.min.x, b.max.y, b.min.z⟩, ⟨b.min.x, b.max.y, b.max.z⟩,
   ⟨b.max.x, b.min.y, b.min.z⟩, ⟨b.max.x, b.min.y, b.max.z⟩,
   ⟨b.max.x, b.max.y, b.min.z⟩, ⟨b.max.x, b.max.y, b.max.z⟩]

/-- The members of `SbMatrix`, `SbVec3f` and `SbBox3f` (and `sqrt` of `<math.h>`) that
`SbXfBox3f.cpp` calls and whose bodies are outside the translated sources. -/
structure SbBase where
  /-- Matrix inversion `SbMatrix::inverse()`. -/
  inverse : SbMatrix → SbMatrix
  /-- In-place product `SbMatrix::multRight(m)`: the new value of the receiver. -/
  multRight : SbMatrix → SbMatrix → SbMatrix
  /-- Point transformation `SbMatrix::multVecMatrix(src, dst)`: the value written to `dst`. -/
  multVecMatrix : SbMatrix → SbVec3f → SbVec3f
  /-- Comparison `operator==` on `SbMatrix`. -/
  matEq : SbMatrix → SbMatrix → Bool
  /-- Comparison `operator==` on `SbVec3f`. -/
  vecEq : SbVec3f → SbVec3f → Bool
  /-- Point extension `SbBox3f::extendBy(const SbVec3f &)`: the new value of the receiver. -/
  boxExtendBy : SbBox3f → SbVec3f → SbBox3f
  /-- Box transformation `SbBox3f::transform(const SbMatrix &)`: the new value of the receiver. -/
  boxTransform : SbBox3f → SbMatrix → SbBox3f
  /-- Containment test `SbBox3f::intersect(const SbVec3f &)`. -/
  boxIntersect : SbBox3f → SbVec3f → Bool
  /-- Square root `sqrt` of `<math.h>`. -/
  sqrt : ℚ → ℚ
  /-- Box overlap test `SbBox3f::intersect(const SbBox3f &)`. -/
  boxIntersectBox : SbBox3f → SbBox3f → Bool
  /-- Scaling to unit length `SbVec3f::normalize()`: the new value of the receiver. -/
  normalize : SbVec3f → SbVec3f

/-! ## `SbXfBox3f` -/

/-- Transformed box `SbXfBox3f`: an `SbBox3f` with a transformation matrix and the cache of its
inverse. -/
structure SbXfBox3f extends SbBox3f where
  matrix : SbMatrix
  invertedmatrix : SbMatrix
deriving DecidableEq

namespace SbXfBox3f

/-- Default constructor `SbXfBox3f()`: empty box, identity matrices. -/
def default : SbXfBox3f :=
  { toSbBox3f := SbBox3f.empty, matrix := SbMatrix.identity, invertedmatrix := SbMatrix.identity }

/-- Constructor `SbXfBox3f(const SbVec3f & min, const SbVec3f & max)`. -/
def ofBounds (mn mx : SbVec3f) : SbXfBox3f :=
  { toSbBox3f := ⟨mn, mx⟩, matrix := SbMatrix.identity, invertedmatrix := SbMatrix.identity }

/-- Constructor `SbXfBox3f(const SbBox3f & box)`. -/
def ofBox (box : SbBox3f) : SbXfBox3f :=
  { toSbBox3f := box, matrix := SbMatrix.identity, invertedmatrix := SbMatrix.identity }

/-- Inherited `SbBox3f::setBounds(min, max)` on a transformed box. -/
def setBounds (b : SbXfBox3f) (mn mx : SbVec3f) : SbXfBox3f :=
  { b with toSbBox3f := ⟨mn, mx⟩ }

/-- Cache invalidation `SbXfBox3f::makeInvInvalid`: `invertedmatrix[0][0] = FLT_MAX`. -/
def makeInvInvalid (b : SbXfBox3f) : SbXfBox3f :=
  { b with invertedmatrix := { b.invertedmatrix with a00 := FLT_MAX } }

/-- Method `SbXfBox3f::setTransform(m)`. -/
def setTransform (b : SbXfBox3f) (m : SbMatrix) : SbXfBox3f :=
  makeInvInvalid { b with matrix := m }

/-- Method `SbXfBox3f::getTransform()`. -/
def getTransform (b : SbXfBox3f) : SbMatrix := b.matrix

/-- Method `SbXfBox3f::calcInverse()`, instrumented: the object afterwards and the number of
calls of `SbMatrix::inverse()` it made. -/
def calcInverseTraced (E : SbBase) (b : SbXfBox3f) : SbXfBox3f × Nat :=
  if b.invertedmatrix.a00 = FLT_MAX then
    ({ b with invertedmatrix := E.inverse b.matrix }, 1)
  else (b, 0)

/-- Method `SbXfBox3f::calcInverse()`: the object afterwards. -/
def calcInverse (E : SbBase) (b : SbXfBox3f) : SbXfBox3f := (calcInverseTraced E b).1

/-- Method `SbXfBox3f::getInverse()`: the matrix returned and the object afterwards. -/
def getInverse (E : SbBase) (b : SbXfBox3f) : SbMatrix × SbXfBox3f :=
  ((calcInverse E b).invertedmatrix, calcInverse E b)

/-- Method `SbXfBox3f::transform(m)`: `multRight` updates `this->matrix` in place and the
result is handed to `setTransform`. -/
def transform (E : SbBase) (b : SbXfBox3f) (m : SbMatrix) : SbXfBox3f :=
  let b1 : SbXfBox3f := { b with matrix := E.multRight b.matrix m }
  setTransform b1 b1.matrix

/-- Method `SbXfBox3f::extendBy(const SbVec3f & pt)`. -/
def extendByPt (E : SbBase) (b : SbXfBox3f) (pt : SbVec3f) : SbXfBox3f :=
  let b1 := calcInverse E b
  let im := b1.invertedmatrix
  let trans := E.multVecMatrix im pt
  { b1 with toSbBox3f := E.boxExtendBy b1.toSbBox3f trans }

/-- Method `SbXfBox3f::project()`. -/
def project (E : SbBase) (b : SbXfBox3f) : SbBox3f :=
  let box : SbBox3f := ⟨b.getMin, b.getMax⟩
  if !box.isEmpty then E.boxTransform box b.matrix else box

/-- Method `SbXfBox3f::getVolume()`. -/
def getVolume (E : SbBase) (b : SbXfBox3f) : ℚ :=
  if !b.hasVolume then 0
  else
    let scalex := E.sqrt (b.matrix.a00 * b.matrix.a00 + b.matrix.a10 * b.matrix.a10
      + b.matrix.a20 * b.matrix.a20)
    let scaley := E.sqrt (b.matrix.a01 * b.matrix.a01 + b.matrix.a11 * b.matrix.a11
      + b.matrix.a21 * b.matrix.a21)
    let scalez := E.sqrt (b.matrix.a02 * b.matrix.a02 + b.matrix.a12 * b.matrix.a12
      + b.matrix.a22 * b.matrix.a22)
    let mn := b.getMin
    let mx := b.getMax
    |(mx.get 0 - mn.get 0) * scalex * (mx.get 1 - mn.get 1) * scaley
      * (mx.get 2 - mn.get 2) * scalez|

/-- The corner selected by loop index `i` "the binary way":
`(points[(i&4)>>2][0], points[(i&2)>>1][1], points[i&1][2])`. -/
def corner (points : Nat → SbVec3f) (i : Nat) : SbVec3f :=
  ⟨(points ((i &&& 4) >>> 2)).get 0, (points ((i &&& 2) >>> 1)).get 1, (points (i &&& 1)).get 2⟩

/-- The local array `SbVec3f points[2] = { bb.getMin(), bb.getMax() }`. -/
def pointsOf (bb : SbBox3f) (k : Nat) : SbVec3f := if k = 0 then bb.getMin else bb.getMax

/-- Method `SbXfBox3f::extendBy(const SbBox3f & bb)`. -/
def extendByBox (E : SbBase) (COIN_DEBUG : Bool) (self : SbXfBox3f) (bb : SbBox3f) :
    SbXfBox3f :=
  if COIN_DEBUG && bb.isEmpty then self
  else if self.isEmpty then
    { toSbBox3f := bb, matrix := SbMatrix.identity, invertedmatrix := SbMatrix.identity }
  else
    let points := pointsOf bb
    let box1₀ : SbBox3f := self.toSbBox3f
    let this1 := calcInverse E self
    let im := this1.invertedmatrix
    let box1 := (List.range 8).foldl
      (fun box i => E.boxExtendBy box (E.multVecMatrix im (corner points i))) box1₀
    let box2 := (List.range 8).foldl
      (fun box j => E.boxExtendBy box (corner points j)) (project E this1)
    let xfbox := setTransform (ofBox box1) this1.matrix
    if getVolume E xfbox < box2.getVolume then
      setBounds this1 box1.getMin box1.getMax
    else
      { setBounds this1 box2.getMin box2.getMax with
        matrix := SbMatrix.identity, invertedmatrix := SbMatrix.identity }

/-- One of the two symmetric blocks of `extendBy(const SbXfBox3f &)`: copy `keep`, read its
inverse, and extend the copy by the eight corners of `other` mapped through
`other.getTransform().multRight(copy.getInverse())`. -/
def extendKeeping (E : SbBase) (keep other : SbXfBox3f) : SbXfBox3f :=
  let points := pointsOf other.toSbBox3f
  let box := calcInverse E keep
  let m := E.multRight other.getTransform box.invertedmatrix
  (List.range 8).foldl
    (fun (bx : SbXfBox3f) i =>
      { bx with toSbBox3f := E.boxExtendBy bx.toSbBox3f (E.multVecMatrix m (corner points i)) })
    box

/-- Method `SbXfBox3f::extendBy(const SbXfBox3f & bb)`. -/
def extendByXfBox (E : SbBase) (COIN_DEBUG : Bool) (self bb : SbXfBox3f) : SbXfBox3f :=
  if COIN_DEBUG && bb.isEmpty then self
  else if self.isEmpty then bb
  else
    let box1 := extendKeeping E self bb
    let box2 := extendKeeping E bb self
    if getVolume E box1 < getVolume E box2 then box1 else box2

/-- Method `SbXfBox3f::intersect(const SbVec3f & pt)`: the result and the object afterwards. -/
def intersectPt (E : SbBase) (b : SbXfBox3f) (pt : SbVec3f) : Bool × SbXfBox3f :=
  let b1 := calcInverse E b
  let trans := E.multVecMatrix b1.invertedmatrix pt
  (E.boxIntersect b1.toSbBox3f trans, b1)

/-- The lookup table `lines` of `intersect_box_edges`: the twelve edges of a cube as pairs of
corner indices. -/
def lines : List Nat :=
  [0, 1, 0, 2, 0, 4, 1, 3, 1, 5, 2, 3, 2, 6, 3, 7, 4, 5, 4, 6, 5, 7, 6, 7]

/-- Static function `intersect_box_edges(min, max, points)`: does one of the 12 edges given by
the 8 `points` cross one of the six planes of the axis-aligned box strictly inside the face.
The three nested loops only leave early with `TRUE`, which `List.any` renders. -/
def intersect_box_edges (E : SbBase) (min max : SbVec3f) (points : List SbVec3f) : Bool :=
  let boxpts : Nat → SbVec3f := fun k => if k = 0 then min else max
  (List.range 12).any fun i =>
    let l1 := points.getD (lines.getD (i * 2) 0) ⟨0, 0, 0⟩
    let l2 := points.getD (lines.getD (i * 2 + 1) 0) ⟨0, 0, 0⟩
    let dir := E.normalize (l2.sub l1)
    let lmin : SbVec3f :=
      ⟨Min.min (l1.get 0) (l2.get 0), Min.min (l1.get 1) (l2.get 1),
        Min.min (l1.get 2) (l2.get 2)⟩
    let lmax : SbVec3f :=
      ⟨Max.max (l1.get 0) (l2.get 0), Max.max (l1.get 1) (l2.get 1),
        Max.max (l1.get 2) (l2.get 2)⟩
    (List.range 3).any fun j =>
      (List.range 2).any fun k =>
        if dir.get j ≠ 0 ∧ lmin.get j ≤ (boxpts k).get j ∧ lmax.get j ≥ (boxpts k).get j then
          let t1 := if j + 1 ≥ 3 then j + 1 - 3 else j + 1
          let t2 := if j + 2 ≥ 3 then j + 2 - 3 else j + 2
          let delta := |((boxpts k).get j - l1.get j) / dir.get j|
          let v1 := l1.get t1 + delta * dir.get t1
          let v2 := l1.get t2 + delta * dir.get t2
          decide (v1 > (boxpts 0).get t1 ∧ v1 < (boxpts 1).get t1
            ∧ v2 > (boxpts 0).get t2 ∧ v2 < (boxpts 1).get t2)
        else false

/-- The corner loop of `intersect_box_box`, from index list `is` on: `none` when a transformed
corner lies inside `(min, max)` (the loop returns `TRUE`), otherwise the final `alignedBox`
and `transpoints`. -/
def cornerLoop (E : SbBase) (min max boxmin boxmax : SbVec3f) (matrix : SbMatrix) :
    List Nat → SbBox3f → List SbVec3f → Option (SbBox3f × List SbVec3f)
  | [], alignedBox, transpoints => some (alignedBox, transpoints)
  | i :: is, alignedBox, transpoints =>
    let tmp : SbVec3f :=
      ⟨if i &&& 4 ≠ 0 then boxmin.get 0 else boxmax.get 0,
        if i &&& 2 ≠ 0 then boxmin.get 1 else boxmax.get 1,
        if i &&& 1 ≠ 0 then boxmin.get 2 else boxmax.get 2⟩
    let tmp2 := E.multVecMatrix matrix tmp
    if tmp2.get 0 ≥ min.get 0 ∧ tmp2.get 0 ≤ max.get 0 ∧ tmp2.get 1 ≥ min.get 1
        ∧ tmp2.get 1 ≤ max.get 1 ∧ tmp2.get 2 ≥ min.get 2 ∧ tmp2.get 2 ≤ max.get 2 then
      none
    else
      cornerLoop E min max boxmin boxmax matrix is (E.boxExtendBy alignedBox tmp2)
        (transpoints ++ [tmp2])

/-- Static function `intersect_box_box(min, max, boxmin, boxmax, matrix, alignedIntersect)`:
the value returned and the value of the reference argument `alignedIntersect` afterwards (it
is left as it was when a corner lies inside). -/
def intersect_box_box (E : SbBase) (min max boxmin boxmax : SbVec3f) (matrix : SbMatrix)
    (alignedIntersect : Bool) : Bool × Bool :=
  match cornerLoop E min max boxmin boxmax matrix (List.range 8) SbBox3f.empty [] with
  | none => (true, alignedIntersect)
  | some (alignedBox, transpoints) =>
    let thisbox : SbBox3f := ⟨min, max⟩
    let alignedIntersect1 := E.boxIntersectBox thisbox alignedBox
    if alignedIntersect1 then (intersect_box_edges E min max transpoints, alignedIntersect1)
    else (false, alignedIntersect1)

/-- Method `SbXfBox3f::intersect(const SbBox3f & bb)`: the result and the object afterwards.
The local `alignedIntersect` is declared without a value; `uninit` is what it happens to
hold. -/
def intersectBox (E : SbBase) (b : SbXfBox3f) (bb : SbBox3f) (uninit : Bool) :
    Bool × SbXfBox3f :=
  if E.matEq b.matrix SbMatrix.identity then (E.boxIntersectBox b.toSbBox3f bb, b)
  else
    let r1 := intersect_box_box E bb.getMin bb.getMax b.getMin b.getMax b.matrix uninit
    if r1.1 then (true, b)
    else if !r1.2 then (false, b)
    else
      let b1 := calcInverse E b
      ((intersect_box_box E b1.getMin b1.getMax bb.getMin bb.getMax b1.invertedmatrix
        r1.2).1, b1)

/-- Free function `operator==(const SbXfBox3f &, const SbXfBox3f &)`. -/
def opEq (E : SbBase) (b1 b2 : SbXfBox3f) : Int :=
  if E.vecEq b1.getMin b2.getMin && E.vecEq b1.getMax b2.getMax && E.matEq b1.matrix b2.matrix
  then 1 else 0

/-- Free function `operator!=(const SbXfBox3f &, const SbXfBox3f &)`: `!(b1 == b2)`. -/
def opNe (E : SbBase) (b1 b2 : SbXfBox3f) : Int :=
  if opEq E b1 b2 = 0 then 1 else 0

end SbXfBox3f

/-! ## The standard base library

Concrete versions of the `SbBase` members, used to evaluate the code on explicit inputs. -/

namespace Std3D

/-- Modelled from the spec: `SbMatrix::multVecMatrix`, whose body is in SbMatrix.cpp; the
point is a row vector with a fourth component `1`, multiplied by the matrix from the left and
divided by the resulting fourth component. -/
def multVecMatrix (m : SbMatrix) (src : SbVec3f) : SbVec3f :=
  let w := src.x * m.a03 + src.y * m.a13 + src.z * m.a23 + m.a33
  ⟨(src.x * m.a00 + src.y * m.a10 + src.z * m.a20 + m.a30) / w,
   (src.x * m.a01 + src.y * m.a11 + src.z * m.a21 + m.a31) / w,
   (src.x * m.a02 + src.y * m.a12 + src.z * m.a22 + m.a32) / w⟩

/-- Modelled from the spec: `SbMatrix::multRight`, whose body is in SbMatrix.cpp; the matrix
product `this * m`. -/
def multRight (t m : SbMatrix) : SbMatrix :=
  { a00 := t.a00 * m.a00 + t.a01 * m.a10 + t.a02 * m.a20 + t.a03 * m.a30,
    a01 := t.a00 * m.a01 + t.a01 * m.a11 + t.a02 * m.a21 + t.a03 * m.a31,
    a02 := t.a00 * m.a02 + t.a01 * m.a12 + t.a02 * m.a22 + t.a03 * m.a32,
    a03 := t.a00 * m.a03 + t.a01 * m.a13 + t.a02 * m.a23 + t.a03 * m.a33,
    a10 := t.a10 * m.a00 + t.a11 * m.a10 + t.a12 * m.a20 + t.a13 * m.a30,
    a11 := t.a10 * m.a01 + t.a11 * m.a11 + t.a12 * m.a21 + t.a13 * m.a31,
    a12 := t.a10 * m.a02 + t.a11 * m.a12 + t.a12 * m.a22 + t.a13 * m.a32,
    a13 := t.a10 * m.a03 + t.a11 * m.a13 + t.a12 * m.a23 + t.a13 * m.a33,
    a20 := t.a20 * m.a00 + t.a21 * m.a10 + t.a22 * m.a20 + t.a23 * m.a30,
    a21 := t.a20 * m.a01 + t.a21 * m.a11 + t.a22 * m.a21 + t.a23 * m.a31,
    a22 := t.a20 * m.a02 + t.a21 * m.a12 + t.a22 * m.a22 + t.a23 * m.a32,
    a23 := t.a20 * m.a03 + t.a21 * m.a13 + t.a22 * m.a23 + t.a23 * m.a33,
    a30 := t.a30 * m.a00 + t.a31 * m.a10 + t.a32 * m.a20 + t.a33 * m.a30,
    a31 := t.a30 * m.a01 + t.a31 * m.a11 + t.a32 * m.a21 + t.a33 * m.a31,
    a32 := t.a30 * m.a02 + t.a31 * m.a12 + t.a32 * m.a22 + t.a33 * m.a32,
    a33 := t.a30 * m.a03 + t.a31 * m.a13 + t.a32 * m.a23 + t.a33 * m.a33 }

/-- Determinant of a 4x4 matrix (`SbMatrix::det4`), by 2x2 minors of the upper and lower
row pairs. -/
def det4 (m : SbMatrix) : ℚ :=
  (m.a00 * m.a11 - m.a10 * m.a01) * (m.a22 * m.a33 - m.a32 * m.a23)
  - (m.a00 * m.a12 - m.a10 * m.a02) * (m.a21 * m.a33 - m.a31 * m.a23)
  + (m.a00 * m.a13 - m.a10 * m.a03) * (m.a21 * m.a32 - m.a31 * m.a22)
  + (m.a01 * m.a12 - m.a11 * m.a02) * (m.a20 * m.a33 - m.a30 * m.a23)
  - (m.a01 * m.a13 - m.a11 * m.a03) * (m.a20 * m.a32 - m.a30 * m.a22)
  + (m.a02 * m.a13 - m.a12 * m.a03) * (m.a20 * m.a31 - m.a30 * m.a21)

/-- Modelled from the spec: `SbMatrix::inverse`, whose body is in SbMatrix.cpp; the matrix
inverse (adjugate over determinant), falling back to the identity for a singular matrix. -/
def inverse (m : SbMatrix) : SbMatrix :=
  let s0 := m.a00 * m.a11 - m.a10 * m.a01
  let s1 := m.a00 * m.a12 - m.a10 * m.a02
  let s2 := m.a00 * m.a13 - m.a10 * m.a03
  let s3 := m.a01 * m.a12 - m.a11 * m.a02
  let s4 := m.a01 * m.a13 - m.a11 * m.a03
  let s5 := m.a02 * m.a13 - m.a12 * m.a03
  let c5 := m.a22 * m.a33 - m.a32 * m.a23
  let c4 := m.a21 * m.a33 - m.a31 * m.a23
  let c3 := m.a21 * m.a32 - m.a31 * m.a22
  let c2 := m.a20 * m.a33 - m.a30 * m.a23
  let c1 := m.a20 * m.a32 - m.a30 * m.a22
  let c0 := m.a20 * m.a31 - m.a30 * m.a21
  let d := det4 m
  if d = 0 then SbMatrix.identity
  else
    { a00 := (m.a11 * c5 - m.a12 * c4 + m.a13 * c3) / d,
      a01 := (-m.a01 * c5 + m.a02 * c4 - m.a03 * c3) / d,
      a02 := (m.a31 * s5 - m.a32 * s4 + m.a33 * s3) / d,
      a03 := (-m.a21 * s5 + m.a22 * s4 - m.a23 * s3) / d,
      a10 := (-m.a10 * c5 + m.a12 * c2 - m.a13 * c1) / d,
      a11 := (m.a00 * c5 - m.a02 * c2 + m.a03 * c1) / d,
      a12 := (-m.a30 * s5 + m.a32 * s2 - m.a33 * s1) / d,
      a13 := (m.a20 * s5 - m.a22 * s2 + m.a23 * s1) / d,
      a20 := (m.a10 * c4 - m.a11 * c2 + m.a13 * c0) / d,
      a21 := (-m.a00 * c4 + m.a01 * c2 - m.a03 * c0) / d,
      a22 := (m.a30 * s4 - m.a31 * s2 + m.a33 * s0) / d,
      a23 := (-m.a20 * s4 + m.a21 * s2 - m.a23 * s0) / d,
      a30 := (-m.a10 * c3 + m.a11 * c1 - m.a12 * c0) / d,
      a31 := (m.a00 * c3 - m.a01 * c1 + m.a02 * c0) / d,
      a32 := (-m.a30 * s3 + m.a31 * s1 - m.a32 * s0) / d,
      a33 := (m.a20 * s3 - m.a21 * s1 + m.a22 * s0) / d }

/-- Modelled from the spec: `SbBox3f::extendBy(const SbVec3f &)`, whose body is in
SbBox3f.cpp; the ordinary union of the box with a point, componentwise minimum and maximum. -/
def boxExtendBy (b : SbBox3f) (p : SbVec3f) : SbBox3f :=
  { min := ⟨Min.min p.x b.min.x, Min.min p.y b.min.y, Min.min p.z b.min.z⟩,
    max := ⟨Max.max p.x b.max.x, Max.max p.y b.max.y, Max.max p.z b.max.z⟩ }

/-- Modelled from the spec: `SbBox3f::transform(const SbMatrix &)`, whose body is in
SbBox3f.cpp; the axis-aligned hull of the eight transformed corners, an empty box staying as
it is. -/
def boxTransform (b : SbBox3f) (m : SbMatrix) : SbBox3f :=
  if b.isEmpty then b
  else b.corners.foldl (fun nb c => boxExtendBy nb (multVecMatrix m c)) SbBox3f.empty

/-- Modelled from the spec: `SbBox3f::intersect(const SbVec3f &)`, whose body is in
SbBox3f.cpp; the point lies within the closed box. -/
def boxIntersect (b : SbBox3f) (p : SbVec3f) : Bool :=
  !(decide (p.x < b.min.x) || decide (p.x > b.max.x) || decide (p.y < b.min.y)
    || decide (p.y > b.max.y) || decide (p.z < b.min.z) || decide (p.z > b.max.z))

/-- Modelled from the spec: `SbBox3f::intersect(const SbBox3f &)`, whose body is in
SbBox3f.cpp; the two closed boxes overlap on all three axes. -/
def boxIntersectBox (b box : SbBox3f) : Bool :=
  !(decide (b.max.x < box.min.x) || decide (b.max.y < box.min.y)
    || decide (b.max.z < box.min.z) || decide (b.min.x > box.max.x)
    || decide (b.min.y > box.max.y) || decide (b.min.z > box.max.z))

/-- Modelled from the spec: `SbVec3f::normalize()`, whose body is in SbVec3f.cpp; the vector
divided by its length, a vector of length zero staying as it is. -/
def normalize (v : SbVec3f) : SbVec3f :=
  let len := Rat.sqrt (v.x * v.x + v.y * v.y + v.z * v.z)
  if len > 0 then ⟨v.x / len, v.y / len, v.z / len⟩ else v

end Std3D

/-- The standard base library: exact matrix algebra, componentwise comparisons, and
`Rat.sqrt`, which is the exact square root on squares of rationals. -/
def coin : SbBase :=
  { inverse := Std3D.inverse
    multRight := Std3D.multRight
    multVecMatrix := Std3D.multVecMatrix
    matEq := fun a b => decide (a = b)
    vecEq := fun a b => decide (a = b)
    boxExtendBy := Std3D.boxExtendBy
    boxTransform := Std3D.boxTransform
    boxIntersect := Std3D.boxIntersect
    sqrt := Rat.sqrt
    boxIntersectBox := Std3D.boxIntersectBox
    normalize := Std3D.normalize }

/-! ## Notions used to state the properties -/

/-- Cache coherence of a transformed box: the cached inverse is marked invalid
(`invertedmatrix[0][0] == FLT_MAX`) or it is the inverse of the transform. -/
def CacheCoherent (E : SbBase) (b : SbXfBox3f) : Prop :=
  b.invertedmatrix.a00 = FLT_MAX ∨ b.invertedmatrix = E.inverse b.matrix

/-- A plain box extended, through `SbBox3f::extendBy(const SbVec3f &)`, by the eight corners
of the box `c`, each corner first mapped by `f`. -/
def extendByCorners (E : SbBase) (f : SbVec3f → SbVec3f) (b c : SbBox3f) : SbBox3f :=
  c.corners.foldl (fun box p => E.boxExtendBy box (f p)) b

/-- Candidate (a) of `extendBy(const SbBox3f &)`: the local bounds of `A` extended by the
corners of `B` mapped through the inverse of the transform of `A`; the transform is kept. -/
def candidateKeep (E : SbBase) (A : SbXfBox3f) (B : SbBox3f) : SbXfBox3f :=
  { toSbBox3f := extendByCorners E (E.multVecMatrix (E.inverse A.matrix)) A.toSbBox3f B,
    matrix := A.matrix,
    invertedmatrix := E.inverse A.matrix }

/-- The plain box of candidate (b): `A` projected into world space and extended by the
corners of `B`. -/
def flattenExtend (E : SbBase) (A : SbXfBox3f) (B : SbBox3f) : SbBox3f :=
  extendByCorners E (fun p => p) (SbXfBox3f.project E A) B

/-- Candidate (b) of `extendBy(const SbBox3f &)`: the flattened union, with the transform and
the cached inverse reset to the identity. -/
def candidateFlat (E : SbBase) (A : SbXfBox3f) (B : SbBox3f) : SbXfBox3f :=
  { toSbBox3f := flattenExtend E A B,
    matrix := SbMatrix.identity,
    invertedmatrix := SbMatrix.identity }

/-- Candidate of `extendBy(const SbXfBox3f &)` that keeps the frame of `K`: the bounds of `K`
extended by the corners of `O` mapped through `O.transform * inverse(K.transform)`; the
transform of `K` is kept. -/
def keepFrame (E : SbBase) (K O : SbXfBox3f) : SbXfBox3f :=
  { toSbBox3f := extendByCorners E
      (E.multVecMatrix (E.multRight O.matrix (E.inverse K.matrix))) K.toSbBox3f O.toSbBox3f,
    matrix := K.matrix,
    invertedmatrix := E.inverse K.matrix }

/-- The object after `n` successive calls of `getInverse()`. -/
def afterReads (E : SbBase) : Nat → SbXfBox3f → SbXfBox3f
  | 0, b => b
  | n + 1, b => afterReads E n (SbXfBox3f.getInverse E b).2

/-- Number of `SbMatrix::inverse()` calls made by `n` successive calls of `getInverse()`
(each of which calls `calcInverse()` once). -/
def inversionsInReads (E : SbBase) : Nat → SbXfBox3f → Nat
  | 0, _ => 0
  | n + 1, b =>
    (SbXfBox3f.calcInverseTraced E b).2 + inversionsInReads E n (SbXfBox3f.getInverse E b).2

/-- Componentwise containment of a point in the closed box. -/
def SbBox3f.Contains (b : SbBox3f) (p : SbVec3f) : Prop :=
  b.min.x ≤ p.x ∧ p.x ≤ b.max.x ∧ b.min.y ≤ p.y ∧ p.y ≤ b.max.y ∧ b.min.z ≤ p.z ∧ p.z ≤ b.max.z

/-! ## Explicit inputs -/

open SbXfBox3f

/-- Translation by one unit along the first axis. -/
def translateX : SbMatrix :=
  { a00 := 1, a01 := 0, a02 := 0, a03 := 0,
    a10 := 0, a11 := 1, a12 := 0, a13 := 0,
    a20 := 0, a21 := 0, a22 := 1, a23 := 0,
    a30 := 1, a31 := 0, a32 := 0, a33 := 1 }

/-- An invertible matrix (determinant 1) whose entries are all `float` values and whose
inverse has `FLT_MAX` as its `[0][0]` entry. -/
def sentinelMatrix : SbMatrix :=
  { a00 := 0, a01 := 1, a02 := 0, a03 := 0,
    a10 := -1, a11 := FLT_MAX, a12 := 0, a13 := 0,
    a20 := 0, a21 := 0, a22 := 1, a23 := 0,
    a30 := 0, a31 := 0, a32 := 0, a33 := 1 }

/-- The unit cube `[0,1]^3`. -/
def unitBox : SbBox3f := ⟨⟨0, 0, 0⟩, ⟨1, 1, 1⟩⟩

/-- A sheared, scaled transform whose column norms are 40, 41 and 41. -/
def shearMatrix : SbMatrix :=
  { a00 := 40, a01 := 40, a02 := 40, a03 := 0,
    a10 := 0, a11 := 9, a12 := 0, a13 := 0,
    a20 := 0, a21 := 0, a22 := 9, a23 := 0,
    a30 := 0, a31 := 0, a32 := 0, a33 := 1 }

/-- The box `[0,1] x [0,9] x [0,9]` carrying `shearMatrix`. -/
def shearedBox : SbXfBox3f := setTransform (ofBounds ⟨0, 0, 0⟩ ⟨1, 9, 9⟩) shearMatrix

/-- An empty box (its maximum lies below its minimum) whose corners are those of the unit
cube. -/
def invertedUnitBox : SbBox3f := ⟨⟨1, 1, 1⟩, ⟨0, 0, 0⟩⟩

/-- The unit cube carrying the translation `translateX`: it covers `[1,2] x [0,1] x [0,1]`. -/
def shiftedUnit : SbXfBox3f := setTransform (ofBounds ⟨0, 0, 0⟩ ⟨1, 1, 1⟩) translateX

/-- The plain box `[1,2] x [0,1] x [0,1]`. -/
def worldUnit : SbBox3f := ⟨⟨1, 0, 0⟩, ⟨2, 1, 1⟩⟩

/-- An empty box that carries the translation `translateX`. -/
def emptyShifted : SbXfBox3f := setTransform SbXfBox3f.default translateX

/-- The box `shiftedUnit` after its inverse has been read: the cache holds the translation by
minus one unit. -/
def shiftedUnitCached : SbXfBox3f :=
  { toSbBox3f := unitBox, matrix := translateX,
    invertedmatrix := { SbMatrix.identity with a30 := -1 } }

/-- The box `[0,1] x [0,3] x [0,1]` carrying the translation `translateX`: it covers
`[1,2] x [0,3] x [0,1]`. -/
def crossBar : SbXfBox3f := setTransform (ofBounds ⟨0, 0, 0⟩ ⟨1, 3, 1⟩) translateX

/-- The plain box `[0,3] x [1,2] x [0,1]`; with `crossBar` it forms a cross, the two sharing
the cube `[1,2] x [1,2] x [0,1]`. -/
def crossBeam : SbBox3f := ⟨⟨0, 1, 0⟩, ⟨3, 2, 1⟩⟩

/-- The states of an `SbXfBox3f` object that client code can produce: the three constructors,
followed by any sequence of the mutating members and of the `const` members that fill the
cache (`calcInverse`, `getInverse` and the two `intersect` members). -/
inductive Reachable (E : SbBase) (dbg : Bool) : SbXfBox3f → Prop
  | default : Reachable E dbg SbXfBox3f.default
  | ofBounds (mn mx : SbVec3f) : Reachable E dbg (SbXfBox3f.ofBounds mn mx)
  | ofBox (box : SbBox3f) : Reachable E dbg (SbXfBox3f.ofBox box)
  | setBounds {b : SbXfBox3f} (mn mx : SbVec3f) :
      Reachable E dbg b → Reachable E dbg (SbXfBox3f.setBounds b mn mx)
  | setTransform {b : SbXfBox3f} (m : SbMatrix) :
      Reachable E dbg b → Reachable E dbg (SbXfBox3f.setTransform b m)
  | transform {b : SbXfBox3f} (m : SbMatrix) :
      Reachable E dbg b → Reachable E dbg (SbXfBox3f.transform E b m)
  | extendByPt {b : SbXfBox3f} (p : SbVec3f) :
      Reachable E dbg b → Reachable E dbg (SbXfBox3f.extendByPt E b p)
  | extendByBox {b : SbXfBox3f} (bb : SbBox3f) :
      Reachable E dbg b → Reachable E dbg (SbXfBox3f.extendByBox E dbg b bb)
  | extendByXfBox {b bb : SbXfBox3f} :
      Reachable E dbg b → Reachable E dbg bb →
      Reachable E dbg (SbXfBox3f.extendByXfBox E dbg b bb)
  | calcInverse {b : SbXfBox3f} :
      Reachable E dbg b → Reachable E dbg (SbXfBox3f.calcInverse E b)
  | getInverse {b : SbXfBox3f} :
      Reachable E dbg b → Reachable E dbg (SbXfBox3f.getInverse E b).2
  | intersectPt {b : SbXfBox3f} (p : SbVec3f) :
      Reachable E dbg b → Reachable E dbg (SbXfBox3f.intersectPt E b p).2
  | intersectBox {b : SbXfBox3f} (bb : SbBox3f) (uninit : Bool) :
      Reachable E dbg b → Reachable E dbg (SbXfBox3f.intersectBox E b bb uninit).2

/-! ## `SoSFFloat` (src/fields/SoSFFloat.cpp) -/

/-- The field `SoSFFloat`, a container for one floating point value. -/
structure SoSFFloat where
  value : ℚ

/-- Modelled from the spec: `SoSFFloat::setValue(float)`, generated by the macro
`SO_SFIELD_SOURCE` of SoSubFieldP.h; it stores the value in the field. -/
def SoSFFloat.setValue (f : SoSFFloat) (v : ℚ) : SoSFFloat := { f with value := v }

/-- Modelled from the spec: `SoSFFloat::getValue()`, generated by the macro
`SO_SFIELD_SOURCE` of SoSubFieldP.h; it returns the stored value. -/
def SoSFFloat.getValue (f : SoSFFloat) : ℚ := f.value

/-- The member of `SoInput` that SoSFFloat.cpp calls, over any type `In` of stream states:
`read(float & val)` takes the stream and the current content of `val` and gives the flag
returned, the content of `val` afterwards and the stream afterwards. -/
structure SoInputBase (In : Type) where
  read : In → ℚ → Bool × ℚ × In

/-- The message posted when no float can be read. -/
def prematureEnd : String := "Premature end of file"

/-- Function `sosffloat_read_value(in, val)`: the flag returned, `val` afterwards, the stream
afterwards and the list of read errors posted through `SoReadError::post` afterwards. -/
def sosffloat_read_value {In : Type} (I : SoInputBase In) (inp : In) (val : ℚ)
    (errors : List String) : Bool × ℚ × In × List String :=
  let r := I.read inp val
  if !r.1 then (false, r.2.1, r.2.2, errors ++ [prematureEnd])
  else (true, r.2.1, r.2.2, errors)

/-- Method `SoSFFloat::readValue(in)`: the flag returned, the field afterwards, the stream
afterwards and the read errors afterwards.  The local `val` is declared without a value;
`uninit` is what it happens to hold. -/
def SoSFFloat.readValue {In : Type} (I : SoInputBase In) (self : SoSFFloat) (inp : In)
    (uninit : ℚ) (errors : List String) : Bool × SoSFFloat × In × List String :=
  let r := sosffloat_read_value I inp uninit errors
  if !r.1 then (false, self, r.2.2.1, r.2.2.2)
  else (true, self.setValue r.2.1, r.2.2.1, r.2.2.2)

/-! ## `SbSphereProjector` (src/projectors/SbSphereProjector.cpp) -/

/-- Modelled from the spec: unary `operator-` on `SbVec3f`, whose body is in SbVec3f.cpp; the
componentwise negation. -/
def SbVec3f.neg (a : SbVec3f) : SbVec3f := ⟨-a.x, -a.y, -a.z⟩

/-- The sphere `SbSphere`: centre and radius. -/
structure SbSphere where
  center : SbVec3f
  radius : ℚ

/-- Accessor `SbSphere::getCenter()`. -/
def SbSphere.getCenter (s : SbSphere) : SbVec3f := s.center

/-- The line `SbLine`: a position and a direction. -/
structure SbLine where
  pos : SbVec3f
  dir : SbVec3f

/-- The projector `SbSphereProjector`, with the members `viewVol` and `worldToWorking` it
inherits from `SbProjector`; `ViewVol` stands for the class `SbViewVolume`. -/
structure SbSphereProjector (ViewVol : Type) where
  intersectFront : Bool
  sphere : SbSphere
  orientToEye : Bool
  needSetup : Bool
  lastPoint : SbVec3f
  viewVol : ViewVol
  worldToWorking : SbMatrix

/-- The members of `SbViewVolume`, `SbMatrix`, `SbVec3f` and `SbSphere` that
SbSphereProjector.cpp calls in `isPointInFront` and `intersectSphereFront`. -/
structure SbProjectorBase (ViewVol : Type) where
  /-- Accessor `SbViewVolume::getProjectionDirection()`. -/
  getProjectionDirection : ViewVol → SbVec3f
  /-- Direction transformation `SbMatrix::multDirMatrix(src, dst)`: the value written. -/
  multDirMatrix : SbMatrix → SbVec3f → SbVec3f
  /-- Scalar product `SbVec3f::dot`. -/
  dot : SbVec3f → SbVec3f → ℚ
  /-- Line test `SbSphere::intersect(l, enter, exit)`: from the sphere, the line and the
  current contents of the two output arguments, the flag returned and the two contents
  afterwards. -/
  sphereIntersect : SbSphere → SbLine → SbVec3f → SbVec3f → Bool × SbVec3f × SbVec3f

namespace SbSphereProjector

/-- Method `SbSphereProjector::isPointInFront(point)`. -/
def isPointInFront {ViewVol : Type} (P : SbProjectorBase ViewVol)
    (self : SbSphereProjector ViewVol) (point : SbVec3f) : Bool :=
  let dir : SbVec3f :=
    if self.orientToEye then
      P.multDirMatrix self.worldToWorking (SbVec3f.neg (P.getProjectionDirection self.viewVol))
    else ⟨0, 0, 1⟩
  let vec := point.sub self.sphere.getCenter
  let dot := P.dot vec dir
  if self.intersectFront then decide (dot ≥ 0) else decide (dot < 0)

/-- Method `SbSphereProjector::intersectSphereFront(l, result)`: the flag returned, `result`
afterwards and the projector afterwards.  `i0` and `i1` are declared without a value; `u0`
and `u1` are what they happen to hold. -/
def intersectSphereFront {ViewVol : Type} (P : SbProjectorBase ViewVol)
    (self : SbSphereProjector ViewVol) (l : SbLine) (result u0 u1 : SbVec3f) :
    Bool × SbVec3f × SbSphereProjector ViewVol :=
  let r := P.sphereIntersect self.sphere l u0 u1
  let i0 := r.2.1
  let i1 := r.2.2
  if r.1 then
    (true, if isPointInFront P self i0 then i0 else i1, self)
  else (false, result, self)

end SbSphereProjector

/-! ## Thread-local storage (src/threads/storage.c) -/

/-- Modelled from the spec: the dictionary `cc_hash` of src/base/hash.c, which maps a thread
identity to a block; an association list with at most one entry per key. -/
abbrev cc_hash := List (Nat × Nat)

/-- Modelled from the spec: `cc_hash_get(ht, key, &val)` of src/base/hash.c; the value stored
under the key, if there is one. -/
def cc_hash_get (ht : cc_hash) (key : Nat) : Option Nat :=
  match ht with
  | [] => none
  | (k, v) :: rest => if k = key then some v else cc_hash_get rest key

/-- Modelled from the spec: `cc_hash_put(ht, key, val)` of src/base/hash.c; the dictionary
afterwards: the value under an existing key is replaced, a new key gets a new entry. -/
def cc_hash_put (ht : cc_hash) (key val : Nat) : cc_hash :=
  match ht with
  | [] => [(key, val)]
  | (k, v) :: rest => if k = key then (k, val) :: rest else (k, v) :: cc_hash_put rest key val

/-- A call that storage.c makes to the C library or to a hook of the storage; blocks and
hooks are named by their addresses. -/
inductive StorageEvent where
  | malloc (size block : Nat)
  | construct (hook block : Nat)
  | destruct (hook block : Nat)
  | free (block : Nat)
deriving DecidableEq

/-- Modelled from the spec: `cc_hash_apply(ht, func, closure)` of src/base/hash.c; `func` is
called once on every entry, and the calls it makes are collected in order. -/
def cc_hash_apply (ht : cc_hash) (func : Nat → Nat → List StorageEvent) : List StorageEvent :=
  match ht with
  | [] => []
  | (k, v) :: rest => func k v ++ cc_hash_apply rest func

/-- The struct `cc_storage`: block size, the two optional hooks (`none` is `NULL`) and the
dictionary.  The mutex only serialises the calls, which the model takes one at a time. -/
structure cc_storage where
  size : Nat
  constructor : Option Nat
  destructor : Option Nat
  dict : cc_hash

/-- Static function `cc_storage_init(size, constructor, destructor)`. -/
def cc_storage_init (size : Nat) (constructor destructor : Option Nat) : cc_storage :=
  { size := size, constructor := constructor, destructor := destructor, dict := [] }

/-- Function `cc_storage_construct(size)`. -/
def cc_storage_construct (size : Nat) : cc_storage := cc_storage_init size none none

/-- Function `cc_storage_construct_etc(size, constructor, destructor)`. -/
def cc_storage_construct_etc (size : Nat) (constructor destructor : Option Nat) :
    cc_storage :=
  cc_storage_init size constructor destructor

/-- Static function `cc_storage_hash_destruct_cb(key, val, closure)`: the calls it makes. -/
def cc_storage_hash_destruct_cb (storage : cc_storage) (_key val : Nat) : List StorageEvent :=
  (match storage.destructor with
    | some d => [StorageEvent.destruct d val]
    | none => [])
  ++ [StorageEvent.free val]

/-- Function `cc_storage_destruct(storage)`: the calls made on the blocks of the storage. -/
def cc_storage_destruct (storage : cc_storage) : List StorageEvent :=
  cc_hash_apply storage.dict (cc_storage_hash_destruct_cb storage)

/-- Function `cc_storage_get(storage)`, called by the thread `threadid` (the value of
`cc_thread_id()`) when `malloc` would return `fresh`: the block returned, the storage
afterwards and the calls made. -/
def cc_storage_get (storage : cc_storage) (threadid fresh : Nat) :
    Nat × cc_storage × List StorageEvent :=
  match cc_hash_get storage.dict threadid with
  | some val => (val, storage, [])
  | none =>
    let val := fresh
    (val, { storage with dict := cc_hash_put storage.dict threadid val },
      [StorageEvent.malloc storage.size val]
      ++ (match storage.constructor with
          | some c => [StorageEvent.construct c val]
          | none => []))

/-- A sequence of `cc_storage_get` calls, each given as the calling thread and the block
`malloc` would return: the storage afterwards and all calls made, in order. -/
def cc_storage_gets (storage : cc_storage) :
    List (Nat × Nat) → cc_storage × List StorageEvent
  | [] => (storage, [])
  | (t, fresh) :: rest =>
    let r := cc_storage_get storage t fresh
    let r2 := cc_storage_gets r.2.1 rest
    (r2.1, r.2.2 ++ r2.2)

/-- The blocks on which the constructor hook was called, in order. -/
def constructedBlocks : List StorageEvent → List Nat
  | [] => []
  | StorageEvent.construct _ b :: rest => b :: constructedBlocks rest
  | _ :: rest => constructedBlocks rest

/-- The blocks on which the destructor hook was called, in order. -/
def destructedBlocks : List StorageEvent → List Nat
  | [] => []
  | StorageEvent.destruct _ b :: rest => b :: destructedBlocks rest
  | _ :: rest => destructedBlocks rest

/-- The blocks obtained from `malloc`, in order. -/
def allocatedBlocks : List StorageEvent → List Nat
  | [] => []
  | StorageEvent.malloc _ b :: rest => b :: allocatedBlocks rest
  | _ :: rest => allocatedBlocks rest

/-- The blocks handed to `free`, in order. -/
def freedBlocks : List StorageEvent → List Nat
  | [] => []
  | StorageEvent.free b :: rest => b :: freedBlocks rest
  | _ :: rest => freedBlocks rest

/-- The blocks registered in the dictionary of a storage. -/
def cc_storage.blocks (storage : cc_storage) : List Nat := storage.dict.map Prod.snd

/-- Every `malloc` result of the call sequence is a block that is not registered at the time
of the call: a live block is not handed out again. -/
def FreshCalls (storage : cc_storage) : List (Nat × Nat) → Prop
  | [] => True
  | (t, fresh) :: rest =>
    fresh ∉ storage.blocks ∧ FreshCalls (cc_storage_get storage t fresh).2.1 rest

/-- The teardown calls on a list of blocks: for each block in turn the destructor hook, when
there is one, and then `free`. -/
def teardownCalls (destructor : Option Nat) : List Nat → List StorageEvent
  | [] => []
  | b :: rest =>
    (match destructor with
      | some d => [StorageEvent.destruct d b]
      | none => [])
    ++ [StorageEvent.free b] ++ teardownCalls destructor rest

/-- A storage built by `cc_storage_construct_etc` and used through a sequence of
`cc_storage_get` calls: the storage before teardown and the calls made so far. -/
def storageInUse (size : Nat) (constructor destructor : Option Nat)
    (calls : List (Nat × Nat)) : cc_storage × List StorageEvent :=
  cc_storage_gets (cc_storage_construct_etc size constructor destructor) calls

/-! ## Traversal state (specification sections 3 and 4.1, SoPickRayElement.h) -/

/-- Modelled from the spec: the element kinds, a closed set of which the sources declare
`SoPickRayElement`; the others are numbered. -/
inductive ElementKind where
  | pickRay
  | other (id : Nat)
deriving DecidableEq

/-- Modelled from the spec: an `Element` on a slot stack, with the stack depth at which it was
set and its payload; the classes `SoElement` and `SoState` are not in the sources.  `V` is the
type of payloads, `SbViewVolume` for the pick ray. -/
structure SoElement (V : Type) where
  depth : Nat
  value : V

/-- Modelled from the spec: the `State` of one traversal: the current push nesting, one slot
per element kind, each a small stack with its top first, and the per-slot generation
counter. -/
structure SoState (V : Type) where
  depth : Nat
  slots : ElementKind → List (SoElement V)
  generation : ElementKind → Nat

namespace SoState

/-- Modelled from the spec: the state an action starts from: depth zero, nothing set. -/
def initial (V : Type) : SoState V :=
  { depth := 0, slots := fun _ => [], generation := fun _ => 0 }

/-- Modelled from the spec: `getElement`, the value currently visible for an element kind;
the default-initialised instance when the kind was never set. -/
def getElement {V : Type} (dflt : ElementKind → V) (s : SoState V) (k : ElementKind) : V :=
  match s.slots k with
  | [] => dflt k
  | e :: _ => e.value

/-- Modelled from the spec: writing an element: the top of the slot is overwritten when it
was already written at the current depth, otherwise a new level is put on the slot (clone on
write); the generation counter of the slot is incremented. -/
def setElement {V : Type} (s : SoState V) (k : ElementKind) (v : V) : SoState V :=
  { s with
    slots := Function.update s.slots k
      (match s.slots k with
        | [] => [⟨s.depth, v⟩]
        | e :: rest => if e.depth = s.depth then ⟨s.depth, v⟩ :: rest
          else ⟨s.depth, v⟩ :: e :: rest)
    generation := Function.update s.generation k (s.generation k + 1) }

/-- Modelled from the spec: `push()` saves a checkpoint: the nesting grows by one and no slot
is copied. -/
def push {V : Type} (s : SoState V) : SoState V := { s with depth := s.depth + 1 }

/-- What `pop()` at nesting `d` leaves of one slot: the level written at depth `d`, if there
is one, is dropped. -/
def popSlot {V : Type} (d : Nat) : List (SoElement V) → List (SoElement V)
  | [] => []
  | e :: rest => if e.depth = d then rest else e :: rest

/-- Modelled from the spec: `pop()` restores the checkpoint: the levels written since the
matching `push()` are dropped and the nesting shrinks by one; popping past the initial depth
is a fatal programming error, rendered as `none`. -/
def pop {V : Type} (s : SoState V) : Option (SoState V) :=
  if s.depth = 0 then none
  else some { s with depth := s.depth - 1, slots := fun k => popSlot s.depth (s.slots k) }

end SoState

/-- Modelled from the spec: `SoPickRayElement::set(state, volume)`, declared in
SoPickRayElement.h, its body not in the sources; writes the view volume to the pick-ray
slot. -/
def SoPickRayElement.set {V : Type} (state : SoState V) (volume : V) : SoState V :=
  state.setElement ElementKind.pickRay volume

/-- Modelled from the spec: `SoPickRayElement::get(state)`, declared in SoPickRayElement.h,
its body not in the sources; reads the view volume visible in the pick-ray slot. -/
def SoPickRayElement.get {V : Type} (dflt : ElementKind → V) (state : SoState V) : V :=
  state.getElement dflt ElementKind.pickRay

/-- One step of a traversal on the state: a push, a pop, or the write of an element. -/
inductive StateOp (V : Type) where
  | push
  | pop
  | set (k : ElementKind) (v : V)

/-- The state after a sequence of steps; `none` when a pop goes past the initial depth. -/
def SoState.run {V : Type} : List (StateOp V) → SoState V → Option (SoState V)
  | [], s => some s
  | StateOp.push :: ops, s => SoState.run ops s.push
  | StateOp.pop :: ops, s =>
    match s.pop with
    | none => none
    | some s1 => SoState.run ops s1
  | StateOp.set k v :: ops, s => SoState.run ops (s.setElement k v)

/-- Sequences of steps in which every pop matches an earlier push of the sequence and every
push is matched: what happens between a push and its matching pop. -/
inductive Balanced {V : Type} : List (StateOp V) → Prop
  | nil : Balanced []
  | set (k : ElementKind) (v : V) {ops : List (StateOp V)} :
      Balanced ops → Balanced (StateOp.set k v :: ops)
  | nest {body rest : List (StateOp V)} :
      Balanced body → Balanced rest →
      Balanced (StateOp.push :: (body ++ StateOp.pop :: rest))

/-- The levels of a slot lie strictly below `bound` and strictly decrease from the top. -/
def Descending {V : Type} : Nat → List (SoElement V) → Prop
  | _, [] => True
  | bound, e :: rest => e.depth < bound ∧ Descending e.depth rest

/-- Well-formed states: in every slot the levels were written at strictly increasing depths,
none deeper than the current nesting. -/
def SoState.WellFormed {V : Type} (s : SoState V) : Prop :=
  ∀ k, Descending (s.depth + 1) (s.slots k)

/-! ## Further explicit inputs -/

/-- A scale by 2, 3 and -4 along the three axes. -/
def scaleMatrix : SbMatrix :=
  { a00 := 2, a01 := 0, a02 := 0, a03 := 0,
    a10 := 0, a11 := 3, a12 := 0, a13 := 0,
    a20 := 0, a21 := 0, a22 := -4, a23 := 0,
    a30 := 0, a31 := 0, a32 := 0, a33 := 1 }

/-- The box `[0,1] x [0,2] x [0,3]` carrying `scaleMatrix`. -/
def scaledBox : SbXfBox3f := setTransform (ofBounds ⟨0, 0, 0⟩ ⟨1, 2, 3⟩) scaleMatrix

/-- An input stream given by the floats still to be read: `read` takes the first one, and
fails on the empty stream leaving `val` as it is. -/
def tokenInput : SoInputBase (List ℚ) :=
  { read := fun inp val =>
      match inp with
      | [] => (false, val, [])
      | v :: rest => (true, v, rest) }

/-- A storage with both hooks, at addresses 100 and 200, for blocks of 16 bytes. -/
def hookedStorage : cc_storage := cc_storage_construct_etc 16 (some 100) (some 200)

/-- A traversal state in which the pick ray was set to 1 before a push. -/
def pickedState : SoState Nat :=
  ((SoState.initial Nat).setElement ElementKind.pickRay 1).push

/-! ## `SoComposeVec4f` (src/engines/SoComposeVec4f.cpp) -/

/-- Modelled from the spec: the multiple-value field `SoMFFloat`, generated by the macros of
SoSubField.h, as far as `evaluate` reads it: the number of values and the content of the
value array by index.  `operator[]` does not check the index, so the array is a function on
all of `int`, holding whatever the memory holds outside of `0 .. num-1`. -/
structure SoMFFloat where
  num : Int
  values : Int → ℚ

/-- Modelled from the spec: `SoMField::getNum()`, the number of values of the field. -/
def SoMFFloat.getNum (f : SoMFFloat) : Int := f.num

/-- Modelled from the spec: `operator[]` of `SoMFFloat`, the value at an index. -/
def SoMFFloat.get (f : SoMFFloat) (i : Int) : ℚ := f.values i

/-- A call that `evaluate` makes, through the macro `SO_ENGINE_OUTPUT`, on every field
connected to the output `vector`. -/
inductive OutputCall where
  | setNum (n : Int)
  | set1Value (i : Int) (x y z w : ℚ)

/-- The engine `SoComposeVec4f`: its four inputs. -/
structure SoComposeVec4f where
  x : SoMFFloat
  y : SoMFFloat
  z : SoMFFloat
  w : SoMFFloat

/-- The body of the `for` loop of `SoComposeVec4f::evaluate` at index `i`: the call made. -/
def SoComposeVec4f.loopBody (self : SoComposeVec4f) (i : Int) : OutputCall :=
  let numX := self.x.getNum
  let numY := self.y.getNum
  let numZ := self.z.getNum
  let numW := self.w.getNum
  let xVal := if i < numX then self.x.get i else self.x.get (numX - 1)
  let yVal := if i < numY then self.y.get i else self.y.get (numY - 1)
  let zVal := if i < numZ then self.z.get i else self.z.get (numZ - 1)
  let wVal := if i < numW then self.w.get i else self.w.get (numZ - 1)
  OutputCall.set1Value i xVal yVal zVal wVal

/-- The number `numOut` that `SoComposeVec4f::evaluate` computes. -/
def SoComposeVec4f.numOut (self : SoComposeVec4f) : Int :=
  let numX := self.x.getNum
  let numY := self.y.getNum
  let numZ := self.z.getNum
  let numW := self.w.getNum
  let numOut := if numX > numY then numX else numY
  let numOut := if numZ > numOut then numZ else numOut
  if numW > numOut then numW else numOut

/-- Method `SoComposeVec4f::evaluate()`: the calls made on the output, in order; the loop
runs `i` from 0 while `i < numOut`. -/
def SoComposeVec4f.evaluate (self : SoComposeVec4f) : List OutputCall :=
  OutputCall.setNum self.numOut
    :: (List.range self.numOut.toNat).map (fun (i : Nat) => self.loopBody (i : Int))

/-- Four-component vector `SbVec4f`. -/
structure SbVec4f where
  x : ℚ
  y : ℚ
  z : ℚ
  w : ℚ
deriving DecidableEq

/-- Modelled from the spec: the multiple-value field `SoMFVec4f` connected to the output: the
number of values and the values by index. -/
structure SoMFVec4f where
  num : Int
  values : Int → SbVec4f

/-- Modelled from the spec: the effect of one call on an `SoMFVec4f`: `setNum(n)` sets the
number of values; `set1Value(i, x, y, z, w)` stores the vector at index `i` and grows the
field when `i` is not below the number of values. -/
def SoMFVec4f.apply (f : SoMFVec4f) : OutputCall → SoMFVec4f
  | OutputCall.setNum n => { f with num := n }
  | OutputCall.set1Value i x y z w =>
    { num := if i < f.num then f.num else i + 1,
      values := fun j => if j = i then ⟨x, y, z, w⟩ else f.values j }

/-- The field after a sequence of calls. -/
def SoMFVec4f.applyAll (f : SoMFVec4f) (calls : List OutputCall) : SoMFVec4f :=
  calls.foldl SoMFVec4f.apply f

/-- The number of `set1Value` calls in a sequence. -/
def countSet1Value : List OutputCall → Nat
  | [] => 0
  | OutputCall.set1Value _ _ _ _ _ :: rest => countSet1Value rest + 1
  | OutputCall.setNum _ :: rest => countSet1Value rest

/-- A float field holding the values of a list, with zeros outside of it. -/
def SoMFFloat.ofList (l : List ℚ) : SoMFFloat :=
  { num := l.length, values := fun i => if 0 ≤ i then l.getD i.toNat 0 else 0 }

/-- An engine with three values of `x`, one of `y`, one of `z` and two of `w`. -/
def composeExample : SoComposeVec4f :=
  { x := SoMFFloat.ofList [1, 2, 3], y := SoMFFloat.ofList [4], z := SoMFFloat.ofList [5],
    w := SoMFFloat.ofList [7, 8] }

/-! ## Notions used to state the soundness of the box-box test -/

/-- The closed box holds a point: the minimum does not exceed the maximum on any axis. -/
def SbBox3f.NonEmpty (b : SbBox3f) : Prop :=
  b.min.x ≤ b.max.x ∧ b.min.y ≤ b.max.y ∧ b.min.z ≤ b.max.z

instance (b : SbBox3f) : Decidable b.NonEmpty := by
  unfold SbBox3f.NonEmpty
  exact inferInstance

/-- The matrix is an affine transform of row vectors: its last column is `(0, 0, 0, 1)`. -/
def SbMatrix.IsAffine (m : SbMatrix) : Prop :=
  m.a03 = 0 ∧ m.a13 = 0 ∧ m.a23 = 0 ∧ m.a33 = 1

instance (m : SbMatrix) : Decidable m.IsAffine := by
  unfold SbMatrix.IsAffine
  exact inferInstance

/-- The point of the segment from `a` to `b` at parameter `s`. -/
def SbVec3f.lerp (a b : SbVec3f) (s : ℚ) : SbVec3f :=
  ⟨a.x + s * (b.x - a.x), a.y + s * (b.y - a.y), a.z + s * (b.z - a.z)⟩

/-- Corner `i` of the box `(boxmin, boxmax)` in the numbering of the corner loop of
`intersect_box_box`: bit 2 of `i` selects the first coordinate, bit 1 the second and bit 0 the
third, a set bit taking the minimum. -/
def cornerAt (boxmin boxmax : SbVec3f) (i : Nat) : SbVec3f :=
  ⟨if i &&& 4 ≠ 0 then boxmin.get 0 else boxmax.get 0,
    if i &&& 2 ≠ 0 then boxmin.get 1 else boxmax.get 1,
    if i &&& 1 ≠ 0 then boxmin.get 2 else boxmax.get 2⟩

/-- The axis-aligned hull of the transformed corners of `A`: the empty box extended by the
eight corners of `A` mapped through the transform of `A`. -/
def cornerHull (E : SbBase) (A : SbXfBox3f) : SbBox3f :=
  ((List.range 8).map (fun i => E.multVecMatrix A.matrix (cornerAt A.getMin A.getMax i))).foldl
    E.boxExtendBy SbBox3f.empty

/-- The transformed image of `A` and the plain box `B` share a point: some point of the local
box of `A` is carried into `B` by the transform of `A`. -/
def SharePoint (E : SbBase) (A : SbXfBox3f) (B : SbBox3f) : Prop :=
  ∃ p : SbVec3f, A.toSbBox3f.Contains p ∧ B.Contains (E.multVecMatrix A.matrix p)

/-- The number of calls of `intersect_box_box` that `SbXfBox3f::intersect(const SbBox3f &)`
makes: none for an identity transform, one when the first pass decides, two otherwise. -/
def SbXfBox3f.intersectBoxPasses (E : SbBase) (b : SbXfBox3f) (bb : SbBox3f) (uninit : Bool) :
    Nat :=
  if E.matEq b.matrix SbMatrix.identity then 0
  else
    let r1 := SbXfBox3f.intersect_box_box E bb.getMin bb.getMax b.getMin b.getMax b.matrix uninit
    if r1.1 then 1
    else if !r1.2 then 1
    else 2

/-- A shear along the first axis followed by a translation. -/
def skewMatrix : SbMatrix :=
  { a00 := 1, a01 := 0, a02 := 0, a03 := 0,
    a10 := 1, a11 := 1, a12 := 0, a13 := 0,
    a20 := 0, a21 := 0, a22 := 1, a23 := 0,
    a30 := 2, a31 := 0, a32 := 0, a33 := 1 }

/-- The unit cube carrying `skewMatrix`. -/
def skewedUnit : SbXfBox3f := SbXfBox3f.setTransform (SbXfBox3f.ofBounds ⟨0, 0, 0⟩ ⟨1, 1, 1⟩) skewMatrix

/-- The plain box `[10,11]^3`, far from the image of `skewedUnit`. -/
def farBox : SbBox3f := ⟨⟨10, 10, 10⟩, ⟨11, 11, 11⟩⟩

/-! ## The standard base library is a matrix algebra -/

/-- The modelled `SbMatrix::inverse` is a right inverse of every non-singular matrix. -/
theorem Std3D.multRight_inverse (m : SbMatrix) (h : Std3D.det4 m ≠ 0) :
    Std3D.multRight m (Std3D.inverse m) = SbMatrix.identity := by
  have hde : Std3D.det4 m * (Std3D.det4 m)⁻¹ = 1 := mul_inv_cancel₀ h
  unfold Std3D.multRight Std3D.inverse SbMatrix.identity
  simp only [if_neg h, div_eq_mul_inv]
  generalize (Std3D.det4 m)⁻¹ = e at hde ⊢
  unfold Std3D.det4 at hde
  rw [SbMatrix.mk.injEq]
  refine ⟨?_, ?_, ?_, ?_, ?_, ?_, ?_, ?_, ?_, ?_, ?_, ?_, ?_, ?_, ?_, ?_⟩
  · linear_combination hde
  · ring
  · ring
  · ring
  · ring
  · linear_combination hde
  · ring
  · ring
  · ring
  · ring
  · linear_combination hde
  · ring
  · ring
  · ring
  · ring
  · linear_combination hde

/-- The modelled `SbMatrix::inverse` is a left inverse of every non-singular matrix. -/
theorem Std3D.inverse_multRight (m : SbMatrix) (h : Std3D.det4 m ≠ 0) :
    Std3D.multRight (Std3D.inverse m) m = SbMatrix.identity := by
  have hde : Std3D.det4 m * (Std3D.det4 m)⁻¹ = 1 := mul_inv_cancel₀ h
  unfold Std3D.multRight Std3D.inverse SbMatrix.identity
  simp only [if_neg h, div_eq_mul_inv]
  generalize (Std3D.det4 m)⁻¹ = e at hde ⊢
  unfold Std3D.det4 at hde
  rw [SbMatrix.mk.injEq]
  refine ⟨?_, ?_, ?_, ?_, ?_, ?_, ?_, ?_, ?_, ?_, ?_, ?_, ?_, ?_, ?_, ?_⟩
  · linear_combination hde
  · ring
  · ring
  · ring
  · ring
  · linear_combination hde
  · ring
  · ring
  · ring
  · ring
  · linear_combination hde
  · ring
  · ring
  · ring
  · ring
  · linear_combination hde

/-! ## Basic facts about the cache -/

theorem calcInverse_matrix (E : SbBase) (b : SbXfBox3f) :
    (calcInverse E b).matrix = b.matrix := by
  unfold calcInverse calcInverseTraced
  split <;> rfl

theorem calcInverse_toSbBox3f (E : SbBase) (b : SbXfBox3f) :
    (calcInverse E b).toSbBox3f = b.toSbBox3f := by
  unfold calcInverse calcInverseTraced
  split <;> rfl

theorem calcInverse_of_invalid (E : SbBase) (b : SbXfBox3f)
    (h : b.invertedmatrix.a00 = FLT_MAX) :
    calcInverse E b = { b with invertedmatrix := E.inverse b.matrix } := by
  simp [calcInverse, calcInverseTraced, h]

theorem calcInverse_of_valid (E : SbBase) (b : SbXfBox3f)
    (h : b.invertedmatrix.a00 ≠ FLT_MAX) : calcInverse E b = b := by
  simp [calcInverse, calcInverseTraced, h]

/-- On a coherent box `calcInverse` leaves the true inverse in the cache. -/
theorem calcInverse_invertedmatrix (E : SbBase) (b : SbXfBox3f) (h : CacheCoherent E b) :
    (calcInverse E b).invertedmatrix = E.inverse b.matrix := by
  by_cases hv : b.invertedmatrix.a00 = FLT_MAX
  · rw [calcInverse_of_invalid E b hv]
  · rw [calcInverse_of_valid E b hv]
    rcases h with h | h
    · exact absurd h hv
    · exact h

theorem calcInverse_coherent (E : SbBase) (b : SbXfBox3f) (h : CacheCoherent E b) :
    CacheCoherent E (calcInverse E b) := by
  right
  rw [calcInverse_invertedmatrix E b h, calcInverse_matrix]

theorem setTransform_matrix (b : SbXfBox3f) (m : SbMatrix) : (setTransform b m).matrix = m := rfl

theorem setTransform_invalid (b : SbXfBox3f) (m : SbMatrix) :
    (setTransform b m).invertedmatrix.a00 = FLT_MAX := rfl

theorem setTransform_coherent (E : SbBase) (b : SbXfBox3f) (m : SbMatrix) :
    CacheCoherent E (setTransform b m) := Or.inl rfl

theorem afterReads_invariant (E : SbBase) (M : SbMatrix) :
    ∀ (n : Nat) (b : SbXfBox3f), b.matrix = M → CacheCoherent E b →
      (afterReads E n b).matrix = M ∧ CacheCoherent E (afterReads E n b) := by
  intro n
  induction n with
  | zero => intro b hm hc; exact ⟨hm, hc⟩
  | succ n ih =>
    intro b hm hc
    have h1 : (calcInverse E b).matrix = M := by rw [calcInverse_matrix, hm]
    exact ih (calcInverse E b) h1 (calcInverse_coherent E b hc)

/-! ## Empty receivers, the inverse cache, comparison and point containment -/

/-- C6: an empty receiver extended by a non-empty `SbBox3f` takes over the corners of the
argument and has both its transform and its cached inverse reset to the identity, whatever
transform it carried; extended by a non-empty `SbXfBox3f` it becomes an exact copy of the
argument, transform and cache included. -/
theorem extendBy_empty_receiver (E : SbBase) (dbg : Bool) (A : SbXfBox3f) (B : SbBox3f)
    (X : SbXfBox3f) (hA : A.isEmpty = true) (hB : B.isEmpty = false)
    (hX : X.isEmpty = false) :
    ((extendByBox E dbg A B).getMin = B.getMin ∧ (extendByBox E dbg A B).getMax = B.getMax
      ∧ (extendByBox E dbg A B).getTransform = SbMatrix.identity
      ∧ (extendByBox E dbg A B).invertedmatrix = SbMatrix.identity)
    ∧ extendByXfBox E dbg A X = X := by
  constructor
  · simp [extendByBox, hA, hB, getTransform, SbBox3f.getMin, SbBox3f.getMax]
  · simp [extendByXfBox, hA, hX]

/-- C7: after `setTransform(M)`, every call of `getInverse()` returns `M.inverse()` - the
first one and each later one, whatever the cache held before - and `getTransform()` returns
`M` throughout. -/
theorem getInverse_after_setTransform (E : SbBase) (B : SbXfBox3f) (M : SbMatrix) (n : Nat) :
    (getInverse E (afterReads E n (setTransform B M))).1 = E.inverse M
    ∧ getTransform (afterReads E n (setTransform B M)) = M := by
  obtain ⟨hm, hc⟩ := afterReads_invariant E M n (setTransform B M)
    (setTransform_matrix B M) (setTransform_coherent E B M)
  refine ⟨?_, hm⟩
  show (calcInverse E _).invertedmatrix = _
  rw [calcInverse_invertedmatrix E _ hc, hm]

/-- C9: `operator==` returns 1 exactly when the minimum corners, the maximum corners and the
transforms compare equal, each by its own `operator==`; boxes whose transforms compare unequal
are unequal whatever their corners and volumes; `operator!=` is the negation of `operator==`
and both return 0 or 1. -/
theorem opEq_componentwise (E : SbBase) (b1 b2 : SbXfBox3f) :
    (opEq E b1 b2 = 1 ↔
      (E.vecEq b1.getMin b2.getMin = true ∧ E.vecEq b1.getMax b2.getMax = true
        ∧ E.matEq b1.matrix b2.matrix = true))
    ∧ (E.matEq b1.matrix b2.matrix = false → opEq E b1 b2 = 0)
    ∧ (opEq E b1 b2 = 0 ∨ opEq E b1 b2 = 1)
    ∧ (opNe E b1 b2 = 1 ↔ opEq E b1 b2 = 0)
    ∧ (opNe E b1 b2 = 0 ↔ opEq E b1 b2 = 1) := by
  unfold opNe opEq
  cases E.vecEq b1.getMin b2.getMin <;> cases E.vecEq b1.getMax b2.getMax <;>
    cases E.matEq b1.matrix b2.matrix <;> simp

/-- C10: on a box whose inverse cache is coherent, `intersect(pt)` is the plain containment
test of `SbBox3f` applied to the point mapped through the inverse of the transform; with the
identity transform, whose inverse is the identity and which maps every point to itself, it is
the plain containment test of the point. -/
theorem intersectPt_eq_boxIntersect (E : SbBase) (B : SbXfBox3f) (p : SbVec3f)
    (hB : CacheCoherent E B) :
    (intersectPt E B p).1 = E.boxIntersect B.toSbBox3f (E.multVecMatrix (E.inverse B.matrix) p)
    ∧ (B.matrix = SbMatrix.identity → E.inverse SbMatrix.identity = SbMatrix.identity →
        (∀ q, E.multVecMatrix SbMatrix.identity q = q) →
        (intersectPt E B p).1 = E.boxIntersect B.toSbBox3f p) := by
  have h : (intersectPt E B p).1
      = E.boxIntersect B.toSbBox3f (E.multVecMatrix (E.inverse B.matrix) p) := by
    show E.boxIntersect (calcInverse E B).toSbBox3f
      (E.multVecMatrix (calcInverse E B).invertedmatrix p) = _
    rw [calcInverse_invertedmatrix E B hB, calcInverse_toSbBox3f]
  refine ⟨h, ?_⟩
  intro hid hinv hmul
  rw [h, hid, hinv, hmul]

/-! ## The corner loops -/

/-- The loop index selects the corners in the order of `SbBox3f.corners`. -/
theorem corner_range (bb : SbBox3f) :
    (List.range 8).map (corner (pointsOf bb)) = bb.corners := by
  rfl

/-- A corner loop of SbXfBox3f.cpp is the fold over the corner list. -/
theorem corner_loop (E : SbBase) (f : SbVec3f → SbVec3f) (b bb : SbBox3f) :
    (List.range 8).foldl (fun box i => E.boxExtendBy box (f (corner (pointsOf bb) i))) b
      = extendByCorners E f b bb := by
  unfold extendByCorners
  rw [← corner_range bb, List.foldl_map]

theorem foldl_toSbBox3f {α : Type} (h : SbBox3f → α → SbBox3f) (l : List α) :
    ∀ b : SbXfBox3f,
      l.foldl (fun (bx : SbXfBox3f) p => { bx with toSbBox3f := h bx.toSbBox3f p }) b
        = { b with toSbBox3f := l.foldl h b.toSbBox3f } := by
  induction l with
  | nil => intro b; rfl
  | cons p l ih => intro b; simp only [List.foldl_cons]; rw [ih]

/-- On a coherent box, one block of `extendBy(const SbXfBox3f &)` computes the candidate that
keeps the frame of the copied box. -/
theorem extendKeeping_eq_keepFrame (E : SbBase) (K O : SbXfBox3f) (hK : CacheCoherent E K) :
    extendKeeping E K O = keepFrame E K O := by
  unfold extendKeeping keepFrame
  simp only [getTransform]
  rw [foldl_toSbBox3f (fun box i => E.boxExtendBy box
    (E.multVecMatrix (E.multRight O.matrix (calcInverse E K).invertedmatrix)
      (corner (pointsOf O.toSbBox3f) i)))]
  rw [corner_loop, calcInverse_invertedmatrix E K hK, calcInverse_toSbBox3f,
    calcInverse_matrix]

/-! ## Volumes -/

/-- The volume of a transformed box depends on its corners and its transform only. -/
theorem getVolume_congr (E : SbBase) (a b : SbXfBox3f) (h1 : a.toSbBox3f = b.toSbBox3f)
    (h2 : a.matrix = b.matrix) : getVolume E a = getVolume E b := by
  unfold getVolume SbBox3f.getMin SbBox3f.getMax
  rw [h1, h2]

theorem SbBox3f.getVolume_nonneg (b : SbBox3f) : 0 ≤ b.getVolume := by
  unfold SbBox3f.getVolume
  by_cases h : b.hasVolume = true
  · simp only [h, Bool.not_true, Bool.false_eq_true, if_false]
    simp only [SbBox3f.hasVolume, Bool.and_eq_true, decide_eq_true_eq] at h
    obtain ⟨⟨h0, h1⟩, h2⟩ := h
    have e0 : 0 < b.max.get 0 - b.min.get 0 := sub_pos.mpr h0
    have e1 : 0 < b.max.get 1 - b.min.get 1 := sub_pos.mpr h1
    have e2 : 0 < b.max.get 2 - b.min.get 2 := sub_pos.mpr h2
    positivity
  · simp [h]

/-- With the identity transform, and a square root that maps 1 to 1, the volume of the
transformed box is the plain box volume. -/
theorem getVolume_identity (E : SbBase) (hsqrt : E.sqrt 1 = 1) (b : SbXfBox3f)
    (hm : b.matrix = SbMatrix.identity) : getVolume E b = b.toSbBox3f.getVolume := by
  unfold getVolume SbBox3f.getVolume SbBox3f.getMin SbBox3f.getMax
  by_cases h : b.hasVolume = true
  · simp only [h, Bool.not_true, Bool.false_eq_true, if_false]
    simp only [SbBox3f.hasVolume, Bool.and_eq_true, decide_eq_true_eq] at h
    obtain ⟨⟨h0, h1⟩, h2⟩ := h
    have e0 : 0 < b.max.get 0 - b.min.get 0 := sub_pos.mpr h0
    have e1 : 0 < b.max.get 1 - b.min.get 1 := sub_pos.mpr h1
    have e2 : 0 < b.max.get 2 - b.min.get 2 := sub_pos.mpr h2
    rw [hm]
    simp only [SbMatrix.identity, mul_one, mul_zero, add_zero, zero_add, hsqrt]
    exact abs_of_pos (by positivity)
  · simp [h]

/-! ## The two overloads of `extendBy` on non-empty boxes -/

theorem project_calcInverse (E : SbBase) (b : SbXfBox3f) :
    project E (calcInverse E b) = project E b := by
  unfold project SbBox3f.getMin SbBox3f.getMax
  rw [calcInverse_toSbBox3f, calcInverse_matrix]

/-- The combination path of `extendBy(const SbBox3f &)`, with the loops folded: the inverse
used is the one `getInverse()` hands out. -/
theorem extendByBox_combine (E : SbBase) (dbg : Bool) (A : SbXfBox3f) (B : SbBox3f)
    (hg : (dbg && B.isEmpty) = false) (hA : A.isEmpty = false) :
    extendByBox E dbg A B =
      if getVolume E
          { toSbBox3f := extendByCorners E (E.multVecMatrix (calcInverse E A).invertedmatrix)
              A.toSbBox3f B,
            matrix := A.matrix, invertedmatrix := (calcInverse E A).invertedmatrix }
          < (flattenExtend E A B).getVolume
      then
        { toSbBox3f := extendByCorners E (E.multVecMatrix (calcInverse E A).invertedmatrix)
            A.toSbBox3f B,
          matrix := A.matrix, invertedmatrix := (calcInverse E A).invertedmatrix }
      else candidateFlat E A B := by
  unfold extendByBox
  rw [hg, hA]
  simp only [Bool.false_eq_true, if_false]
  rw [corner_loop E (E.multVecMatrix (calcInverse E A).invertedmatrix),
    corner_loop E (fun p => p), project_calcInverse]
  have hv : getVolume E (setTransform (ofBox (extendByCorners E
        (E.multVecMatrix (calcInverse E A).invertedmatrix) A.toSbBox3f B))
        (calcInverse E A).matrix)
      = getVolume E
          { toSbBox3f := extendByCorners E (E.multVecMatrix (calcInverse E A).invertedmatrix)
              A.toSbBox3f B,
            matrix := A.matrix, invertedmatrix := (calcInverse E A).invertedmatrix } := by
    apply getVolume_congr
    · rfl
    · exact calcInverse_matrix E A
  rw [hv]
  unfold flattenExtend
  split
  · simp only [setBounds, SbBox3f.getMin, SbBox3f.getMax, calcInverse_matrix]
  · rfl

/-- On non-empty boxes with a coherent receiver, `extendBy(const SbBox3f &)` returns
candidate (a) when its volume is strictly below the plain volume of the flattened union, and
candidate (b) otherwise. -/
theorem extendByBox_nonempty (E : SbBase) (dbg : Bool) (A : SbXfBox3f) (B : SbBox3f)
    (hA : A.isEmpty = false) (hB : B.isEmpty = false) (hc : CacheCoherent E A) :
    extendByBox E dbg A B =
      if getVolume E (candidateKeep E A B) < (flattenExtend E A B).getVolume
      then candidateKeep E A B else candidateFlat E A B := by
  rw [extendByBox_combine E dbg A B (by simp [hB]) hA, calcInverse_invertedmatrix E A hc]
  rfl

/-- On non-empty coherent boxes, `extendBy(const SbXfBox3f &)` returns the candidate in the
frame of the receiver when its volume is strictly smaller, and the candidate in the frame of
the argument otherwise. -/
theorem extendByXfBox_nonempty (E : SbBase) (dbg : Bool) (A B : SbXfBox3f)
    (hA : A.isEmpty = false) (hB : B.isEmpty = false) (hcA : CacheCoherent E A)
    (hcB : CacheCoherent E B) :
    extendByXfBox E dbg A B =
      if getVolume E (keepFrame E A B) < getVolume E (keepFrame E B A)
      then keepFrame E A B else keepFrame E B A := by
  unfold extendByXfBox
  rw [hA, hB]
  simp only [Bool.and_false, Bool.false_eq_true, if_false]
  rw [extendKeeping_eq_keepFrame E A B hcA, extendKeeping_eq_keepFrame E B A hcB]

theorem candidateFlat_volume (E : SbBase) (hsqrt : E.sqrt 1 = 1) (A : SbXfBox3f) (B : SbBox3f) :
    getVolume E (candidateFlat E A B) = (flattenExtend E A B).getVolume :=
  getVolume_identity E hsqrt (candidateFlat E A B) rfl

/-- C2: for a non-empty (coherent) receiver and a non-empty `SbBox3f`, `extendBy` leaves the
receiver equal to the smaller-volume one of candidate (a), the local bounds extended by the
inverse-mapped corners with the transform kept, and candidate (b), the flattened union with
the transform and cached inverse reset to the identity: (a) when vol(a) < vol(b), (b) when
vol(b) < vol(a), always one of the two, and the resulting volume is the minimum. -/
theorem extendByBox_picks_smaller (E : SbBase) (dbg : Bool) (A : SbXfBox3f) (B : SbBox3f)
    (hA : A.isEmpty = false) (hB : B.isEmpty = false) (hc : CacheCoherent E A)
    (hsqrt : E.sqrt 1 = 1) :
    (getVolume E (candidateKeep E A B) < getVolume E (candidateFlat E A B) →
      extendByBox E dbg A B = candidateKeep E A B)
    ∧ (getVolume E (candidateFlat E A B) < getVolume E (candidateKeep E A B) →
      extendByBox E dbg A B = candidateFlat E A B)
    ∧ (extendByBox E dbg A B = candidateKeep E A B
      ∨ extendByBox E dbg A B = candidateFlat E A B)
    ∧ getVolume E (extendByBox E dbg A B)
      = Min.min (getVolume E (candidateKeep E A B)) (getVolume E (candidateFlat E A B)) := by
  rw [extendByBox_nonempty E dbg A B hA hB hc, candidateFlat_volume E hsqrt]
  by_cases h : getVolume E (candidateKeep E A B) < (flattenExtend E A B).getVolume
  · rw [if_pos h]
    refine ⟨fun _ => rfl, fun h2 => absurd h (not_lt.mpr h2.le), Or.inl rfl, ?_⟩
    rw [min_eq_left h.le]
  · rw [if_neg h]
    refine ⟨fun h2 => absurd h2 h, fun _ => rfl, Or.inr rfl, ?_⟩
    rw [candidateFlat_volume E hsqrt, min_eq_right (not_lt.mp h)]

/-- C3: for two non-empty (coherent) transformed boxes, `extendBy` evaluates the candidate in
the frame of the receiver and the candidate in the frame of the argument symmetrically and
leaves the receiver equal to the one of smaller volume; the resulting volume is the minimum of
the two. -/
theorem extendByXfBox_picks_smaller (E : SbBase) (dbg : Bool) (A B : SbXfBox3f)
    (hA : A.isEmpty = false) (hB : B.isEmpty = false) (hcA : CacheCoherent E A)
    (hcB : CacheCoherent E B) :
    (getVolume E (keepFrame E A B) < getVolume E (keepFrame E B A) →
      extendByXfBox E dbg A B = keepFrame E A B)
    ∧ (getVolume E (keepFrame E B A) < getVolume E (keepFrame E A B) →
      extendByXfBox E dbg A B = keepFrame E B A)
    ∧ (extendByXfBox E dbg A B = keepFrame E A B ∨ extendByXfBox E dbg A B = keepFrame E B A)
    ∧ getVolume E (extendByXfBox E dbg A B)
      = Min.min (getVolume E (keepFrame E A B)) (getVolume E (keepFrame E B A)) := by
  rw [extendByXfBox_nonempty E dbg A B hA hB hcA hcB]
  by_cases h : getVolume E (keepFrame E A B) < getVolume E (keepFrame E B A)
  · rw [if_pos h]
    refine ⟨fun _ => rfl, fun h2 => absurd h (not_lt.mpr h2.le), Or.inl rfl, ?_⟩
    rw [min_eq_left h.le]
  · rw [if_neg h]
    refine ⟨fun h2 => absurd h2 h, fun _ => rfl, Or.inr rfl, ?_⟩
    rw [min_eq_right (not_lt.mp h)]

/-- C4 (amended): when the two candidates have exactly equal volume, `extendBy` chooses the
second candidate: the flattened candidate (b) for `extendBy(const SbBox3f &)`, and the
candidate in the frame of the argument for `extendBy(const SbXfBox3f &)`. -/
theorem extendBy_tie_takes_second (E : SbBase) (dbg : Bool) (A : SbXfBox3f) (B : SbBox3f)
    (X : SbXfBox3f) (hA : A.isEmpty = false) (hB : B.isEmpty = false)
    (hX : X.isEmpty = false) (hcA : CacheCoherent E A) (hcX : CacheCoherent E X)
    (hsqrt : E.sqrt 1 = 1) :
    (getVolume E (candidateKeep E A B) = getVolume E (candidateFlat E A B) →
      extendByBox E dbg A B = candidateFlat E A B)
    ∧ (getVolume E (keepFrame E A X) = getVolume E (keepFrame E X A) →
      extendByXfBox E dbg A X = keepFrame E X A) := by
  constructor
  · intro h
    rw [extendByBox_nonempty E dbg A B hA hB hcA, ← candidateFlat_volume E hsqrt, h]
    exact if_neg (lt_irrefl _)
  · intro h
    rw [extendByXfBox_nonempty E dbg A X hA hX hcA hcX, h]
    exact if_neg (lt_irrefl _)

/-! ## Containment after a corner loop -/

theorem foldl_extend_keeps (E : SbBase) (f : SbVec3f → SbVec3f)
    (hkeep : ∀ b p q, SbBox3f.Contains b q → (E.boxExtendBy b p).Contains q)
    (l : List SbVec3f) :
    ∀ (b : SbBox3f) (q : SbVec3f), b.Contains q →
      (l.foldl (fun box p => E.boxExtendBy box (f p)) b).Contains q := by
  induction l with
  | nil => intro b q h; exact h
  | cons p l ih => intro b q h; exact ih _ q (hkeep b (f p) q h)

theorem foldl_extend_contains (E : SbBase) (f : SbVec3f → SbVec3f)
    (hfit : ∀ b p, (E.boxExtendBy b p).Contains p)
    (hkeep : ∀ b p q, SbBox3f.Contains b q → (E.boxExtendBy b p).Contains q)
    (l : List SbVec3f) :
    ∀ (b : SbBox3f) (p : SbVec3f), p ∈ l →
      (l.foldl (fun box p => E.boxExtendBy box (f p)) b).Contains (f p) := by
  induction l with
  | nil => intro b p h; cases h
  | cons a l ih =>
    intro b p h
    rcases List.mem_cons.mp h with h | h
    · subst h
      exact foldl_extend_keeps E f hkeep l _ _ (hfit b (f p))
    · exact ih _ p h

/-- A box that contains the minimum and the maximum corner of `c` has at least the plain
volume of `c`. -/
theorem SbBox3f.getVolume_le_of_contains (c r : SbBox3f) (hmin : r.Contains c.min)
    (hmax : r.Contains c.max) : c.getVolume ≤ r.getVolume := by
  by_cases hc : c.hasVolume = true
  · obtain ⟨a1, _, a2, _, a3, _⟩ := hmin
    obtain ⟨_, b1, _, b2, _, b3⟩ := hmax
    have hc2 := hc
    simp only [SbBox3f.hasVolume, Bool.and_eq_true, decide_eq_true_eq, SbVec3f.get] at hc2
    simp only [OfNat.ofNat_ne_zero, OfNat.ofNat_ne_one, one_ne_zero, if_true, if_false] at hc2
    obtain ⟨⟨h0, h1⟩, h2⟩ := hc2
    have hr : r.hasVolume = true := by
      simp only [SbBox3f.hasVolume, Bool.and_eq_true, decide_eq_true_eq, SbVec3f.get]
      simp only [OfNat.ofNat_ne_zero, OfNat.ofNat_ne_one, one_ne_zero, if_true, if_false]
      exact ⟨⟨by linarith, by linarith⟩, by linarith⟩
    unfold SbBox3f.getVolume
    simp only [hc, hr, Bool.not_true, Bool.false_eq_true, if_false, SbVec3f.get]
    simp only [OfNat.ofNat_ne_zero, OfNat.ofNat_ne_one, one_ne_zero, if_true, if_false]
    have e0 : 0 ≤ c.max.x - c.min.x := by linarith
    have e1 : 0 ≤ c.max.y - c.min.y := by linarith
    have e2 : 0 ≤ c.max.z - c.min.z := by linarith
    have f0 : c.max.x - c.min.x ≤ r.max.x - r.min.x := by linarith
    have f1 : c.max.y - c.min.y ≤ r.max.y - r.min.y := by linarith
    have f2 : c.max.z - c.min.z ≤ r.max.z - r.min.z := by linarith
    have g0 : 0 ≤ r.max.x - r.min.x := by linarith
    have g1 : 0 ≤ r.max.y - r.min.y := by linarith
    exact mul_le_mul (mul_le_mul f0 f1 e1 g0) f2 e2 (mul_nonneg g0 g1)
  · have : c.getVolume = 0 := by simp [SbBox3f.getVolume, hc]
    rw [this]
    exact SbBox3f.getVolume_nonneg r

theorem flattenExtend_contains_corners (E : SbBase)
    (hfit : ∀ b p, (E.boxExtendBy b p).Contains p)
    (hkeep : ∀ b p q, SbBox3f.Contains b q → (E.boxExtendBy b p).Contains q)
    (A : SbXfBox3f) (C : SbBox3f) :
    (flattenExtend E A C).Contains C.min ∧ (flattenExtend E A C).Contains C.max := by
  unfold flattenExtend extendByCorners
  constructor
  · exact foldl_extend_contains E (fun p => p) hfit hkeep C.corners _ C.min
      (by simp [SbBox3f.corners])
  · exact foldl_extend_contains E (fun p => p) hfit hkeep C.corners _ C.max
      (by simp [SbBox3f.corners])

/-- C1 (amended): whenever the argument `C` is non-empty, or the build is a non-debug one,
the volume of the receiver after `extendBy(C)` is at most the plain volume of the receiver
flattened to world space and extended by the eight corners of `C`.  The base library is
assumed to have `sqrt(1) = 1` and an `SbBox3f::extendBy(point)` that makes the point fit and
never drops a point that was inside. -/
theorem extendByBox_volume_le_flatten (E : SbBase) (dbg : Bool) (B : SbXfBox3f) (C : SbBox3f)
    (h : dbg = false ∨ C.isEmpty = false) (hsqrt : E.sqrt 1 = 1)
    (hfit : ∀ b p, (E.boxExtendBy b p).Contains p)
    (hkeep : ∀ b p q, SbBox3f.Contains b q → (E.boxExtendBy b p).Contains q) :
    getVolume E (extendByBox E dbg B C) ≤ (flattenExtend E B C).getVolume := by
  have hg : (dbg && C.isEmpty) = false := by
    rcases h with h | h <;> simp [h]
  by_cases hB : B.isEmpty = true
  · have hr : extendByBox E dbg B C
        = { toSbBox3f := C, matrix := SbMatrix.identity,
            invertedmatrix := SbMatrix.identity } := by
      unfold extendByBox
      rw [hg, hB]
      simp
    rw [hr, getVolume_identity E hsqrt _ rfl]
    obtain ⟨h1, h2⟩ := flattenExtend_contains_corners E hfit hkeep B C
    exact SbBox3f.getVolume_le_of_contains C _ h1 h2
  · have hB2 : B.isEmpty = false := by simpa using hB
    rw [extendByBox_combine E dbg B C hg hB2]
    split
    · next hlt => exact hlt.le
    · rw [candidateFlat_volume E hsqrt]

/-! ## The standard base library at the explicit inputs -/

theorem coin_inverse_sentinelMatrix :
    coin.inverse sentinelMatrix
      = { SbMatrix.identity with a00 := FLT_MAX, a01 := -1, a10 := 1, a11 := 0 } := by
  simp [coin, Std3D.inverse, Std3D.det4, sentinelMatrix, SbMatrix.identity, FLT_MAX]

theorem coin_inverse_translateX :
    coin.inverse translateX = { SbMatrix.identity with a30 := -1 } := by
  simp [coin, Std3D.inverse, Std3D.det4, translateX, SbMatrix.identity]

theorem coin_inverse_identity : coin.inverse SbMatrix.identity = SbMatrix.identity := by
  simp [coin, Std3D.inverse, Std3D.det4, SbMatrix.identity]

theorem coin_multVecMatrix_identity (q : SbVec3f) :
    coin.multVecMatrix SbMatrix.identity q = q := by
  simp [coin, Std3D.multVecMatrix, SbMatrix.identity]

theorem coin_sqrt_one : coin.sqrt 1 = 1 := by
  have h : (1 : ℚ) = 1 * 1 := by norm_num
  show Rat.sqrt 1 = 1
  rw [h, Rat.sqrt_eq]; norm_num

theorem coin_sqrt_1600 : coin.sqrt 1600 = 40 := by
  have h : (1600 : ℚ) = 40 * 40 := by norm_num
  show Rat.sqrt 1600 = 40
  rw [h, Rat.sqrt_eq]; norm_num

theorem coin_sqrt_1681 : coin.sqrt 1681 = 41 := by
  have h : (1681 : ℚ) = 41 * 41 := by norm_num
  show Rat.sqrt 1681 = 41
  rw [h, Rat.sqrt_eq]; norm_num

theorem shearedBox_volume : getVolume coin shearedBox = 5446440 := by
  simp [getVolume, shearedBox, setTransform, makeInvInvalid, ofBounds, shearMatrix,
    SbBox3f.hasVolume, SbBox3f.getMin, SbBox3f.getMax, SbVec3f.get]
  norm_num [coin_sqrt_1600, coin_sqrt_1681]

theorem shearedBox_project :
    project coin shearedBox = ⟨⟨0, 0, 0⟩, ⟨40, 121, 121⟩⟩ := by
  simp [project, shearedBox, setTransform, makeInvInvalid, ofBounds, shearMatrix,
    SbBox3f.isEmpty, SbBox3f.getMin, SbBox3f.getMax, SbVec3f.get, coin, Std3D.boxTransform,
    SbBox3f.corners, Std3D.boxExtendBy, Std3D.multVecMatrix, SbBox3f.empty, FLT_MAX]
  norm_num

theorem invertedUnitBox_isEmpty : invertedUnitBox.isEmpty = true := by
  simp [invertedUnitBox, SbBox3f.isEmpty, SbVec3f.get]

theorem worldUnit_nonempty : worldUnit.isEmpty = false := by
  simp [worldUnit, SbBox3f.isEmpty, SbVec3f.get]

theorem unitBox_nonempty : unitBox.isEmpty = false := by
  simp [unitBox, SbBox3f.isEmpty, SbVec3f.get]

theorem shiftedUnit_nonempty : shiftedUnit.isEmpty = false := by
  simp [shiftedUnit, setTransform, makeInvInvalid, ofBounds, SbBox3f.isEmpty, SbVec3f.get]

theorem emptyShifted_isEmpty : emptyShifted.isEmpty = true := by
  simp [emptyShifted, setTransform, makeInvInvalid, SbXfBox3f.default, SbBox3f.empty,
    SbBox3f.isEmpty, SbVec3f.get, FLT_MAX]

theorem empty_isEmpty : SbBox3f.empty.isEmpty = true := by
  simp [SbBox3f.empty, SbBox3f.isEmpty, SbVec3f.get, FLT_MAX]

theorem ofBox_coherent_coin (b : SbBox3f) : CacheCoherent coin (ofBox b) :=
  Or.inr coin_inverse_identity.symm

theorem coin_boxExtendBy_fits (b : SbBox3f) (p : SbVec3f) :
    (coin.boxExtendBy b p).Contains p := by
  simp [coin, Std3D.boxExtendBy, SbBox3f.Contains]

theorem coin_boxExtendBy_keeps (b : SbBox3f) (p q : SbVec3f) (h : b.Contains q) :
    (coin.boxExtendBy b p).Contains q := by
  obtain ⟨h1, h2, h3, h4, h5, h6⟩ := h
  simp only [coin, Std3D.boxExtendBy, SbBox3f.Contains]
  exact ⟨(min_le_right _ _).trans h1, h2.trans (le_max_right _ _),
    (min_le_right _ _).trans h3, h4.trans (le_max_right _ _),
    (min_le_right _ _).trans h5, h6.trans (le_max_right _ _)⟩

theorem shearedBox_flattenExtend :
    flattenExtend coin shearedBox invertedUnitBox = ⟨⟨0, 0, 0⟩, ⟨40, 121, 121⟩⟩ := by
  unfold flattenExtend
  rw [shearedBox_project]
  simp [extendByCorners, invertedUnitBox, SbBox3f.corners, coin, Std3D.boxExtendBy]

/-- C1 (counterexample): in a debug build, extending the sheared box by an empty box leaves
it unchanged with volume 5446440, while the box flattened to world space and extended by the
eight corners of the argument has volume 585640. -/
theorem extendByBox_debug_volume_exceeds_flatten :
    invertedUnitBox.isEmpty = true
    ∧ getVolume coin (extendByBox coin true shearedBox invertedUnitBox) = 5446440
    ∧ (flattenExtend coin shearedBox invertedUnitBox).getVolume = 585640
    ∧ ¬ (getVolume coin (extendByBox coin true shearedBox invertedUnitBox)
          ≤ (flattenExtend coin shearedBox invertedUnitBox).getVolume) := by
  have h1 : extendByBox coin true shearedBox invertedUnitBox = shearedBox := by
    simp [extendByBox, invertedUnitBox_isEmpty]
  have h2 : (flattenExtend coin shearedBox invertedUnitBox).getVolume = 585640 := by
    rw [shearedBox_flattenExtend]
    norm_num [SbBox3f.getVolume, SbBox3f.hasVolume, SbVec3f.get]
  refine ⟨invertedUnitBox_isEmpty, ?_, h2, ?_⟩
  · rw [h1, shearedBox_volume]
  · rw [h1, shearedBox_volume, h2]; norm_num

theorem shiftedUnit_candidateKeep :
    candidateKeep coin shiftedUnit worldUnit
      = shiftedUnitCached := by
  unfold candidateKeep
  have hm : shiftedUnit.matrix = translateX := rfl
  rw [hm, coin_inverse_translateX]
  simp [extendByCorners, shiftedUnit, setTransform, makeInvInvalid, ofBounds, worldUnit,
    unitBox, SbBox3f.corners, coin, Std3D.boxExtendBy, Std3D.multVecMatrix,
    SbMatrix.identity, shiftedUnitCached]
  norm_num

theorem shiftedUnit_project : project coin shiftedUnit = worldUnit := by
  simp [project, shiftedUnit, setTransform, makeInvInvalid, ofBounds, translateX, worldUnit,
    SbBox3f.isEmpty, SbBox3f.getMin, SbBox3f.getMax, SbVec3f.get, coin, Std3D.boxTransform,
    SbBox3f.corners, Std3D.boxExtendBy, Std3D.multVecMatrix, SbBox3f.empty, FLT_MAX]
  norm_num

theorem shiftedUnit_candidateFlat :
    candidateFlat coin shiftedUnit worldUnit = ofBox worldUnit := by
  unfold candidateFlat flattenExtend
  rw [shiftedUnit_project]
  simp [extendByCorners, worldUnit, SbBox3f.corners, coin, Std3D.boxExtendBy, ofBox]

theorem shiftedUnit_keepFrame :
    keepFrame coin shiftedUnit (ofBox worldUnit)
      = shiftedUnitCached := by
  unfold keepFrame
  have hm : shiftedUnit.matrix = translateX := rfl
  rw [hm, coin_inverse_translateX]
  simp [extendByCorners, shiftedUnit, setTransform, makeInvInvalid, ofBounds, worldUnit,
    unitBox, SbBox3f.corners, coin, Std3D.boxExtendBy, Std3D.multVecMatrix, Std3D.multRight,
    SbMatrix.identity, ofBox, shiftedUnitCached]
  norm_num

theorem worldUnit_keepFrame :
    keepFrame coin (ofBox worldUnit) shiftedUnit = ofBox worldUnit := by
  unfold keepFrame
  have hm : (ofBox worldUnit).matrix = SbMatrix.identity := rfl
  rw [hm, coin_inverse_identity]
  simp [extendByCorners, shiftedUnit, setTransform, makeInvInvalid, ofBounds, worldUnit,
    SbBox3f.corners, coin, Std3D.boxExtendBy, Std3D.multVecMatrix, Std3D.multRight,
    SbMatrix.identity, translateX, ofBox]
  norm_num

theorem shiftedUnitCached_volume : getVolume coin shiftedUnitCached = 1 := by
  simp [getVolume, shiftedUnitCached, unitBox, translateX, SbBox3f.hasVolume, SbBox3f.getMin, SbBox3f.getMax,
    SbVec3f.get, coin_sqrt_one]

theorem worldUnit_volume : getVolume coin (ofBox worldUnit) = 1 := by
  rw [getVolume_identity coin coin_sqrt_one _ rfl]
  norm_num [ofBox, worldUnit, SbBox3f.getVolume, SbBox3f.hasVolume, SbVec3f.get]

/-- C4 (counterexample): for the unit cube translated by one unit and the plain box it covers
in world space, the two candidates of either overload have volume 1 each, and `extendBy`
returns the second candidate, which differs from the first. -/
theorem extendBy_tie_not_first :
    getVolume coin (candidateKeep coin shiftedUnit worldUnit)
        = getVolume coin (candidateFlat coin shiftedUnit worldUnit)
    ∧ extendByBox coin false shiftedUnit worldUnit ≠ candidateKeep coin shiftedUnit worldUnit
    ∧ getVolume coin (keepFrame coin shiftedUnit (ofBox worldUnit))
        = getVolume coin (keepFrame coin (ofBox worldUnit) shiftedUnit)
    ∧ extendByXfBox coin false shiftedUnit (ofBox worldUnit)
        ≠ keepFrame coin shiftedUnit (ofBox worldUnit) := by
  have hne : ofBox worldUnit ≠ shiftedUnitCached := by
    intro h
    have h2 := congrArg (fun b => b.matrix.a30) h
    simp [ofBox, SbMatrix.identity, translateX, shiftedUnitCached] at h2
  have t1 : getVolume coin (candidateKeep coin shiftedUnit worldUnit)
      = getVolume coin (candidateFlat coin shiftedUnit worldUnit) := by
    rw [shiftedUnit_candidateKeep, shiftedUnit_candidateFlat, shiftedUnitCached_volume,
      worldUnit_volume]
  have t2 : getVolume coin (keepFrame coin shiftedUnit (ofBox worldUnit))
      = getVolume coin (keepFrame coin (ofBox worldUnit) shiftedUnit) := by
    rw [shiftedUnit_keepFrame, worldUnit_keepFrame, shiftedUnitCached_volume, worldUnit_volume]
  refine ⟨t1, ?_, t2, ?_⟩
  · rw [extendByBox_nonempty coin false shiftedUnit worldUnit shiftedUnit_nonempty
      worldUnit_nonempty (setTransform_coherent coin _ _),
      ← candidateFlat_volume coin coin_sqrt_one, t1, if_neg (lt_irrefl _),
      shiftedUnit_candidateFlat, shiftedUnit_candidateKeep]
    exact hne
  · rw [extendByXfBox_nonempty coin false shiftedUnit (ofBox worldUnit) shiftedUnit_nonempty
      worldUnit_nonempty (setTransform_coherent coin _ _) (ofBox_coherent_coin _),
      t2, if_neg (lt_irrefl _), shiftedUnit_keepFrame, worldUnit_keepFrame]
    exact hne

/-! ## Cache coherence of every producible state -/

theorem extendByBox_coherent (E : SbBase) (dbg : Bool)
    (hid : E.inverse SbMatrix.identity = SbMatrix.identity) (A : SbXfBox3f) (B : SbBox3f)
    (hA : CacheCoherent E A) : CacheCoherent E (extendByBox E dbg A B) := by
  by_cases hg : (dbg && B.isEmpty) = true
  · have : extendByBox E dbg A B = A := by simp [extendByBox, hg]
    rw [this]; exact hA
  · have hg2 : (dbg && B.isEmpty) = false := by simpa using hg
    by_cases hE : A.isEmpty = true
    · have : extendByBox E dbg A B = ofBox B := by
        unfold extendByBox ofBox; rw [hg2, hE]; simp
      rw [this]; exact Or.inr hid.symm
    · have hE2 : A.isEmpty = false := by simpa using hE
      rw [extendByBox_combine E dbg A B hg2 hE2]
      split
      · right
        show (calcInverse E A).invertedmatrix = E.inverse A.matrix
        exact calcInverse_invertedmatrix E A hA
      · exact Or.inr hid.symm

theorem extendByXfBox_coherent (E : SbBase) (dbg : Bool) (A B : SbXfBox3f)
    (hA : CacheCoherent E A) (hB : CacheCoherent E B) :
    CacheCoherent E (extendByXfBox E dbg A B) := by
  unfold extendByXfBox
  split
  · exact hA
  · split
    · exact hB
    · rw [extendKeeping_eq_keepFrame E A B hA, extendKeeping_eq_keepFrame E B A hB]
      dsimp only
      split <;> exact Or.inr rfl

/-- The object that `intersect(const SbBox3f &)` leaves behind is the receiver, or the
receiver after `calcInverse()`. -/
theorem intersectBox_state (E : SbBase) (b : SbXfBox3f) (bb : SbBox3f) (uninit : Bool) :
    (intersectBox E b bb uninit).2 = b ∨ (intersectBox E b bb uninit).2 = calcInverse E b := by
  unfold intersectBox
  dsimp only
  split_ifs
  · exact Or.inl rfl
  · exact Or.inl rfl
  · exact Or.inl rfl
  · exact Or.inr rfl

/-- Coherence is kept by `intersect(const SbBox3f &)`. -/
theorem intersectBox_coherent (E : SbBase) (b : SbXfBox3f) (bb : SbBox3f) (uninit : Bool)
    (h : CacheCoherent E b) : CacheCoherent E (intersectBox E b bb uninit).2 := by
  rcases intersectBox_state E b bb uninit with h1 | h1
  · rw [h1]; exact h
  · rw [h1]; exact calcInverse_coherent E _ h

/-- Every producible state of a transformed box is cache coherent, as soon as the inverse of
the identity is the identity. -/
theorem reachable_coherent (E : SbBase) (dbg : Bool)
    (hid : E.inverse SbMatrix.identity = SbMatrix.identity) (b : SbXfBox3f)
    (h : Reachable E dbg b) : CacheCoherent E b := by
  induction h with
  | default => exact Or.inr hid.symm
  | ofBounds mn mx => exact Or.inr hid.symm
  | ofBox box => exact Or.inr hid.symm
  | setBounds mn mx _ ih => exact ih
  | setTransform m _ _ => exact Or.inl rfl
  | transform m _ _ => exact Or.inl rfl
  | extendByPt p _ ih => exact calcInverse_coherent E _ ih
  | extendByBox bb _ ih => exact extendByBox_coherent E dbg hid _ bb ih
  | extendByXfBox _ _ ih1 ih2 => exact extendByXfBox_coherent E dbg _ _ ih1 ih2
  | calcInverse _ ih => exact calcInverse_coherent E _ ih
  | getInverse _ ih => exact calcInverse_coherent E _ ih
  | intersectPt p _ ih => exact calcInverse_coherent E _ ih
  | intersectBox bb uninit _ ih => exact intersectBox_coherent E _ bb uninit ih

/-! ## Extending by an empty box -/

/-- In a debug build both box overloads of `extendBy` return at once on an empty argument. -/
theorem extendBy_empty_argument_debug (E : SbBase) (A : SbXfBox3f) (B : SbBox3f)
    (X : SbXfBox3f) (hB : B.isEmpty = true) (hX : X.isEmpty = true) :
    extendByBox E true A B = A ∧ extendByXfBox E true A X = A := by
  constructor
  · simp [extendByBox, hB]
  · simp [extendByXfBox, hX]

/-- C5 (failing input): in a non-debug build the emptiness test of the argument is compiled
out.  An empty receiver that carries a translation loses its transform when it is extended by
the default (empty) `SbBox3f` or `SbXfBox3f`, and the unit cube extended by the default empty
`SbBox3f` grows to the corners `-FLT_MAX` and `FLT_MAX`. -/
theorem extendBy_empty_argument_release :
    SbBox3f.empty.isEmpty = true ∧ SbXfBox3f.default.isEmpty = true
    ∧ emptyShifted.getTransform = translateX ∧ translateX ≠ SbMatrix.identity
    ∧ (extendByBox coin false emptyShifted SbBox3f.empty).getTransform = SbMatrix.identity
    ∧ (extendByXfBox coin false emptyShifted SbXfBox3f.default).getTransform
        = SbMatrix.identity
    ∧ (extendByBox coin false (ofBox unitBox) SbBox3f.empty).getMin
        = ⟨-FLT_MAX, -FLT_MAX, -FLT_MAX⟩
    ∧ (extendByBox coin false (ofBox unitBox) SbBox3f.empty).getMax
        = ⟨FLT_MAX, FLT_MAX, FLT_MAX⟩ := by
  have hne : translateX ≠ SbMatrix.identity := by
    intro h
    have h2 := congrArg SbMatrix.a30 h
    simp [translateX, SbMatrix.identity] at h2
  have h1 : extendByBox coin false emptyShifted SbBox3f.empty
      = { toSbBox3f := SbBox3f.empty, matrix := SbMatrix.identity,
          invertedmatrix := SbMatrix.identity } := by
    unfold extendByBox
    rw [emptyShifted_isEmpty]
    simp
  have h2 : extendByXfBox coin false emptyShifted SbXfBox3f.default = SbXfBox3f.default := by
    unfold extendByXfBox
    rw [emptyShifted_isEmpty]
    simp
  have hu : (ofBox unitBox).isEmpty = false := unitBox_nonempty
  have h3 : extendByBox coin false (ofBox unitBox) SbBox3f.empty
      = ofBox ⟨⟨-FLT_MAX, -FLT_MAX, -FLT_MAX⟩, ⟨FLT_MAX, FLT_MAX, FLT_MAX⟩⟩ := by
    have hk : (candidateKeep coin (ofBox unitBox) SbBox3f.empty).toSbBox3f
        = ⟨⟨-FLT_MAX, -FLT_MAX, -FLT_MAX⟩, ⟨FLT_MAX, FLT_MAX, FLT_MAX⟩⟩ := by
      unfold candidateKeep
      have hm : (ofBox unitBox).matrix = SbMatrix.identity := rfl
      rw [hm, coin_inverse_identity]
      simp [extendByCorners, ofBox, unitBox, SbBox3f.empty, SbBox3f.corners, coin,
        Std3D.boxExtendBy, Std3D.multVecMatrix, SbMatrix.identity, FLT_MAX]
    have hp : project coin (ofBox unitBox) = unitBox := by
      simp [project, ofBox, unitBox, SbBox3f.isEmpty, SbBox3f.getMin, SbBox3f.getMax,
        SbVec3f.get, coin, Std3D.boxTransform, SbBox3f.corners, Std3D.boxExtendBy,
        Std3D.multVecMatrix, SbBox3f.empty, SbMatrix.identity, FLT_MAX]
    have hf : flattenExtend coin (ofBox unitBox) SbBox3f.empty
        = ⟨⟨-FLT_MAX, -FLT_MAX, -FLT_MAX⟩, ⟨FLT_MAX, FLT_MAX, FLT_MAX⟩⟩ := by
      unfold flattenExtend
      rw [hp]
      simp [extendByCorners, unitBox, SbBox3f.empty, SbBox3f.corners, coin,
        Std3D.boxExtendBy, FLT_MAX]
    rw [extendByBox_combine coin false (ofBox unitBox) SbBox3f.empty rfl hu]
    have hv : getVolume coin
        { toSbBox3f := extendByCorners coin
            (coin.multVecMatrix (calcInverse coin (ofBox unitBox)).invertedmatrix)
            (ofBox unitBox).toSbBox3f SbBox3f.empty,
          matrix := (ofBox unitBox).matrix,
          invertedmatrix := (calcInverse coin (ofBox unitBox)).invertedmatrix }
        = (flattenExtend coin (ofBox unitBox) SbBox3f.empty).getVolume := by
      rw [getVolume_identity coin coin_sqrt_one _ rfl,
        calcInverse_invertedmatrix coin _ (ofBox_coherent_coin unitBox)]
      show (candidateKeep coin (ofBox unitBox) SbBox3f.empty).toSbBox3f.getVolume = _
      rw [hk, hf]
    rw [hv, if_neg (lt_irrefl _)]
    unfold candidateFlat
    rw [hf]
    rfl
  refine ⟨empty_isEmpty, empty_isEmpty, rfl, hne, ?_, ?_, ?_, ?_⟩
  · rw [h1]; rfl
  · rw [h2]; rfl
  · rw [h3]; rfl
  · rw [h3]; rfl

/-! ## Counting inversions -/

theorem inversionsInReads_valid (E : SbBase) :
    ∀ (n : Nat) (b : SbXfBox3f), b.invertedmatrix.a00 ≠ FLT_MAX →
      inversionsInReads E n b = 0 := by
  intro n
  induction n with
  | zero => intro b _; rfl
  | succ n ih =>
    intro b h
    have h1 : (getInverse E b).2 = b := calcInverse_of_valid E b h
    have h2 : (calcInverseTraced E b).2 = 0 := by simp [calcInverseTraced, h]
    show (calcInverseTraced E b).2 + inversionsInReads E n (getInverse E b).2 = 0
    rw [h1, h2, ih b h]

theorem inversionsInReads_collision (E : SbBase) :
    ∀ (n : Nat) (b : SbXfBox3f), b.invertedmatrix.a00 = FLT_MAX →
      (E.inverse b.matrix).a00 = FLT_MAX → inversionsInReads E n b = n := by
  intro n
  induction n with
  | zero => intro b _ _; rfl
  | succ n ih =>
    intro b h hc
    have h1 : (getInverse E b).2 = { b with invertedmatrix := E.inverse b.matrix } :=
      calcInverse_of_invalid E b h
    have h2 : (calcInverseTraced E b).2 = 1 := by simp [calcInverseTraced, h]
    show (calcInverseTraced E b).2 + inversionsInReads E n (getInverse E b).2 = n + 1
    rw [h1, h2, ih { b with invertedmatrix := E.inverse b.matrix } hc hc]
    exact Nat.add_comm 1 n

/-- C8 (amended): after `setTransform(M)` the first `getInverse()` performs one matrix
inversion.  When `M.inverse()[0][0]` differs from `FLT_MAX`, no further read performs any, so
that any number of reads costs exactly one inversion; when `M.inverse()[0][0]` equals
`FLT_MAX`, the filled cache looks invalid to the sentinel test and each of `n` reads performs
an inversion. -/
theorem inversions_after_setTransform (E : SbBase) (B : SbXfBox3f) (M : SbMatrix) (n : Nat) :
    inversionsInReads E 1 (setTransform B M) = 1
    ∧ ((E.inverse M).a00 ≠ FLT_MAX →
        inversionsInReads E (n + 1) (setTransform B M) = 1
        ∧ inversionsInReads E n (afterReads E 1 (setTransform B M)) = 0)
    ∧ ((E.inverse M).a00 = FLT_MAX → inversionsInReads E n (setTransform B M) = n) := by
  have h1 : (getInverse E (setTransform B M)).2
      = { setTransform B M with invertedmatrix := E.inverse M } :=
    calcInverse_of_invalid E (setTransform B M) rfl
  have h2 : (calcInverseTraced E (setTransform B M)).2 = 1 := by
    simp [calcInverseTraced, setTransform, makeInvInvalid]
  refine ⟨?_, ?_, ?_⟩
  · show (calcInverseTraced E (setTransform B M)).2 + 0 = 1
    rw [h2]
  · intro h
    have h3 : inversionsInReads E n (getInverse E (setTransform B M)).2 = 0 := by
      rw [h1]; exact inversionsInReads_valid E n _ h
    refine ⟨?_, h3⟩
    show (calcInverseTraced E (setTransform B M)).2
      + inversionsInReads E n (getInverse E (setTransform B M)).2 = 1
    rw [h2, h3]
  · intro h
    exact inversionsInReads_collision E n (setTransform B M) rfl h

/-- C8 (counterexample): for the matrix `sentinelMatrix`, whose inverse has `FLT_MAX` as its
`[0][0]` entry, two reads of the inverse after `setTransform` perform two inversions. -/
theorem inversions_sentinel_collision :
    (coin.inverse sentinelMatrix).a00 = FLT_MAX
    ∧ inversionsInReads coin 2 (setTransform SbXfBox3f.default sentinelMatrix) = 2 := by
  have h : (coin.inverse sentinelMatrix).a00 = FLT_MAX := by rw [coin_inverse_sentinelMatrix]
  exact ⟨h, inversionsInReads_collision coin 2 _ rfl h⟩

/-! ## The properties at explicit inputs -/

theorem shiftedUnit_candidates_tie :
    getVolume coin (candidateKeep coin shiftedUnit worldUnit)
      = getVolume coin (candidateFlat coin shiftedUnit worldUnit) := by
  rw [shiftedUnit_candidateKeep, shiftedUnit_candidateFlat, shiftedUnitCached_volume,
    worldUnit_volume]

theorem shiftedUnit_frames_tie :
    getVolume coin (keepFrame coin shiftedUnit (ofBox worldUnit))
      = getVolume coin (keepFrame coin (ofBox worldUnit) shiftedUnit) := by
  rw [shiftedUnit_keepFrame, worldUnit_keepFrame, shiftedUnitCached_volume, worldUnit_volume]

/-- C1 (witness): the sheared box extended by the unit cube in a debug build. -/
theorem extendByBox_volume_le_flatten_witness :
    unitBox.isEmpty = false
    ∧ getVolume coin (extendByBox coin true shearedBox unitBox)
        ≤ (flattenExtend coin shearedBox unitBox).getVolume :=
  ⟨unitBox_nonempty,
    extendByBox_volume_le_flatten coin true shearedBox unitBox (Or.inr unitBox_nonempty)
      coin_sqrt_one coin_boxExtendBy_fits coin_boxExtendBy_keeps⟩

/-- C2 (witness): the translated unit cube extended by the plain box it covers; the result is
one of the two candidates and has the smaller of their volumes. -/
theorem extendByBox_picks_smaller_witness :
    (extendByBox coin false shiftedUnit worldUnit = candidateKeep coin shiftedUnit worldUnit
      ∨ extendByBox coin false shiftedUnit worldUnit
          = candidateFlat coin shiftedUnit worldUnit)
    ∧ getVolume coin (extendByBox coin false shiftedUnit worldUnit)
      = Min.min (getVolume coin (candidateKeep coin shiftedUnit worldUnit))
          (getVolume coin (candidateFlat coin shiftedUnit worldUnit)) :=
  (extendByBox_picks_smaller coin false shiftedUnit worldUnit shiftedUnit_nonempty
    worldUnit_nonempty (setTransform_coherent coin _ _) coin_sqrt_one).2.2

/-- C3 (witness): the translated unit cube extended by the transformed box that covers the
same region with the identity transform. -/
theorem extendByXfBox_picks_smaller_witness :
    (extendByXfBox coin false shiftedUnit (ofBox worldUnit)
        = keepFrame coin shiftedUnit (ofBox worldUnit)
      ∨ extendByXfBox coin false shiftedUnit (ofBox worldUnit)
        = keepFrame coin (ofBox worldUnit) shiftedUnit)
    ∧ getVolume coin (extendByXfBox coin false shiftedUnit (ofBox worldUnit))
      = Min.min (getVolume coin (keepFrame coin shiftedUnit (ofBox worldUnit)))
          (getVolume coin (keepFrame coin (ofBox worldUnit) shiftedUnit)) :=
  (extendByXfBox_picks_smaller coin false shiftedUnit (ofBox worldUnit) shiftedUnit_nonempty
    worldUnit_nonempty (setTransform_coherent coin _ _) (ofBox_coherent_coin _)).2.2

/-- C4 (witness): on the tie between the candidates for the translated unit cube, both
overloads return the second candidate. -/
theorem extendBy_tie_takes_second_witness :
    extendByBox coin false shiftedUnit worldUnit = candidateFlat coin shiftedUnit worldUnit
    ∧ extendByXfBox coin false shiftedUnit (ofBox worldUnit)
      = keepFrame coin (ofBox worldUnit) shiftedUnit :=
  ⟨(extendBy_tie_takes_second coin false shiftedUnit worldUnit (ofBox worldUnit)
      shiftedUnit_nonempty worldUnit_nonempty worldUnit_nonempty
      (setTransform_coherent coin _ _) (ofBox_coherent_coin _) coin_sqrt_one).1
      shiftedUnit_candidates_tie,
    (extendBy_tie_takes_second coin false shiftedUnit worldUnit (ofBox worldUnit)
      shiftedUnit_nonempty worldUnit_nonempty worldUnit_nonempty
      (setTransform_coherent coin _ _) (ofBox_coherent_coin _) coin_sqrt_one).2
      shiftedUnit_frames_tie⟩

/-- C6 (witness): an empty box carrying a translation, extended by the unit cube. -/
theorem extendBy_empty_receiver_witness :
    emptyShifted.isEmpty = true ∧ emptyShifted.getTransform = translateX
    ∧ ((extendByBox coin true emptyShifted unitBox).getMin = unitBox.getMin
      ∧ (extendByBox coin true emptyShifted unitBox).getMax = unitBox.getMax
      ∧ (extendByBox coin true emptyShifted unitBox).getTransform = SbMatrix.identity
      ∧ (extendByBox coin true emptyShifted unitBox).invertedmatrix = SbMatrix.identity)
    ∧ extendByXfBox coin true emptyShifted shiftedUnit = shiftedUnit :=
  ⟨emptyShifted_isEmpty, rfl,
    extendBy_empty_receiver coin true emptyShifted unitBox shiftedUnit emptyShifted_isEmpty
      unitBox_nonempty shiftedUnit_nonempty⟩

/-- C8 (witness): the translation is inverted once however often its inverse is read; the
matrix `sentinelMatrix` is inverted on each of five reads. -/
theorem inversions_after_setTransform_witness :
    inversionsInReads coin 5 (setTransform SbXfBox3f.default translateX) = 1
    ∧ inversionsInReads coin 5 (setTransform SbXfBox3f.default sentinelMatrix) = 5 :=
  ⟨((inversions_after_setTransform coin SbXfBox3f.default translateX 4).2.1
      (by rw [coin_inverse_translateX]; norm_num [SbMatrix.identity, FLT_MAX])).1,
    (inversions_after_setTransform coin SbXfBox3f.default sentinelMatrix 5).2.2
      (by rw [coin_inverse_sentinelMatrix])⟩

/-- C10 (witness): the point `(3/2, 1/2, 1/2)` against the translated unit cube is tested as
the point `(1/2, 1/2, 1/2)` against the unit cube, and lies inside; against the unit cube with
the identity transform the point `(1/2, 1/2, 1/2)` is tested as it is. -/
theorem intersectPt_eq_boxIntersect_witness :
    (intersectPt coin shiftedUnit ⟨3 / 2, 1 / 2, 1 / 2⟩).1
        = coin.boxIntersect unitBox ⟨1 / 2, 1 / 2, 1 / 2⟩
    ∧ (intersectPt coin shiftedUnit ⟨3 / 2, 1 / 2, 1 / 2⟩).1 = true
    ∧ (intersectPt coin (ofBox unitBox) ⟨1 / 2, 1 / 2, 1 / 2⟩).1
        = coin.boxIntersect unitBox ⟨1 / 2, 1 / 2, 1 / 2⟩ := by
  have h := (intersectPt_eq_boxIntersect coin shiftedUnit ⟨3 / 2, 1 / 2, 1 / 2⟩
    (setTransform_coherent coin _ _)).1
  have hm : shiftedUnit.matrix = translateX := rfl
  have hp : coin.multVecMatrix (coin.inverse translateX) ⟨3 / 2, 1 / 2, 1 / 2⟩
      = ⟨1 / 2, 1 / 2, 1 / 2⟩ := by
    rw [coin_inverse_translateX]
    simp [coin, Std3D.multVecMatrix, SbMatrix.identity]
    norm_num
  rw [hm, hp] at h
  refine ⟨h, ?_, ?_⟩
  · rw [h]
    simp [coin, Std3D.boxIntersect, shiftedUnit, setTransform, makeInvInvalid, ofBounds]
    norm_num
  · exact (intersectPt_eq_boxIntersect coin (ofBox unitBox) ⟨1 / 2, 1 / 2, 1 / 2⟩
      (ofBox_coherent_coin unitBox)).2 rfl coin_inverse_identity coin_multVecMatrix_identity

/-- With the standard comparisons, the translated unit cube and the unit cube with the
identity transform have identical corners and equal volumes, and compare unequal. -/
theorem opEq_same_corners_other_transform :
    shiftedUnit.getMin = (ofBox unitBox).getMin ∧ shiftedUnit.getMax = (ofBox unitBox).getMax
    ∧ getVolume coin shiftedUnit = getVolume coin (ofBox unitBox)
    ∧ opEq coin shiftedUnit (ofBox unitBox) = 0 ∧ opNe coin shiftedUnit (ofBox unitBox) = 1 := by
  have hv1 : getVolume coin shiftedUnit = 1 := by
    simp [getVolume, shiftedUnit, setTransform, makeInvInvalid, ofBounds, translateX,
      SbBox3f.hasVolume, SbBox3f.getMin, SbBox3f.getMax, SbVec3f.get, coin_sqrt_one]
  have hv2 : getVolume coin (ofBox unitBox) = 1 := by
    simp [getVolume, ofBox, unitBox, SbMatrix.identity, SbBox3f.hasVolume, SbBox3f.getMin,
      SbBox3f.getMax, SbVec3f.get, coin_sqrt_one]
  have hne : translateX ≠ SbMatrix.identity := by
    intro h
    have h2 := congrArg SbMatrix.a30 h
    simp [translateX, SbMatrix.identity] at h2
  have he : opEq coin shiftedUnit (ofBox unitBox) = 0 := by
    have hm : coin.matEq shiftedUnit.matrix (ofBox unitBox).matrix = false := by
      show decide (translateX = SbMatrix.identity) = false
      exact decide_eq_false hne
    simp [opEq, hm]
  refine ⟨rfl, rfl, by rw [hv1, hv2], he, ?_⟩
  simp [opNe, he]

/-! ## Projection, point extension, volume and `transform` -/

/-- C12: `project()` of a non-empty box is `SbBox3f::transform()` applied, with the matrix of
the box, to the plain box of its corners; of an empty box it is the plain (empty) box of its
corners, unchanged; so that with an `SbBox3f::transform()` that leaves empty boxes as they
are it is the transformed plain box for every box.  `project` only reads the box: it returns
the plain box and no new state of the receiver. -/
theorem project_eq_boxTransform (E : SbBase) (B : SbXfBox3f) :
    (B.isEmpty = false → project E B = E.boxTransform ⟨B.getMin, B.getMax⟩ B.getTransform)
    ∧ (B.isEmpty = true →
        project E B = ⟨B.getMin, B.getMax⟩ ∧ (project E B).isEmpty = true)
    ∧ ((∀ b m, SbBox3f.isEmpty b = true → E.boxTransform b m = b) →
        project E B = E.boxTransform ⟨B.getMin, B.getMax⟩ B.getTransform) := by
  have hb : (⟨B.getMin, B.getMax⟩ : SbBox3f) = B.toSbBox3f := rfl
  refine ⟨?_, ?_, ?_⟩
  · intro h
    have h2 : (⟨B.getMin, B.getMax⟩ : SbBox3f).isEmpty = false := h
    simp [project, h2, getTransform]
  · intro h
    have h2 : (⟨B.getMin, B.getMax⟩ : SbBox3f).isEmpty = true := h
    have h3 : project E B = ⟨B.getMin, B.getMax⟩ := by simp [project, h2]
    exact ⟨h3, by rw [h3]; exact h2⟩
  · intro hT
    by_cases h : B.isEmpty = true
    · have h2 : (⟨B.getMin, B.getMax⟩ : SbBox3f).isEmpty = true := h
      rw [hT _ _ h2]
      simp [project, h2]
    · have h2 : (⟨B.getMin, B.getMax⟩ : SbBox3f).isEmpty = false := by simpa using h
      simp [project, h2, getTransform]

/-- The inverse used by `intersect(pt)` right after `extendBy(pt)` is the one `extendBy` used. -/
theorem calcInverse_idem (E : SbBase) (b : SbXfBox3f) :
    calcInverse E (calcInverse E b) = calcInverse E b := by
  by_cases h : b.invertedmatrix.a00 = FLT_MAX
  · rw [calcInverse_of_invalid E b h]
    by_cases h2 : (E.inverse b.matrix).a00 = FLT_MAX
    · rw [calcInverse_of_invalid E _ h2]
    · rw [calcInverse_of_valid E _ h2]
  · rw [calcInverse_of_valid E b h, calcInverse_of_valid E b h]

theorem calcInverse_extendByPt (E : SbBase) (b : SbXfBox3f) (p : SbVec3f) :
    calcInverse E (extendByPt E b p) = extendByPt E b p := by
  have hxm : (extendByPt E b p).matrix = (calcInverse E b).matrix := rfl
  by_cases hv : (calcInverse E b).invertedmatrix.a00 = FLT_MAX
  · have h2 := calcInverse_of_invalid E (calcInverse E b) hv
    rw [calcInverse_idem] at h2
    have h3 : (calcInverse E b).invertedmatrix = E.inverse (calcInverse E b).matrix :=
      congrArg SbXfBox3f.invertedmatrix h2
    have hv2 : (extendByPt E b p).invertedmatrix.a00 = FLT_MAX := hv
    rw [calcInverse_of_invalid E (extendByPt E b p) hv2, hxm, ← h3]
    rfl
  · have hv2 : (extendByPt E b p).invertedmatrix.a00 ≠ FLT_MAX := hv
    exact calcInverse_of_valid E _ hv2

/-- C13: with an `SbBox3f::extendBy(point)` that makes the point pass the containment test of
`SbBox3f` and keeps every point that passed it, after `extendBy(p)` the box intersects `p`,
its transform is unchanged, and every point that intersected before still intersects. -/
theorem extendByPt_fits (E : SbBase) (B : SbXfBox3f) (p : SbVec3f)
    (hfit : ∀ b q, E.boxIntersect (E.boxExtendBy b q) q = true)
    (hkeep : ∀ b q r, E.boxIntersect b r = true → E.boxIntersect (E.boxExtendBy b q) r = true) :
    (intersectPt E (extendByPt E B p) p).1 = true
    ∧ (extendByPt E B p).getTransform = B.getTransform
    ∧ (∀ r, (intersectPt E B r).1 = true → (intersectPt E (extendByPt E B p) r).1 = true) := by
  refine ⟨?_, ?_, ?_⟩
  · unfold intersectPt
    rw [calcInverse_extendByPt]
    exact hfit _ _
  · show (calcInverse E B).matrix = B.matrix
    exact calcInverse_matrix E B
  · intro r hr
    unfold intersectPt at hr ⊢
    rw [calcInverse_extendByPt]
    exact hkeep _ _ _ hr

/-- C19: `getVolume()` is 0 for a box without volume and never negative; with the identity
transform (and `sqrt(1) = 1`) it is the plain `SbBox3f` volume; and for a transform whose
upper 3x3 part is `diag(sx, sy, sz)` (with `sqrt(x*x) = |x|`) it is `|sx*sy*sz|` times the
product of the three extents. -/
theorem getVolume_scaling (E : SbBase) (B : SbXfBox3f) :
    (B.hasVolume = false → getVolume E B = 0)
    ∧ 0 ≤ getVolume E B
    ∧ (E.sqrt 1 = 1 → B.getTransform = SbMatrix.identity →
        getVolume E B = B.toSbBox3f.getVolume)
    ∧ ((∀ x, E.sqrt (x * x) = |x|) → B.hasVolume = true →
        B.matrix.a01 = 0 → B.matrix.a02 = 0 → B.matrix.a10 = 0 → B.matrix.a12 = 0 →
        B.matrix.a20 = 0 → B.matrix.a21 = 0 →
        getVolume E B = |B.matrix.a00 * B.matrix.a11 * B.matrix.a22|
          * ((B.max.x - B.min.x) * (B.max.y - B.min.y) * (B.max.z - B.min.z))) := by
  refine ⟨?_, ?_, ?_, ?_⟩
  · intro h
    simp [getVolume, h]
  · unfold getVolume
    split
    · exact le_refl _
    · exact abs_nonneg _
  · intro h1 hm
    exact getVolume_identity E h1 B hm
  · intro hs hv h01 h02 h10 h12 h20 h21
    have hv2 := hv
    simp only [SbBox3f.hasVolume, Bool.and_eq_true, decide_eq_true_eq, SbVec3f.get] at hv2
    simp only [OfNat.ofNat_ne_zero, OfNat.ofNat_ne_one, one_ne_zero, if_true, if_false] at hv2
    obtain ⟨⟨h0, h1⟩, h2⟩ := hv2
    have e0 : 0 < B.max.x - B.min.x := sub_pos.mpr h0
    have e1 : 0 < B.max.y - B.min.y := sub_pos.mpr h1
    have e2 : 0 < B.max.z - B.min.z := sub_pos.mpr h2
    unfold getVolume SbBox3f.getMin SbBox3f.getMax
    simp only [hv, Bool.not_true, Bool.false_eq_true, if_false, SbVec3f.get]
    simp only [OfNat.ofNat_ne_zero, OfNat.ofNat_ne_one, one_ne_zero, if_true, if_false]
    rw [h01, h02, h10, h12, h20, h21]
    simp only [mul_zero, add_zero, zero_add, hs]
    rw [abs_mul, abs_mul, abs_mul, abs_mul, abs_mul, abs_mul, abs_mul, abs_abs, abs_abs, abs_abs,
      abs_of_pos e0, abs_of_pos e1, abs_of_pos e2]
    ring

/-- C20: `transform(m)` leaves the corners as they are, makes the transform the previous
transform multiplied on the right by `m`, and the next `getInverse()` returns the inverse of
that new transform, whatever the cache held before the call. -/
theorem transform_keeps_box (E : SbBase) (B : SbXfBox3f) (m : SbMatrix) :
    (transform E B m).getMin = B.getMin ∧ (transform E B m).getMax = B.getMax
    ∧ (transform E B m).getTransform = E.multRight B.getTransform m
    ∧ (getInverse E (transform E B m)).1 = E.inverse (E.multRight B.getTransform m)
    ∧ (getInverse E (getInverse E (transform E B m)).2).1
        = E.inverse (E.multRight B.getTransform m) := by
  have hc : CacheCoherent E (transform E B m) := Or.inl rfl
  have hm : (transform E B m).matrix = E.multRight B.matrix m := rfl
  refine ⟨rfl, rfl, rfl, ?_, ?_⟩
  · show (calcInverse E (transform E B m)).invertedmatrix = _
    rw [calcInverse_invertedmatrix E _ hc, hm]; rfl
  · show (calcInverse E (calcInverse E (transform E B m))).invertedmatrix = _
    rw [calcInverse_idem, calcInverse_invertedmatrix E _ hc, hm]; rfl

/-! ## The box-box test on the cross -/

/-- C11 (failing input): the bar `[0,1] x [0,3] x [0,1]` translated by one unit along the
first axis and the beam `[0,3] x [1,2] x [0,1]` are non-empty, the translation has
determinant 1, and the point `(3/2, 3/2, 1/2)` lies in the beam and is the image of the point
`(1/2, 3/2, 1/2)` of the bar; yet `intersect` returns `FALSE`, whatever the uninitialised
local held. -/
theorem intersectBox_misses_cross :
    crossBar.isEmpty = false ∧ crossBeam.isEmpty = false
    ∧ Std3D.det4 crossBar.getTransform = 1
    ∧ coin.boxIntersect crossBar.toSbBox3f ⟨1 / 2, 3 / 2, 1 / 2⟩ = true
    ∧ coin.multVecMatrix crossBar.getTransform ⟨1 / 2, 3 / 2, 1 / 2⟩ = ⟨3 / 2, 3 / 2, 1 / 2⟩
    ∧ coin.boxIntersect crossBeam ⟨3 / 2, 3 / 2, 1 / 2⟩ = true
    ∧ (intersectPt coin crossBar ⟨3 / 2, 3 / 2, 1 / 2⟩).1 = true
    ∧ (intersect_box_box coin crossBeam.getMin crossBeam.getMax crossBar.getMin
        crossBar.getMax crossBar.matrix false) = (false, true)
    ∧ ∀ uninit, (intersectBox coin crossBar crossBeam uninit).1 = false := by
  refine ⟨?_, ?_, ?_, ?_, ?_, ?_, ?_, ?_, ?_⟩ <;> decide!

/-! ## Reading a float field -/

/-- C16: `SoSFFloat::readValue` returns `TRUE` exactly when `SoInput::read` succeeds, and the
field then holds the float read and no error is posted; when the read fails it returns
`FALSE`, posts the one read error "Premature end of file" and leaves the field as it was. -/
theorem readValue_iff_read {In : Type} (I : SoInputBase In) (self : SoSFFloat) (inp : In)
    (uninit : ℚ) (errors : List String) :
    ((SoSFFloat.readValue I self inp uninit errors).1 = true ↔ (I.read inp uninit).1 = true)
    ∧ ((I.read inp uninit).1 = true →
        (SoSFFloat.readValue I self inp uninit errors).2.1.getValue = (I.read inp uninit).2.1
        ∧ (SoSFFloat.readValue I self inp uninit errors).2.2.2 = errors)
    ∧ ((I.read inp uninit).1 = false →
        (SoSFFloat.readValue I self inp uninit errors).1 = false
        ∧ (SoSFFloat.readValue I self inp uninit errors).2.1 = self
        ∧ (SoSFFloat.readValue I self inp uninit errors).2.2.2 = errors ++ [prematureEnd])
    ∧ (SoSFFloat.readValue I self inp uninit errors).2.2.1 = (I.read inp uninit).2.2 := by
  unfold SoSFFloat.readValue sosffloat_read_value SoSFFloat.getValue SoSFFloat.setValue
  cases h : (I.read inp uninit).1 <;> simp [h]

/-! ## The sphere projector -/

/-- C18: `intersectSphereFront` returns the flag of `sphere.intersect`; on `TRUE` the result
is the first intersection point when `isPointInFront` holds of it and the second one
otherwise; on `FALSE` the result is left as it was; the projector is not modified. -/
theorem intersectSphereFront_result {ViewVol : Type} (P : SbProjectorBase ViewVol)
    (self : SbSphereProjector ViewVol) (l : SbLine) (result u0 u1 : SbVec3f) :
    (SbSphereProjector.intersectSphereFront P self l result u0 u1).1
      = (P.sphereIntersect self.sphere l u0 u1).1
    ∧ ((P.sphereIntersect self.sphere l u0 u1).1 = true →
        (SbSphereProjector.intersectSphereFront P self l result u0 u1).2.1
          = if SbSphereProjector.isPointInFront P self (P.sphereIntersect self.sphere l u0 u1).2.1
            then (P.sphereIntersect self.sphere l u0 u1).2.1
            else (P.sphereIntersect self.sphere l u0 u1).2.2)
    ∧ ((P.sphereIntersect self.sphere l u0 u1).1 = false →
        (SbSphereProjector.intersectSphereFront P self l result u0 u1).2.1 = result)
    ∧ (SbSphereProjector.intersectSphereFront P self l result u0 u1).2.2 = self := by
  unfold SbSphereProjector.intersectSphereFront
  cases h : (P.sphereIntersect self.sphere l u0 u1).1 <;> simp [h]

/-! ## Thread-local storage -/

theorem cc_hash_get_put_self (ht : cc_hash) (k v : Nat) :
    cc_hash_get (cc_hash_put ht k v) k = some v := by
  induction ht with
  | nil => simp [cc_hash_put, cc_hash_get]
  | cons e rest ih =>
    obtain ⟨k0, v0⟩ := e
    by_cases h : k0 = k
    · simp [cc_hash_put, cc_hash_get, h]
    · simp [cc_hash_put, cc_hash_get, h, ih]

theorem cc_hash_get_put_other (ht : cc_hash) (k v k' : Nat) (hk : k' ≠ k) :
    cc_hash_get (cc_hash_put ht k v) k' = cc_hash_get ht k' := by
  have hk2 : ¬ k = k' := fun h => hk h.symm
  induction ht with
  | nil => simp [cc_hash_put, cc_hash_get, hk2]
  | cons e rest ih =>
    obtain ⟨k0, v0⟩ := e
    by_cases h : k0 = k
    · subst h
      simp [cc_hash_put, cc_hash_get, hk2]
    · by_cases h2 : k0 = k'
      · subst h2
        simp [cc_hash_put, cc_hash_get, h]
      · simp [cc_hash_put, cc_hash_get, h, h2, ih]

theorem cc_hash_put_absent (ht : cc_hash) (k v : Nat) (h : cc_hash_get ht k = none) :
    cc_hash_put ht k v = ht ++ [(k, v)] := by
  induction ht with
  | nil => rfl
  | cons e rest ih =>
    obtain ⟨k0, v0⟩ := e
    by_cases h0 : k0 = k
    · simp [cc_hash_get, h0] at h
    · simp only [cc_hash_get, h0, if_false] at h
      simp [cc_hash_put, h0, ih h]

theorem cc_hash_get_mem (ht : cc_hash) (k v : Nat) (h : cc_hash_get ht k = some v) :
    (k, v) ∈ ht := by
  induction ht with
  | nil => simp [cc_hash_get] at h
  | cons e rest ih =>
    obtain ⟨k0, v0⟩ := e
    by_cases h0 : k0 = k
    · simp only [cc_hash_get, h0, if_true, Option.some.injEq] at h
      subst h0; subst h; exact List.mem_cons_self _ _
    · simp only [cc_hash_get, h0, if_false] at h
      exact List.mem_cons_of_mem _ (ih h)

theorem cc_storage_get_registered (s : cc_storage) (t fresh p : Nat)
    (h : cc_hash_get s.dict t = some p) : cc_storage_get s t fresh = (p, s, []) := by
  simp [cc_storage_get, h]

theorem cc_storage_get_unregistered (s : cc_storage) (t fresh : Nat)
    (h : cc_hash_get s.dict t = none) :
    cc_storage_get s t fresh
      = (fresh, { s with dict := s.dict ++ [(t, fresh)] },
          [StorageEvent.malloc s.size fresh]
          ++ (match s.constructor with
              | some c => [StorageEvent.construct c fresh]
              | none => [])) := by
  simp [cc_storage_get, h, cc_hash_put_absent s.dict t fresh h]

theorem cc_storage_get_other (s : cc_storage) (t fresh t' : Nat) (ht : t' ≠ t) :
    cc_hash_get (cc_storage_get s t fresh).2.1.dict t' = cc_hash_get s.dict t' := by
  cases h : cc_hash_get s.dict t with
  | some p => rw [cc_storage_get_registered s t fresh p h]
  | none =>
    simp only [cc_storage_get, h]
    exact cc_hash_get_put_other s.dict t fresh t' ht

theorem cc_storage_get_self (s : cc_storage) (t fresh : Nat) :
    cc_hash_get (cc_storage_get s t fresh).2.1.dict t = some (cc_storage_get s t fresh).1 := by
  cases h : cc_hash_get s.dict t with
  | some p => rw [cc_storage_get_registered s t fresh p h]; exact h
  | none =>
    simp only [cc_storage_get, h]
    exact cc_hash_get_put_self s.dict t fresh

theorem cc_storage_get_keeps (s : cc_storage) (t0 f0 t p : Nat)
    (h : cc_hash_get s.dict t = some p) :
    cc_hash_get (cc_storage_get s t0 f0).2.1.dict t = some p := by
  by_cases ht : t = t0
  · subst ht
    rw [cc_storage_get_registered s t f0 p h]; exact h
  · rw [cc_storage_get_other s t0 f0 t ht]; exact h

theorem cc_storage_gets_keeps :
    ∀ (calls : List (Nat × Nat)) (s : cc_storage) (t p : Nat),
      cc_hash_get s.dict t = some p →
      cc_hash_get (cc_storage_gets s calls).1.dict t = some p := by
  intro calls
  induction calls with
  | nil => intro s t p h; exact h
  | cons c rest ih =>
    intro s t p h
    obtain ⟨t0, f0⟩ := c
    exact ih _ t p (cc_storage_get_keeps s t0 f0 t p h)

theorem blocks_distinct_keys (ht : cc_hash) (k k' v : Nat) (hn : (ht.map Prod.snd).Nodup)
    (h1 : (k, v) ∈ ht) (h2 : (k', v) ∈ ht) : k = k' := by
  induction ht with
  | nil => cases h1
  | cons e rest ih =>
    obtain ⟨k0, v0⟩ := e
    simp only [List.map_cons, List.nodup_cons, List.mem_map, Prod.exists, exists_eq_right,
      not_exists] at hn
    rcases List.mem_cons.mp h1 with h1 | h1 <;> rcases List.mem_cons.mp h2 with h2 | h2
    · rw [Prod.mk.injEq] at h1 h2; rw [h1.1, h2.1]
    · rw [Prod.mk.injEq] at h1; rw [h1.2] at h2; exact absurd h2 (hn.1 k')
    · rw [Prod.mk.injEq] at h2; rw [h2.2] at h1; exact absurd h1 (hn.1 k)
    · exact ih hn.2 h1 h2

theorem cc_storage_get_blocks_nodup (s : cc_storage) (t fresh : Nat)
    (hn : s.blocks.Nodup) (hf : fresh ∉ s.blocks) :
    (cc_storage_get s t fresh).2.1.blocks.Nodup := by
  cases h : cc_hash_get s.dict t with
  | some p => rw [cc_storage_get_registered s t fresh p h]; exact hn
  | none =>
    rw [cc_storage_get_unregistered s t fresh h]
    simp only [cc_storage.blocks, List.map_append, List.map_cons, List.map_nil]
    rw [List.nodup_append]
    refine ⟨hn, List.nodup_singleton _, ?_⟩
    intro a ha hb
    rw [List.mem_singleton] at hb
    subst hb
    exact hf ha

/-- Along a sequence of calls with fresh `malloc` results, no block is registered twice. -/
theorem cc_storage_gets_blocks_nodup :
    ∀ (calls : List (Nat × Nat)) (s : cc_storage), s.blocks.Nodup → FreshCalls s calls →
      (cc_storage_gets s calls).1.blocks.Nodup := by
  intro calls
  induction calls with
  | nil => intro s hn _; exact hn
  | cons c rest ih =>
    intro s hn hf
    obtain ⟨t0, f0⟩ := c
    exact ih _ (cc_storage_get_blocks_nodup s t0 f0 hn hf.1) hf.2

/-- C14: the first `cc_storage_get` of a thread allocates one block of `storage->size` bytes,
calls the constructor hook, when there is one, once on it and registers it under the thread;
after any further calls of any threads, the next call of the thread returns that block, makes
no call and leaves the storage as it is; no call of a thread changes what is registered for
another thread, and the block it returns is not one registered for another thread. -/
theorem cc_storage_get_per_thread (s : cc_storage) (t fresh q : Nat)
    (calls : List (Nat × Nat)) (hnew : cc_hash_get s.dict t = none) :
    ((cc_storage_get s t fresh).1 = fresh
      ∧ allocatedBlocks (cc_storage_get s t fresh).2.2 = [fresh]
      ∧ (cc_storage_get s t fresh).2.2
          = [StorageEvent.malloc s.size fresh]
            ++ (match s.constructor with
                | some c => [StorageEvent.construct c fresh]
                | none => [])
      ∧ cc_hash_get (cc_storage_get s t fresh).2.1.dict t = some fresh)
    ∧ cc_storage_get (cc_storage_gets (cc_storage_get s t fresh).2.1 calls).1 t q
        = (fresh, (cc_storage_gets (cc_storage_get s t fresh).2.1 calls).1, [])
    ∧ (∀ (s' : cc_storage) (t0 f0 t' : Nat), t' ≠ t0 →
        cc_hash_get (cc_storage_get s' t0 f0).2.1.dict t' = cc_hash_get s'.dict t')
    ∧ (∀ (s' : cc_storage) (t0 f0 t' : Nat), s'.blocks.Nodup → f0 ∉ s'.blocks → t' ≠ t0 →
        cc_hash_get (cc_storage_get s' t0 f0).2.1.dict t' ≠ some (cc_storage_get s' t0 f0).1) := by
  have h1 := cc_storage_get_unregistered s t fresh hnew
  have hself : cc_hash_get (cc_storage_get s t fresh).2.1.dict t = some fresh := by
    have := cc_storage_get_self s t fresh
    rw [this, h1]
  refine ⟨⟨by rw [h1], ?_, by rw [h1], hself⟩, ?_, ?_, ?_⟩
  · rw [h1]
    cases s.constructor <;> simp [allocatedBlocks]
  · exact cc_storage_get_registered _ t q fresh
      (cc_storage_gets_keeps calls _ t fresh hself)
  · intro s' t0 f0 t' ht
    exact cc_storage_get_other s' t0 f0 t' ht
  · intro s' t0 f0 t' hn hf ht hcontra
    have hn2 := cc_storage_get_blocks_nodup s' t0 f0 hn hf
    have m1 := cc_hash_get_mem _ _ _ hcontra
    have m2 := cc_hash_get_mem _ _ _ (cc_storage_get_self s' t0 f0)
    exact ht (blocks_distinct_keys _ t' t0 _ hn2 m1 m2)

theorem allocatedBlocks_append (a b : List StorageEvent) :
    allocatedBlocks (a ++ b) = allocatedBlocks a ++ allocatedBlocks b := by
  induction a with
  | nil => rfl
  | cons e rest ih => cases e <;> simp [allocatedBlocks, ih]

theorem constructedBlocks_append (a b : List StorageEvent) :
    constructedBlocks (a ++ b) = constructedBlocks a ++ constructedBlocks b := by
  induction a with
  | nil => rfl
  | cons e rest ih => cases e <;> simp [constructedBlocks, ih]

theorem destructedBlocks_append (a b : List StorageEvent) :
    destructedBlocks (a ++ b) = destructedBlocks a ++ destructedBlocks b := by
  induction a with
  | nil => rfl
  | cons e rest ih => cases e <;> simp [destructedBlocks, ih]

theorem freedBlocks_append (a b : List StorageEvent) :
    freedBlocks (a ++ b) = freedBlocks a ++ freedBlocks b := by
  induction a with
  | nil => rfl
  | cons e rest ih => cases e <;> simp [freedBlocks, ih]

/-- One `cc_storage_get` keeps the size and the hooks, appends the allocated block, if any,
to the registered blocks, and calls the constructor hook exactly on the allocated block. -/
theorem cc_storage_get_step (s : cc_storage) (t fresh : Nat) :
    (cc_storage_get s t fresh).2.1.size = s.size
    ∧ (cc_storage_get s t fresh).2.1.constructor = s.constructor
    ∧ (cc_storage_get s t fresh).2.1.destructor = s.destructor
    ∧ (cc_storage_get s t fresh).2.1.blocks
        = s.blocks ++ allocatedBlocks (cc_storage_get s t fresh).2.2
    ∧ constructedBlocks (cc_storage_get s t fresh).2.2
        = if s.constructor.isSome then allocatedBlocks (cc_storage_get s t fresh).2.2
          else [] := by
  cases h : cc_hash_get s.dict t with
  | some p =>
    rw [cc_storage_get_registered s t fresh p h]
    simp [allocatedBlocks, constructedBlocks]
  | none =>
    rw [cc_storage_get_unregistered s t fresh h]
    cases hc : s.constructor <;>
      simp [allocatedBlocks, constructedBlocks, cc_storage.blocks, hc]

theorem cc_storage_gets_run :
    ∀ (calls : List (Nat × Nat)) (s : cc_storage),
      (cc_storage_gets s calls).1.size = s.size
      ∧ (cc_storage_gets s calls).1.constructor = s.constructor
      ∧ (cc_storage_gets s calls).1.destructor = s.destructor
      ∧ (cc_storage_gets s calls).1.blocks
          = s.blocks ++ allocatedBlocks (cc_storage_gets s calls).2
      ∧ constructedBlocks (cc_storage_gets s calls).2
          = if s.constructor.isSome then allocatedBlocks (cc_storage_gets s calls).2
            else [] := by
  intro calls
  induction calls with
  | nil =>
    intro s
    simp [cc_storage_gets, allocatedBlocks, constructedBlocks]
  | cons c rest ih =>
    intro s
    obtain ⟨t0, f0⟩ := c
    obtain ⟨a1, a2, a3, a4, a5⟩ := cc_storage_get_step s t0 f0
    obtain ⟨b1, b2, b3, b4, b5⟩ := ih (cc_storage_get s t0 f0).2.1
    simp only [cc_storage_gets]
    refine ⟨b1.trans a1, b2.trans a2, b3.trans a3, ?_, ?_⟩
    · rw [b4, a4, allocatedBlocks_append, List.append_assoc]
    · rw [constructedBlocks_append, allocatedBlocks_append, a5, b5, a2]
      cases s.constructor <;> simp

theorem cc_storage_destruct_eq (s : cc_storage) :
    cc_storage_destruct s = teardownCalls s.destructor s.blocks := by
  unfold cc_storage_destruct cc_storage.blocks
  induction s.dict with
  | nil => rfl
  | cons e rest ih =>
    obtain ⟨k, v⟩ := e
    simp only [cc_hash_apply, List.map_cons, teardownCalls, cc_storage_hash_destruct_cb, ih,
      List.append_assoc]

theorem teardownCalls_destructed (d : Option Nat) (bs : List Nat) :
    destructedBlocks (teardownCalls d bs) = if d.isSome then bs else [] := by
  induction bs with
  | nil => cases d <;> rfl
  | cons b rest ih =>
    cases d with
    | none => simpa [teardownCalls, destructedBlocks] using ih
    | some h => simpa [teardownCalls, destructedBlocks] using ih

theorem teardownCalls_freed (d : Option Nat) (bs : List Nat) :
    freedBlocks (teardownCalls d bs) = bs := by
  induction bs with
  | nil => rfl
  | cons b rest ih =>
    cases d with
    | none => simpa [teardownCalls, freedBlocks] using ih
    | some h => simpa [teardownCalls, freedBlocks] using ih

/-- C15: for a storage built with `cc_storage_construct_etc` and used through any sequence of
`cc_storage_get` calls, `cc_storage_destruct` goes through the blocks that `cc_storage_get`
allocated, calling for each the destructor hook, when there is one, and then `free`: the
blocks destructed are exactly the blocks allocated (each once when `malloc` hands out fresh
blocks), without a destructor hook no hook is called, and with both hooks the constructor
calls over the lifetime are as many as the destructor calls at teardown. -/
theorem cc_storage_destruct_hooks (size : Nat) (c d : Option Nat)
    (calls : List (Nat × Nat)) :
    cc_storage_destruct (storageInUse size c d calls).1
      = teardownCalls d (allocatedBlocks (storageInUse size c d calls).2)
    ∧ destructedBlocks (cc_storage_destruct (storageInUse size c d calls).1)
      = (if d.isSome then allocatedBlocks (storageInUse size c d calls).2 else [])
    ∧ freedBlocks (cc_storage_destruct (storageInUse size c d calls).1)
      = allocatedBlocks (storageInUse size c d calls).2
    ∧ constructedBlocks (storageInUse size c d calls).2
      = (if c.isSome then allocatedBlocks (storageInUse size c d calls).2 else [])
    ∧ (c.isSome = true → d.isSome = true →
        (constructedBlocks (storageInUse size c d calls).2).length
          = (destructedBlocks (cc_storage_destruct (storageInUse size c d calls).1)).length)
    ∧ (FreshCalls (cc_storage_construct_etc size c d) calls →
        (destructedBlocks (cc_storage_destruct (storageInUse size c d calls).1)).Nodup)
    ∧ destructedBlocks
        (cc_storage_destruct (cc_storage_gets (cc_storage_construct size) calls).1) = [] := by
  obtain ⟨_, _, h3, h4, h5⟩ := cc_storage_gets_run calls (cc_storage_construct_etc size c d)
  have hb : (storageInUse size c d calls).1.blocks
      = allocatedBlocks (storageInUse size c d calls).2 := by
    unfold storageInUse
    rw [h4]
    rfl
  have hd : (storageInUse size c d calls).1.destructor = d := h3
  have e1 : cc_storage_destruct (storageInUse size c d calls).1
      = teardownCalls d (allocatedBlocks (storageInUse size c d calls).2) := by
    rw [cc_storage_destruct_eq, hb, hd]
  have e2 : destructedBlocks (cc_storage_destruct (storageInUse size c d calls).1)
      = (if d.isSome then allocatedBlocks (storageInUse size c d calls).2 else []) := by
    rw [e1, teardownCalls_destructed]
  have e4 : constructedBlocks (storageInUse size c d calls).2
      = (if c.isSome then allocatedBlocks (storageInUse size c d calls).2 else []) := h5
  refine ⟨e1, e2, ?_, e4, ?_, ?_, ?_⟩
  · rw [e1, teardownCalls_freed]
  · intro hc hdd
    rw [e2, e4, hc, hdd]
  · intro hf
    rw [e2]
    split
    · rw [← hb]
      exact cc_storage_gets_blocks_nodup calls _ List.nodup_nil hf
    · exact List.nodup_nil
  · obtain ⟨_, _, g3, _, _⟩ := cc_storage_gets_run calls (cc_storage_construct size)
    rw [cc_storage_destruct_eq, teardownCalls_destructed, g3]
    rfl

/-! ## Push and pop on the traversal state -/

theorem Descending.mono {V : Type} {a b : Nat} (h : a ≤ b) :
    ∀ {l : List (SoElement V)}, Descending a l → Descending b l
  | [], _ => trivial
  | _ :: _, hl => ⟨lt_of_lt_of_le hl.1 h, hl.2⟩

theorem popSlot_of_descending {V : Type} (d : Nat) (l : List (SoElement V))
    (h : Descending d l) : SoState.popSlot d l = l := by
  cases l with
  | nil => rfl
  | cons e rest =>
    have : e.depth ≠ d := Nat.ne_of_lt h.1
    simp [SoState.popSlot, this]

theorem popSlot_descending {V : Type} (d : Nat) (l : List (SoElement V))
    (h : Descending (d + 1) l) : Descending d (SoState.popSlot d l) := by
  cases l with
  | nil => trivial
  | cons e rest =>
    by_cases he : e.depth = d
    · simp only [SoState.popSlot, he, if_true]
      have := h.2
      rw [he] at this
      exact this
    · simp only [SoState.popSlot, he, if_false]
      exact ⟨lt_of_le_of_ne (Nat.lt_succ_iff.mp h.1) he, h.2⟩

theorem SoState.initial_wellFormed (V : Type) : (SoState.initial V).WellFormed :=
  fun _ => trivial

theorem SoState.push_wellFormed {V : Type} (s : SoState V) (h : s.WellFormed) :
    s.push.WellFormed :=
  fun k => Descending.mono (Nat.le_succ _) (h k)

theorem SoState.setElement_slot {V : Type} (s : SoState V) (h : s.WellFormed)
    (k : ElementKind) (v : V) :
    Descending (s.depth + 1) ((s.setElement k v).slots k)
    ∧ SoState.popSlot s.depth ((s.setElement k v).slots k)
      = SoState.popSlot s.depth (s.slots k) := by
  have hk := h k
  simp only [SoState.setElement, Function.update_same]
  cases hs : s.slots k with
  | nil =>
    simp [Descending, SoState.popSlot]
  | cons e rest =>
    rw [hs] at hk
    by_cases he : e.depth = s.depth
    · simp only [he, if_true]
      refine ⟨⟨Nat.lt_succ_self _, ?_⟩, ?_⟩
      · have := hk.2; rw [he] at this; exact this
      · simp [SoState.popSlot, he]
    · simp only [he, if_false]
      refine ⟨⟨Nat.lt_succ_self _,
        ⟨lt_of_le_of_ne (Nat.lt_succ_iff.mp hk.1) he, hk.2⟩⟩, ?_⟩
      simp [SoState.popSlot, he]

theorem SoState.setElement_wellFormed {V : Type} (s : SoState V) (h : s.WellFormed)
    (k : ElementKind) (v : V) : (s.setElement k v).WellFormed := by
  intro k'
  by_cases hk : k' = k
  · subst hk
    exact (SoState.setElement_slot s h k' v).1
  · have : (s.setElement k v).slots k' = s.slots k' := by
      simp [SoState.setElement, Function.update_noteq hk]
    show Descending (s.depth + 1) ((s.setElement k v).slots k')
    rw [this]
    exact h k'

theorem SoState.setElement_popSlot {V : Type} (s : SoState V) (h : s.WellFormed)
    (k : ElementKind) (v : V) (k' : ElementKind) :
    SoState.popSlot s.depth ((s.setElement k v).slots k')
      = SoState.popSlot s.depth (s.slots k') := by
  by_cases hk : k' = k
  · subst hk
    exact (SoState.setElement_slot s h k' v).2
  · have : (s.setElement k v).slots k' = s.slots k' := by
      simp [SoState.setElement, Function.update_noteq hk]
    rw [this]

theorem SoState.pop_wellFormed {V : Type} (s s1 : SoState V) (h : s.WellFormed)
    (hp : s.pop = some s1) : s1.WellFormed := by
  unfold SoState.pop at hp
  by_cases hd : s.depth = 0
  · simp [hd] at hp
  · simp only [hd, if_false, Option.some.injEq] at hp
    subst hp
    intro k
    show Descending (s.depth - 1 + 1) (SoState.popSlot s.depth (s.slots k))
    have : s.depth - 1 + 1 = s.depth := Nat.succ_pred_eq_of_ne_zero hd
    rw [this]
    exact popSlot_descending s.depth _ (h k)

/-- Every state that a sequence of steps produces from a well-formed state is well formed. -/
theorem SoState.run_wellFormed {V : Type} :
    ∀ (ops : List (StateOp V)) (s s1 : SoState V), s.WellFormed →
      SoState.run ops s = some s1 → s1.WellFormed := by
  intro ops
  induction ops with
  | nil =>
    intro s s1 h hr
    simp only [SoState.run, Option.some.injEq] at hr
    subst hr; exact h
  | cons op ops ih =>
    intro s s1 h hr
    cases op with
    | push => exact ih _ _ (SoState.push_wellFormed s h) hr
    | pop =>
      simp only [SoState.run] at hr
      cases hp : s.pop with
      | none => rw [hp] at hr; cases hr
      | some s2 =>
        rw [hp] at hr
        exact ih _ _ (SoState.pop_wellFormed s s2 h hp) hr
    | set k v => exact ih _ _ (SoState.setElement_wellFormed s h k v) hr

theorem SoState.run_append {V : Type} :
    ∀ (a b : List (StateOp V)) (s : SoState V),
      SoState.run (a ++ b) s = (SoState.run a s).bind (SoState.run b) := by
  intro a
  induction a with
  | nil => intro b s; rfl
  | cons op ops ih =>
    intro b s
    cases op with
    | push => exact ih b _
    | pop =>
      simp only [List.cons_append, SoState.run]
      cases s.pop with
      | none => rfl
      | some s2 => exact ih b s2
    | set k v => exact ih b _

/-- A push, a balanced sequence and the matching pop bring every slot back. -/
theorem SoState.run_balanced {V : Type} (ops : List (StateOp V)) (hb : Balanced ops) :
    ∀ s : SoState V, s.WellFormed →
      ∃ s1, SoState.run ops s = some s1 ∧ s1.depth = s.depth ∧ s1.WellFormed
        ∧ ∀ k, SoState.popSlot s.depth (s1.slots k) = SoState.popSlot s.depth (s.slots k) := by
  induction hb with
  | nil => intro s h; exact ⟨s, rfl, rfl, h, fun _ => rfl⟩
  | set k v _ ih =>
    intro s h
    obtain ⟨s1, h1, h2, h3, h4⟩ := ih (s.setElement k v) (SoState.setElement_wellFormed s h k v)
    refine ⟨s1, h1, h2, h3, ?_⟩
    intro k'
    have e := h4 k'
    have hd : (s.setElement k v).depth = s.depth := rfl
    rw [hd] at e
    rw [e, SoState.setElement_popSlot s h k v k']
  | nest _ _ ihb ihr =>
    intro s h
    obtain ⟨s1, h1, h2, h3, h4⟩ := ihb s.push (SoState.push_wellFormed s h)
    have hd1 : s1.depth = s.depth + 1 := h2
    have hne : s1.depth ≠ 0 := by rw [hd1]; exact Nat.succ_ne_zero _
    have hslots : ∀ k, SoState.popSlot s1.depth (s1.slots k) = s.slots k := by
      intro k
      have e := h4 k
      have hp : s.push.depth = s.depth + 1 := rfl
      have hs : s.push.slots k = s.slots k := rfl
      rw [hp, hs, popSlot_of_descending _ _ (h k)] at e
      rw [hd1]; exact e
    have hpop : s1.pop
        = some { s1 with depth := s1.depth - 1,
                         slots := fun k => SoState.popSlot s1.depth (s1.slots k) } := by
      simp [SoState.pop, hne]
    have hwf2 := SoState.pop_wellFormed s1 _ h3 hpop
    obtain ⟨s3, g1, g2, g3, g4⟩ := ihr _ hwf2
    refine ⟨s3, ?_, ?_, g3, ?_⟩
    · show SoState.run (_ ++ _) s.push = some s3
      rw [SoState.run_append, h1]
      show SoState.run (StateOp.pop :: _) s1 = some s3
      simp only [SoState.run, hpop]
      exact g1
    · rw [g2]
      show s1.depth - 1 = s.depth
      rw [hd1]; rfl
    · intro k
      have e := g4 k
      have hdd : s1.depth - 1 = s.depth := by rw [hd1]; rfl
      simp only [hdd] at e
      rw [e, hslots k]

/-- A push, a balanced sequence and the matching pop restore every slot exactly. -/
theorem SoState.run_push_pop {V : Type} (body : List (StateOp V)) (hb : Balanced body)
    (s : SoState V) (h : s.WellFormed) :
    ∃ s2, SoState.run (StateOp.push :: (body ++ [StateOp.pop])) s = some s2
      ∧ s2.depth = s.depth ∧ s2.slots = s.slots := by
  obtain ⟨s1, h1, h2, _, h4⟩ := SoState.run_balanced body hb s.push (SoState.push_wellFormed s h)
  have hd1 : s1.depth = s.depth + 1 := h2
  have hne : s1.depth ≠ 0 := by rw [hd1]; exact Nat.succ_ne_zero _
  have hslots : ∀ k, SoState.popSlot s1.depth (s1.slots k) = s.slots k := by
    intro k
    have e := h4 k
    have hp : s.push.depth = s.depth + 1 := rfl
    have hs : s.push.slots k = s.slots k := rfl
    rw [hp, hs, popSlot_of_descending _ _ (h k)] at e
    rw [hd1]; exact e
  have hpop : s1.pop
      = some { s1 with depth := s1.depth - 1,
                       slots := fun k => SoState.popSlot s1.depth (s1.slots k) } := by
    simp [SoState.pop, hne]
  cases hp : s1.pop with
  | none => rw [hpop] at hp; cases hp
  | some s2 =>
  have hs2 := hp
  rw [hpop, Option.some.injEq] at hs2
  refine ⟨s2, ?_, ?_, ?_⟩
  · show SoState.run (body ++ [StateOp.pop]) s.push = some s2
    rw [SoState.run_append, h1]
    show SoState.run [StateOp.pop] s1 = some s2
    simp only [SoState.run, hp]
  · rw [← hs2]
    show s1.depth - 1 = s.depth
    rw [hd1]; rfl
  · rw [← hs2]
    funext k
    exact hslots k

theorem SoState.getElement_congr {V : Type} (dflt : ElementKind → V) (a b : SoState V)
    (h : a.slots = b.slots) (k : ElementKind) : a.getElement dflt k = b.getElement dflt k := by
  unfold SoState.getElement
  rw [h]

/-- C17: from any state that a sequence of pushes, pops and element writes produces out of
the initial state, a push, any balanced sequence of pushes, pops and writes, and the matching
pop run without error and end in a state of the same depth in which every slot is as it was
before the push: every element kind shows the value it showed before, the pick ray read
through `SoPickRayElement::get` included, also after it was set in between through
`SoPickRayElement::set`. -/
theorem push_pop_round_trip {V : Type} (dflt : ElementKind → V)
    (before body : List (StateOp V)) (s : SoState V) (volume : V)
    (hs : SoState.run before (SoState.initial V) = some s) (hb : Balanced body) :
    (∃ s1, SoState.run (StateOp.push :: (body ++ [StateOp.pop])) s = some s1
      ∧ s1.depth = s.depth ∧ s1.slots = s.slots
      ∧ (∀ k, s1.getElement dflt k = s.getElement dflt k)
      ∧ SoPickRayElement.get dflt s1 = SoPickRayElement.get dflt s)
    ∧ (SoPickRayElement.set s.push volume).pop.map (SoPickRayElement.get dflt)
        = some (SoPickRayElement.get dflt s) := by
  have hw : s.WellFormed :=
    SoState.run_wellFormed before _ s (SoState.initial_wellFormed V) hs
  constructor
  · obtain ⟨s1, h1, h2, h3⟩ := SoState.run_push_pop body hb s hw
    exact ⟨s1, h1, h2, h3, fun k => SoState.getElement_congr dflt s1 s h3 k,
      SoState.getElement_congr dflt s1 s h3 ElementKind.pickRay⟩
  · obtain ⟨s1, h1, _, h3⟩ := SoState.run_push_pop
      [StateOp.set ElementKind.pickRay volume] (Balanced.set _ _ Balanced.nil) s hw
    have hrun : SoState.run (StateOp.push :: ([StateOp.set ElementKind.pickRay volume]
        ++ [StateOp.pop])) s = (SoPickRayElement.set s.push volume).pop := by
      simp only [List.singleton_append, SoState.run, SoPickRayElement.set]
      cases (s.push.setElement ElementKind.pickRay volume).pop <;> rfl
    rw [← hrun, h1]
    exact congrArg some (SoState.getElement_congr dflt s1 s h3 ElementKind.pickRay)

/-! ## The further properties at explicit inputs -/

theorem coin_boxTransform_empty (b : SbBox3f) (m : SbMatrix) (h : b.isEmpty = true) :
    coin.boxTransform b m = b := by
  simp [coin, Std3D.boxTransform, h]

theorem coin_boxIntersect_fits (b : SbBox3f) (q : SbVec3f) :
    coin.boxIntersect (coin.boxExtendBy b q) q = true := by
  simp [coin, Std3D.boxIntersect, Std3D.boxExtendBy]

theorem coin_boxIntersect_keeps (b : SbBox3f) (q r : SbVec3f)
    (h : coin.boxIntersect b r = true) : coin.boxIntersect (coin.boxExtendBy b q) r = true := by
  simp only [coin, Std3D.boxIntersect, Bool.not_eq_true', Bool.or_eq_false_iff,
    decide_eq_false_iff_not, not_lt] at h
  obtain ⟨⟨⟨⟨⟨h1, h2⟩, h3⟩, h4⟩, h5⟩, h6⟩ := h
  simp only [coin, Std3D.boxIntersect, Std3D.boxExtendBy, Bool.not_eq_true',
    Bool.or_eq_false_iff, decide_eq_false_iff_not, not_lt]
  exact ⟨⟨⟨⟨⟨(min_le_right _ _).trans h1, h2.trans (le_max_right _ _)⟩,
    (min_le_right _ _).trans h3⟩, h4.trans (le_max_right _ _)⟩,
    (min_le_right _ _).trans h5⟩, h6.trans (le_max_right _ _)⟩

/-- C12 (witness): the translated unit cube projects to `SbBox3f::transform()` of its plain
box, and an empty box carrying a translation projects to its plain box. -/
theorem project_eq_boxTransform_witness :
    project coin shiftedUnit
        = coin.boxTransform ⟨shiftedUnit.getMin, shiftedUnit.getMax⟩ shiftedUnit.getTransform
    ∧ project coin emptyShifted = ⟨emptyShifted.getMin, emptyShifted.getMax⟩
    ∧ project coin emptyShifted
        = coin.boxTransform ⟨emptyShifted.getMin, emptyShifted.getMax⟩
            emptyShifted.getTransform :=
  ⟨(project_eq_boxTransform coin shiftedUnit).1 shiftedUnit_nonempty,
    ((project_eq_boxTransform coin emptyShifted).2.1 emptyShifted_isEmpty).1,
    (project_eq_boxTransform coin emptyShifted).2.2 coin_boxTransform_empty⟩

/-- C13 (witness): the translated unit cube extended by the point `(5, 5, 5)`. -/
theorem extendByPt_fits_witness :
    (intersectPt coin shiftedUnit ⟨5, 5, 5⟩).1 = false
    ∧ (intersectPt coin (extendByPt coin shiftedUnit ⟨5, 5, 5⟩) ⟨5, 5, 5⟩).1 = true
    ∧ (extendByPt coin shiftedUnit ⟨5, 5, 5⟩).getTransform = shiftedUnit.getTransform :=
  ⟨by decide!,
    (extendByPt_fits coin shiftedUnit ⟨5, 5, 5⟩ coin_boxIntersect_fits
      coin_boxIntersect_keeps).1,
    (extendByPt_fits coin shiftedUnit ⟨5, 5, 5⟩ coin_boxIntersect_fits
      coin_boxIntersect_keeps).2.1⟩

/-- C14 (witness): thread 7 makes the first call on a fresh storage and gets block 1000;
after calls of threads 8 and 7 its next call returns block 1000 again without any call. -/
theorem cc_storage_get_per_thread_witness :
    (cc_storage_get hookedStorage 7 1000).1 = 1000
    ∧ (cc_storage_get hookedStorage 7 1000).2.2
        = [StorageEvent.malloc 16 1000, StorageEvent.construct 100 1000]
    ∧ (cc_storage_get
        (cc_storage_gets (cc_storage_get hookedStorage 7 1000).2.1 [(8, 1001), (7, 1002)]).1
        7 2000).1 = 1000
    ∧ (cc_storage_get
        (cc_storage_gets (cc_storage_get hookedStorage 7 1000).2.1 [(8, 1001), (7, 1002)]).1
        7 2000).2.2 = [] := by
  have h := cc_storage_get_per_thread hookedStorage 7 1000 2000 [(8, 1001), (7, 1002)] rfl
  refine ⟨h.1.1, h.1.2.2.1, ?_, ?_⟩
  · rw [h.2.1]
  · rw [h.2.1]

/-- C15 (witness): threads 7 and 8 use a storage with both hooks; the teardown destructs and
frees block 1000 and then block 1001, the two blocks that were allocated and constructed. -/
theorem cc_storage_destruct_hooks_witness :
    (storageInUse 16 (some 100) (some 200) [(7, 1000), (8, 1001), (7, 1002)]).2
      = [StorageEvent.malloc 16 1000, StorageEvent.construct 100 1000,
          StorageEvent.malloc 16 1001, StorageEvent.construct 100 1001]
    ∧ cc_storage_destruct
        (storageInUse 16 (some 100) (some 200) [(7, 1000), (8, 1001), (7, 1002)]).1
      = [StorageEvent.destruct 200 1000, StorageEvent.free 1000,
          StorageEvent.destruct 200 1001, StorageEvent.free 1001]
    ∧ (constructedBlocks
        (storageInUse 16 (some 100) (some 200) [(7, 1000), (8, 1001), (7, 1002)]).2).length
      = (destructedBlocks (cc_storage_destruct
        (storageInUse 16 (some 100) (some 200) [(7, 1000), (8, 1001), (7, 1002)]).1)).length :=
  ⟨by decide, by decide,
    (cc_storage_destruct_hooks 16 (some 100) (some 200)
      [(7, 1000), (8, 1001), (7, 1002)]).2.2.2.2.1 rfl rfl⟩

/-- C16 (witness): reading from the stream `[5/2]` succeeds and stores 5/2; reading from the
empty stream fails, posts the error and leaves the value 1. -/
theorem readValue_iff_read_witness :
    SoSFFloat.readValue tokenInput ⟨1⟩ [5 / 2] 0 [] = (true, ⟨5 / 2⟩, [], [])
    ∧ (SoSFFloat.readValue tokenInput ⟨1⟩ [] 0 []).1 = false
    ∧ (SoSFFloat.readValue tokenInput ⟨1⟩ [] 0 []).2.1 = ⟨1⟩
    ∧ (SoSFFloat.readValue tokenInput ⟨1⟩ [] 0 []).2.2.2 = [prematureEnd] :=
  ⟨rfl, ((readValue_iff_read tokenInput ⟨1⟩ [] 0 []).2.2.1 rfl).1,
    ((readValue_iff_read tokenInput ⟨1⟩ [] 0 []).2.2.1 rfl).2.1,
    ((readValue_iff_read tokenInput ⟨1⟩ [] 0 []).2.2.1 rfl).2.2⟩

/-- C17 (witness): with the pick ray set to 1 and one push open, a further push, writes of
the pick ray and of another element around a nested push and pop, and the matching pop leave
the pick ray at 1. -/
theorem push_pop_round_trip_witness :
    (∃ s1, SoState.run (StateOp.push :: ([StateOp.set ElementKind.pickRay 2, StateOp.push,
        StateOp.set (ElementKind.other 0) 5, StateOp.set ElementKind.pickRay 3, StateOp.pop,
        StateOp.set ElementKind.pickRay 4] ++ [StateOp.pop])) pickedState = some s1
      ∧ s1.depth = pickedState.depth ∧ s1.slots = pickedState.slots
      ∧ (∀ k, s1.getElement (fun _ => 0) k = pickedState.getElement (fun _ => 0) k)
      ∧ SoPickRayElement.get (fun _ => 0) s1 = SoPickRayElement.get (fun _ => 0) pickedState)
    ∧ SoPickRayElement.get (fun _ => 0) pickedState = 1 :=
  ⟨(push_pop_round_trip (fun _ => 0)
      [StateOp.set ElementKind.pickRay 1, StateOp.push]
      [StateOp.set ElementKind.pickRay 2, StateOp.push,
        StateOp.set (ElementKind.other 0) 5, StateOp.set ElementKind.pickRay 3, StateOp.pop,
        StateOp.set ElementKind.pickRay 4]
      pickedState 9 rfl
      (Balanced.set _ _ (@Balanced.nest Nat
        [StateOp.set (ElementKind.other 0) 5, StateOp.set ElementKind.pickRay 3]
        [StateOp.set ElementKind.pickRay 4]
        (Balanced.set _ _ (Balanced.set _ _ Balanced.nil))
        (Balanced.set _ _ Balanced.nil)))).1,
    rfl⟩

/-- C19 (witness): the box `[0,1] x [0,2] x [0,3]` scaled by 2, 3 and -4 has volume
`|2 * 3 * (-4)| * (1 * 2 * 3) = 144`. -/
theorem getVolume_scaling_witness :
    getVolume coin scaledBox = 144 := by
  have h := (getVolume_scaling coin scaledBox).2.2.2 Rat.sqrt_eq (by decide!) rfl rfl rfl rfl
    rfl rfl
  rw [h]
  simp [scaledBox, scaleMatrix, setTransform, makeInvInvalid, ofBounds]
  norm_num

/-! ## Composing four-component vectors -/

theorem SoComposeVec4f.numOut_eq (e : SoComposeVec4f) :
    e.numOut = Max.max (Max.max (Max.max e.x.getNum e.y.getNum) e.z.getNum) e.w.getNum := by
  unfold SoComposeVec4f.numOut
  simp only [max_def]
  split_ifs <;> omega

theorem SoComposeVec4f.loopBody_eq (e : SoComposeVec4f) (i : Int) :
    e.loopBody i = OutputCall.set1Value i (e.x.get (Min.min i (e.x.getNum - 1)))
      (e.y.get (Min.min i (e.y.getNum - 1))) (e.z.get (Min.min i (e.z.getNum - 1)))
      (if i < e.w.getNum then e.w.get i else e.w.get (e.z.getNum - 1)) := by
  have key : ∀ (f : SoMFFloat), (if i < f.getNum then f.get i else f.get (f.getNum - 1))
      = f.get (Min.min i (f.getNum - 1)) := by
    intro f
    by_cases h : i < f.getNum
    · rw [if_pos h, min_eq_left (by omega)]
    · rw [if_neg h, min_eq_right (by omega)]
  unfold SoComposeVec4f.loopBody
  simp only [key]

theorem SoMFVec4f.applyAll_range (g : Int → SbVec4f) (N : Int) (f : SoMFVec4f) (hf : f.num = N) :
    ∀ n : Nat, (n : Int) ≤ Max.max N 0 →
      (f.applyAll ((List.range n).map
          (fun (i : Nat) => OutputCall.set1Value (i : Int) (g i).x (g i).y (g i).z (g i).w))).num = N
      ∧ ∀ j : Int, (f.applyAll ((List.range n).map
          (fun (i : Nat) => OutputCall.set1Value (i : Int) (g i).x (g i).y (g i).z (g i).w))).values j
          = if 0 ≤ j ∧ j < n then g j else f.values j := by
  intro n
  induction n with
  | zero =>
    intro _
    refine ⟨hf, fun j => ?_⟩
    have : ¬ (0 ≤ j ∧ j < ((0 : Nat) : Int)) := by
      intro h
      have := h.2
      push_cast at this
      omega
    rw [if_neg this]
    rfl
  | succ n ih =>
    intro hn
    have hn1 : (n : Int) ≤ Max.max N 0 := by push_cast at hn; omega
    have hnN : (n : Int) < N := by
      push_cast at hn
      rcases le_max_iff.mp hn with h | h <;> omega
    obtain ⟨ih1, ih2⟩ := ih hn1
    simp only [SoMFVec4f.applyAll] at ih1 ih2 ⊢
    rw [List.range_succ, List.map_append, List.foldl_append]
    simp only [List.map_cons, List.map_nil, List.foldl_cons, List.foldl_nil]
    constructor
    · simp only [SoMFVec4f.apply, ih1, if_pos hnN]
    · intro j
      simp only [SoMFVec4f.apply, ih2]
      by_cases hj : j = (n : Int)
      · subst hj
        have : (0 : Int) ≤ (n : Int) ∧ (n : Int) < ((n + 1 : Nat) : Int) := by
          constructor <;> push_cast <;> omega
        rw [if_pos rfl, if_pos this]
      · rw [if_neg hj]
        by_cases h1 : 0 ≤ j ∧ j < (n : Int)
        · have : 0 ≤ j ∧ j < ((n + 1 : Nat) : Int) := by
            constructor
            · exact h1.1
            · push_cast; omega
          rw [if_pos h1, if_pos this]
        · have : ¬ (0 ≤ j ∧ j < ((n + 1 : Nat) : Int)) := by
            intro h
            apply h1
            refine ⟨h.1, ?_⟩
            have := h.2
            push_cast at this
            omega
          rw [if_neg h1, if_neg this]

theorem countSet1Value_range (g : Nat → Int × ℚ × ℚ × ℚ × ℚ) (n : Nat) :
    countSet1Value ((List.range n).map
      (fun i => OutputCall.set1Value (g i).1 (g i).2.1 (g i).2.2.1 (g i).2.2.2.1 (g i).2.2.2.2))
      = n := by
  induction n with
  | zero => rfl
  | succ n ih =>
    rw [List.range_succ, List.map_append]
    have happ : ∀ (l1 l2 : List OutputCall),
        countSet1Value (l1 ++ l2) = countSet1Value l1 + countSet1Value l2 := by
      intro l1 l2
      induction l1 with
      | nil => simp [countSet1Value]
      | cons c l1 ih1 =>
        cases c with
        | setNum m =>
          rw [List.cons_append]
          show countSet1Value (l1 ++ l2) = countSet1Value l1 + countSet1Value l2
          exact ih1
        | set1Value i x y z w =>
          rw [List.cons_append]
          show countSet1Value (l1 ++ l2) + 1 = countSet1Value l1 + 1 + countSet1Value l2
          rw [ih1]
          omega
    rw [happ, ih]
    rfl

/-- The value that `evaluate` writes at index `i`. -/
theorem SoComposeVec4f.evaluate_values (e : SoComposeVec4f) (out : SoMFVec4f) :
    (out.applyAll e.evaluate).num = e.numOut
    ∧ ∀ i : Int, 0 ≤ i → i < e.numOut →
        (out.applyAll e.evaluate).values i
          = ⟨e.x.get (Min.min i (e.x.getNum - 1)), e.y.get (Min.min i (e.y.getNum - 1)),
             e.z.get (Min.min i (e.z.getNum - 1)),
             if i < e.w.getNum then e.w.get i else e.w.get (e.z.getNum - 1)⟩ := by
  have h := SoMFVec4f.applyAll_range
    (fun i => ⟨e.x.get (Min.min i (e.x.getNum - 1)), e.y.get (Min.min i (e.y.getNum - 1)),
             e.z.get (Min.min i (e.z.getNum - 1)),
             if i < e.w.getNum then e.w.get i else e.w.get (e.z.getNum - 1)⟩)
    e.numOut { out with num := e.numOut } rfl e.numOut.toNat (by
      rw [Int.toNat_eq_max])
  have hev : out.applyAll e.evaluate = SoMFVec4f.applyAll { out with num := e.numOut }
      ((List.range e.numOut.toNat).map (fun (i : Nat) => e.loopBody (i : Int))) := rfl
  rw [hev]
  simp only [SoComposeVec4f.loopBody_eq]
  refine ⟨h.1, fun i h0 hi => ?_⟩
  rw [h.2 i]
  have : 0 ≤ i ∧ i < ((e.numOut.toNat : Nat) : Int) := by
    refine ⟨h0, ?_⟩
    rw [Int.toNat_of_nonneg (by omega)]
    exact hi
  rw [if_pos this]

/-- The calls of `evaluate`, in closed form: `setNum(numOut)`, then `set1Value` once at each
index from 0 on, with `x[min(i, numX-1)]`, `y[min(i, numY-1)]`, `z[min(i, numZ-1)]` and, in the
fourth place, `w[i]` below `numW` and `w[numZ-1]` from there on. -/
theorem SoComposeVec4f.evaluate_trace (e : SoComposeVec4f) :
    e.evaluate = OutputCall.setNum e.numOut
      :: (List.range e.numOut.toNat).map (fun (i : Nat) => OutputCall.set1Value (i : Int)
          (e.x.get (Min.min (i : Int) (e.x.getNum - 1)))
          (e.y.get (Min.min (i : Int) (e.y.getNum - 1)))
          (e.z.get (Min.min (i : Int) (e.z.getNum - 1)))
          (if (i : Int) < e.w.getNum then e.w.get i else e.w.get (e.z.getNum - 1))) := by
  unfold SoComposeVec4f.evaluate
  simp only [SoComposeVec4f.loopBody_eq]

/-- The part of the padding that holds: `evaluate` sets the number of output vectors to the
largest of the four input counts and writes exactly that many vectors; the `x`, `y` and `z`
components of output vector `i` are `x[min(i, numX-1)]`, `y[min(i, numY-1)]` and
`z[min(i, numZ-1)]`, which are reads inside the input whenever the input holds at least one
value. -/
theorem SoComposeVec4f.evaluate_xyz (e : SoComposeVec4f) (out : SoMFVec4f) :
    e.numOut = Max.max (Max.max (Max.max e.x.getNum e.y.getNum) e.z.getNum) e.w.getNum
    ∧ countSet1Value e.evaluate = e.numOut.toNat
    ∧ (out.applyAll e.evaluate).num = e.numOut
    ∧ (∀ i : Int, 0 ≤ i → i < e.numOut →
        ((out.applyAll e.evaluate).values i).x = e.x.get (Min.min i (e.x.getNum - 1))
        ∧ ((out.applyAll e.evaluate).values i).y = e.y.get (Min.min i (e.y.getNum - 1))
        ∧ ((out.applyAll e.evaluate).values i).z = e.z.get (Min.min i (e.z.getNum - 1)))
    ∧ (∀ (f : SoMFFloat) (i : Int), 0 ≤ i → 1 ≤ f.getNum →
        0 ≤ Min.min i (f.getNum - 1) ∧ Min.min i (f.getNum - 1) < f.getNum) := by
  refine ⟨e.numOut_eq, ?_, (e.evaluate_values out).1, ?_, ?_⟩
  · rw [e.evaluate_trace]
    exact countSet1Value_range (fun i => ((i : Int),
            (e.x.get (Min.min (i : Int) (e.x.getNum - 1))),
            (e.y.get (Min.min (i : Int) (e.y.getNum - 1))),
            (e.z.get (Min.min (i : Int) (e.z.getNum - 1))),
            (if (i : Int) < e.w.getNum then e.w.get i else e.w.get (e.z.getNum - 1))))
      e.numOut.toNat
  · intro i h0 hi
    rw [(e.evaluate_values out).2 i h0 hi]
    exact ⟨rfl, rfl, rfl⟩
  · intro f i h0 h1
    constructor
    · exact le_min h0 (by omega)
    · exact lt_of_le_of_lt (min_le_right _ _) (by omega)

/-- The fourth component of the last output vector of `composeExample` is the first value of
`w`, not its last one: `evaluate` pads `w` from index `numZ-1`. -/
theorem SoComposeVec4f.evaluate_w_padding (out : SoMFVec4f) :
    composeExample.numOut = 3
    ∧ ((out.applyAll composeExample.evaluate).values 2).w = 7
    ∧ composeExample.w.get (composeExample.w.getNum - 1) = 8 := by
  have hN : composeExample.numOut = 3 := by decide
  refine ⟨hN, ?_, ?_⟩
  · rw [(composeExample.evaluate_values out).2 2 (by decide) (by rw [hN]; decide)]
    simp [composeExample, SoMFFloat.ofList, SoMFFloat.getNum, SoMFFloat.get]
  · simp [composeExample, SoMFFloat.ofList, SoMFFloat.getNum, SoMFFloat.get]

/-- **C23 (failing input).** `SoComposeVec4f::evaluate` writes `max(numX, numY, numZ, numW)`
output vectors and pads `x`, `y` and `z` with their own last values, but it does not pad `w`
with its own last value: from index `numW` on, the fourth component is `w[numZ-1]`.  With
`x = [1, 2, 3]`, `y = [4]`, `z = [5]` and `w = [7, 8]`, each input holding a value, three
vectors are written and the last one is `(3, 4, 5, 7)`, while the last value of `w`,
`w[min(2, numW-1)]`, is `8`. -/
theorem SoComposeVec4f_evaluate_w_slip (e : SoComposeVec4f) (out : SoMFVec4f) :
    e.numOut = Max.max (Max.max (Max.max e.x.getNum e.y.getNum) e.z.getNum) e.w.getNum
    ∧ e.evaluate = OutputCall.setNum e.numOut
        :: (List.range e.numOut.toNat).map (fun (i : Nat) => OutputCall.set1Value (i : Int)
            (e.x.get (Min.min (i : Int) (e.x.getNum - 1)))
            (e.y.get (Min.min (i : Int) (e.y.getNum - 1)))
            (e.z.get (Min.min (i : Int) (e.z.getNum - 1)))
            (if (i : Int) < e.w.getNum then e.w.get i else e.w.get (e.z.getNum - 1)))
    ∧ (out.applyAll e.evaluate).num = e.numOut
    ∧ (composeExample.x.getNum = 3 ∧ composeExample.y.getNum = 1
        ∧ composeExample.z.getNum = 1 ∧ composeExample.w.getNum = 2)
    ∧ (out.applyAll composeExample.evaluate).num = 3
    ∧ (out.applyAll composeExample.evaluate).values 2 = ⟨3, 4, 5, 7⟩
    ∧ composeExample.w.get (Min.min 2 (composeExample.w.getNum - 1)) = 8
    ∧ ((out.applyAll composeExample.evaluate).values 2).w
        ≠ composeExample.w.get (Min.min 2 (composeExample.w.getNum - 1)) := by
  have hN : composeExample.numOut = 3 := by decide
  have hv : (out.applyAll composeExample.evaluate).values 2 = ⟨3, 4, 5, 7⟩ := by
    rw [(composeExample.evaluate_values out).2 2 (by decide) (by rw [hN]; decide)]
    simp [composeExample, SoMFFloat.ofList, SoMFFloat.getNum, SoMFFloat.get]
  have hw : composeExample.w.get (Min.min 2 (composeExample.w.getNum - 1)) = 8 := by
    simp [composeExample, SoMFFloat.ofList, SoMFFloat.getNum, SoMFFloat.get]
  refine ⟨e.numOut_eq, e.evaluate_trace, (e.evaluate_values out).1,
    ⟨by decide, by decide, by decide, by decide⟩, ?_, hv, hw, ?_⟩
  · rw [(composeExample.evaluate_values out).1, hN]
  · rw [hv, hw]
    norm_num

/-! ## The cache-coherence invariant -/

/-- **C21.** In every state of an `SbXfBox3f` that is produced from a constructor by
`setBounds`, `setTransform`, `transform`, the three `extendBy` overloads, `calcInverse`,
`getInverse` and the two `intersect` members, the cached inverse is marked invalid
(`invertedmatrix[0][0] == FLT_MAX`) or it equals `matrix.inverse()`; hence `getInverse()`
returns the inverse of the current transform, also when it is called again and again. -/
theorem cache_coherence_invariant (E : SbBase) (dbg : Bool)
    (hid : E.inverse SbMatrix.identity = SbMatrix.identity) (b : SbXfBox3f)
    (h : Reachable E dbg b) :
    (b.invertedmatrix.a00 = FLT_MAX ∨ b.invertedmatrix = E.inverse b.matrix)
    ∧ (getInverse E b).1 = E.inverse b.getTransform
    ∧ ∀ n : Nat, (getInverse E (afterReads E n b)).1 = E.inverse b.getTransform := by
  have hc : CacheCoherent E b := reachable_coherent E dbg hid b h
  refine ⟨hc, calcInverse_invertedmatrix E b hc, fun n => ?_⟩
  obtain ⟨hm, hcn⟩ := afterReads_invariant E b.matrix n b rfl hc
  show (calcInverse E (afterReads E n b)).invertedmatrix = E.inverse b.matrix
  rw [calcInverse_invertedmatrix E _ hcn, hm]

/-- The unit cube that was given a translation, extended by a plain box and then tested
against a point, is a producible state. -/
theorem probed_reachable (E : SbBase) (dbg : Bool) :
    Reachable E dbg (intersectPt E (extendByBox E dbg shiftedUnit worldUnit) ⟨0, 0, 0⟩).2 :=
  @Reachable.intersectPt E dbg (extendByBox E dbg shiftedUnit worldUnit) ⟨0, 0, 0⟩
    (@Reachable.extendByBox E dbg shiftedUnit worldUnit
      (@Reachable.setTransform E dbg (ofBounds ⟨0, 0, 0⟩ ⟨1, 1, 1⟩) translateX
        (Reachable.ofBounds ⟨0, 0, 0⟩ ⟨1, 1, 1⟩)))

/-- **C21 (witness).** The invariant at the standard library, for the unit cube that was given
a translation, extended by a plain box and then tested against a point. -/
theorem cache_coherence_invariant_witness :
    Reachable coin false (intersectPt coin (extendByBox coin false shiftedUnit worldUnit) ⟨0, 0, 0⟩).2
    ∧ (getInverse coin
        (intersectPt coin (extendByBox coin false shiftedUnit worldUnit) ⟨0, 0, 0⟩).2).1
      = coin.inverse
        (intersectPt coin (extendByBox coin false shiftedUnit worldUnit) ⟨0, 0, 0⟩).2.getTransform :=
  ⟨probed_reachable coin false,
   (cache_coherence_invariant coin false coin_inverse_identity
      (intersectPt coin (extendByBox coin false shiftedUnit worldUnit) ⟨0, 0, 0⟩).2
      (probed_reachable coin false)).2.1⟩

/-! ## Soundness of the box-box test -/

theorem SbVec3f.get_0 (v : SbVec3f) : v.get 0 = v.x := rfl

theorem SbVec3f.get_1 (v : SbVec3f) : v.get 1 = v.y := rfl

theorem SbVec3f.get_2 (v : SbVec3f) : v.get 2 = v.z := rfl

theorem SbBox3f.nonEmpty_iff (b : SbBox3f) : b.NonEmpty ↔ ∃ p, b.Contains p := by
  constructor
  · intro h
    exact ⟨b.min, le_refl _, h.1, le_refl _, h.2.1, le_refl _, h.2.2⟩
  · rintro ⟨p, h1, h2, h3, h4, h5, h6⟩
    exact ⟨h1.trans h2, h3.trans h4, h5.trans h6⟩

theorem SbBox3f.nonEmpty_isEmpty (b : SbBox3f) (h : b.NonEmpty) : b.isEmpty = false := by
  simp only [SbBox3f.isEmpty, SbVec3f.get_0, decide_eq_false_iff_not, not_lt]
  exact h.1

theorem cornerAt_contains (b : SbBox3f) (h : b.NonEmpty) (i : Nat) :
    b.Contains (cornerAt b.min b.max i) := by
  obtain ⟨h1, h2, h3⟩ := h
  simp only [SbBox3f.Contains, cornerAt, SbVec3f.get_0, SbVec3f.get_1, SbVec3f.get_2]
  refine ⟨?_, ?_, ?_, ?_, ?_, ?_⟩ <;> split_ifs <;> first | exact le_refl _ | assumption

theorem SbBox3f.contains_lerp (b : SbBox3f) (p q : SbVec3f) (s : ℚ) (hp : b.Contains p)
    (hq : b.Contains q) (h0 : 0 ≤ s) (h1 : s ≤ 1) : b.Contains (p.lerp q s) := by
  obtain ⟨p1, p2, p3, p4, p5, p6⟩ := hp
  obtain ⟨q1, q2, q3, q4, q5, q6⟩ := hq
  have h1s : 0 ≤ 1 - s := by linarith
  simp only [SbBox3f.Contains, SbVec3f.lerp]
  refine ⟨?_, ?_, ?_, ?_, ?_, ?_⟩
  · nlinarith [mul_nonneg h0 (sub_nonneg.mpr q1), mul_nonneg h1s (sub_nonneg.mpr p1)]
  · nlinarith [mul_nonneg h0 (sub_nonneg.mpr q2), mul_nonneg h1s (sub_nonneg.mpr p2)]
  · nlinarith [mul_nonneg h0 (sub_nonneg.mpr q3), mul_nonneg h1s (sub_nonneg.mpr p3)]
  · nlinarith [mul_nonneg h0 (sub_nonneg.mpr q4), mul_nonneg h1s (sub_nonneg.mpr p4)]
  · nlinarith [mul_nonneg h0 (sub_nonneg.mpr q5), mul_nonneg h1s (sub_nonneg.mpr p5)]
  · nlinarith [mul_nonneg h0 (sub_nonneg.mpr q6), mul_nonneg h1s (sub_nonneg.mpr p6)]

/-- An affine transform maps the points of a segment to the points of the image segment. -/
theorem Std3D.multVecMatrix_lerp (m : SbMatrix) (h : m.IsAffine) (a b : SbVec3f) (s : ℚ) :
    Std3D.multVecMatrix m (a.lerp b s)
      = (Std3D.multVecMatrix m a).lerp (Std3D.multVecMatrix m b) s := by
  obtain ⟨h1, h2, h3, h4⟩ := h
  simp only [Std3D.multVecMatrix, SbVec3f.lerp, h1, h2, h3, h4, mul_zero, add_zero, zero_add,
    div_one, SbVec3f.mk.injEq]
  refine ⟨?_, ?_, ?_⟩ <;> ring

/-- The inverse of a non-singular affine transform is affine. -/
theorem Std3D.inverse_isAffine (m : SbMatrix) (h : m.IsAffine) (hd : Std3D.det4 m ≠ 0) :
    (Std3D.inverse m).IsAffine := by
  obtain ⟨h1, h2, h3, h4⟩ := h
  have hd2 := hd
  unfold Std3D.det4 at hd2
  rw [h1, h2, h3, h4] at hd2
  unfold Std3D.inverse SbMatrix.IsAffine
  simp only [if_neg hd]
  refine ⟨?_, ?_, ?_, ?_⟩
  · rw [h1, h2, h3]; simp
  · rw [h1, h2, h3]; simp
  · rw [h1, h2, h3]; simp
  · unfold Std3D.det4
    rw [h1, h2, h3, h4]
    rw [div_eq_one_iff_eq hd2]
    ring

/-- Transforming by two affine matrices in turn is transforming by their product. -/
theorem Std3D.multVecMatrix_multRight (a b : SbMatrix) (ha : a.IsAffine) (hb : b.IsAffine)
    (p : SbVec3f) :
    Std3D.multVecMatrix b (Std3D.multVecMatrix a p)
      = Std3D.multVecMatrix (Std3D.multRight a b) p := by
  obtain ⟨a1, a2, a3, a4⟩ := ha
  obtain ⟨b1, b2, b3, b4⟩ := hb
  simp only [Std3D.multVecMatrix, Std3D.multRight, a1, a2, a3, a4, b1, b2, b3, b4, mul_zero,
    add_zero, zero_add, div_one, mul_one, zero_mul, SbVec3f.mk.injEq]
  refine ⟨?_, ?_, ?_⟩ <;> ring

/-- A non-singular affine transform undoes its inverse. -/
theorem Std3D.multVecMatrix_inverse (m : SbMatrix) (h : m.IsAffine) (hd : Std3D.det4 m ≠ 0)
    (q : SbVec3f) :
    Std3D.multVecMatrix m (Std3D.multVecMatrix (Std3D.inverse m) q) = q := by
  rw [Std3D.multVecMatrix_multRight _ _ (Std3D.inverse_isAffine m h hd) h,
    Std3D.inverse_multRight m hd]
  exact coin_multVecMatrix_identity q

/-- The corner loop of `intersect_box_box` stops at the first transformed corner inside the
box `(min, max)`; otherwise it returns the hull and the list of all transformed corners. -/
theorem cornerLoop_cases (E : SbBase) (mn mx bmin bmax : SbVec3f) (M : SbMatrix) :
    ∀ (is : List Nat) (acc : SbBox3f) (pts : List SbVec3f),
      (cornerLoop E mn mx bmin bmax M is acc pts = none
        ∧ ∃ i ∈ is, SbBox3f.Contains ⟨mn, mx⟩ (E.multVecMatrix M (cornerAt bmin bmax i)))
      ∨ (cornerLoop E mn mx bmin bmax M is acc pts
          = some ((is.map (fun i => E.multVecMatrix M (cornerAt bmin bmax i))).foldl
                    E.boxExtendBy acc,
                  pts ++ is.map (fun i => E.multVecMatrix M (cornerAt bmin bmax i)))
        ∧ ∀ i ∈ is, ¬ SbBox3f.Contains ⟨mn, mx⟩ (E.multVecMatrix M (cornerAt bmin bmax i))) := by
  intro is
  induction is with
  | nil =>
    intro acc pts
    right
    refine ⟨?_, fun i hi => absurd hi (List.not_mem_nil i)⟩
    rw [cornerLoop]
    simp
  | cons i is ih =>
    intro acc pts
    by_cases hc : SbBox3f.Contains ⟨mn, mx⟩ (E.multVecMatrix M (cornerAt bmin bmax i))
    · left
      refine ⟨?_, i, List.mem_cons_self _ _, hc⟩
      rw [cornerLoop]
      exact if_pos hc
    · have e : cornerLoop E mn mx bmin bmax M (i :: is) acc pts
          = cornerLoop E mn mx bmin bmax M is
              (E.boxExtendBy acc (E.multVecMatrix M (cornerAt bmin bmax i)))
              (pts ++ [E.multVecMatrix M (cornerAt bmin bmax i)]) := by
        rw [cornerLoop]
        exact if_neg hc
      rw [e]
      rcases ih (E.boxExtendBy acc (E.multVecMatrix M (cornerAt bmin bmax i)))
          (pts ++ [E.multVecMatrix M (cornerAt bmin bmax i)]) with ⟨h1, j, hj, hjc⟩ | ⟨h1, h2⟩
      · left
        exact ⟨h1, j, List.mem_cons_of_mem _ hj, hjc⟩
      · right
        refine ⟨?_, ?_⟩
        · rw [h1]
          simp only [List.map_cons, List.foldl_cons, List.append_assoc, List.singleton_append]
        · intro j hj
          rcases List.mem_cons.mp hj with hji | hj
          · rw [hji]; exact hc
          · exact h2 j hj

theorem coin_normalize_eq (v : SbVec3f) :
    ∃ n : ℚ, 0 < n ∧ coin.normalize v = ⟨v.x / n, v.y / n, v.z / n⟩ := by
  show ∃ n : ℚ, 0 < n ∧ Std3D.normalize v = ⟨v.x / n, v.y / n, v.z / n⟩
  unfold Std3D.normalize
  dsimp only
  by_cases h : Rat.sqrt (v.x * v.x + v.y * v.y + v.z * v.z) > 0
  · exact ⟨_, h, by rw [if_pos h]⟩
  · refine ⟨1, one_pos, ?_⟩
    rw [if_neg h]
    simp only [div_one]

/-- Where the plane `P` lies between the ends `a` and `b` of an edge along an axis on which
the normalised direction does not vanish, the distance that `intersect_box_edges` walks along
the direction leads to the point of the edge on that plane. -/
theorem edge_param (a b P n : ℚ) (hn : 0 < n) (hd : (b - a) / n ≠ 0) (h1 : Min.min a b ≤ P)
    (h2 : P ≤ Max.max a b) :
    ∃ s : ℚ, 0 ≤ s ∧ s ≤ 1 ∧ a + s * (b - a) = P
      ∧ ∀ c d : ℚ, c + |(P - a) / ((b - a) / n)| * ((d - c) / n) = c + s * (d - c) := by
  have hba : b - a ≠ 0 := by
    intro h
    apply hd
    rw [h, zero_div]
  have hn0 : n ≠ 0 := ne_of_gt hn
  have key : ∀ s : ℚ, 0 ≤ s → s = (P - a) / (b - a) →
      ∀ c d : ℚ, c + |(P - a) / ((b - a) / n)| * ((d - c) / n) = c + s * (d - c) := by
    intro s hs0 hs c d
    have e : (P - a) / ((b - a) / n) = s * n := by
      rw [hs]
      field_simp
    rw [e, abs_of_nonneg (mul_nonneg hs0 (le_of_lt hn))]
    field_simp
    ring
  rcases lt_or_gt_of_ne (sub_ne_zero.mp hba) with hlt | hgt
  · have hneg : b - a < 0 := by linarith
    rw [min_eq_right (le_of_lt hlt)] at h1
    rw [max_eq_left (le_of_lt hlt)] at h2
    have hs0 : 0 ≤ (P - a) / (b - a) :=
      div_nonneg_of_nonpos (by linarith) (le_of_lt hneg)
    refine ⟨(P - a) / (b - a), hs0, ?_, ?_, key _ hs0 rfl⟩
    · rw [div_le_one_of_neg hneg]
      linarith
    · field_simp
  · have hpos : 0 < b - a := by linarith
    rw [min_eq_left (le_of_lt hgt)] at h1
    rw [max_eq_right (le_of_lt hgt)] at h2
    have hs0 : 0 ≤ (P - a) / (b - a) := div_nonneg (by linarith) (le_of_lt hpos)
    refine ⟨(P - a) / (b - a), hs0, ?_, ?_, key _ hs0 rfl⟩
    · rw [div_le_one hpos]
      linarith
    · field_simp

theorem lines_lt : ∀ i : Nat, i < 12 →
    lines.getD (i * 2) 0 < 8 ∧ lines.getD (i * 2 + 1) 0 < 8 := by
  decide

/-- When `intersect_box_edges` returns `TRUE` for a box that holds a point, a point of a
segment between two of the given points lies in the box. -/
theorem intersect_box_edges_sound (mn mx : SbVec3f) (pts : List SbVec3f)
    (hne : SbBox3f.NonEmpty ⟨mn, mx⟩) (h : intersect_box_edges coin mn mx pts = true) :
    ∃ a b : Nat, a < 8 ∧ b < 8 ∧ ∃ s : ℚ, 0 ≤ s ∧ s ≤ 1 ∧
      SbBox3f.Contains ⟨mn, mx⟩ ((pts.getD a ⟨0, 0, 0⟩).lerp (pts.getD b ⟨0, 0, 0⟩) s) := by
  unfold intersect_box_edges at h
  simp only [List.any_eq_true, List.mem_range] at h
  obtain ⟨i, hi, j, hj, k, hk, hc⟩ := h
  refine ⟨lines.getD (i * 2) 0, lines.getD (i * 2 + 1) 0, (lines_lt i hi).1, (lines_lt i hi).2, ?_⟩
  generalize pts.getD (lines.getD (i * 2) 0) ⟨0, 0, 0⟩ = l1 at hc ⊢
  generalize pts.getD (lines.getD (i * 2 + 1) 0) ⟨0, 0, 0⟩ = l2 at hc ⊢
  obtain ⟨n, hn, hnorm⟩ := coin_normalize_eq (l2.sub l1)
  rw [hnorm] at hc
  obtain ⟨e1, e2, e3⟩ := hne
  simp only at e1 e2 e3
  have hP : ∀ m : Nat, mn.get m ≤ (if k = 0 then mn else mx).get m
      ∧ (if k = 0 then mn else mx).get m ≤ mx.get m := by
    intro m
    have hm : mn.get m ≤ mx.get m := by
      unfold SbVec3f.get
      split_ifs <;> assumption
    split_ifs
    · exact ⟨le_refl _, hm⟩
    · exact ⟨hm, le_refl _⟩
  generalize (if k = 0 then mn else mx) = Pv at hc hP
  split at hc
  swap
  · exact absurd hc (by decide)
  rename_i hcond
  obtain ⟨hd, hmin, hmax⟩ := hcond
  rw [decide_eq_true_iff] at hc
  obtain ⟨v1a, v1b, v2a, v2b⟩ := hc
  interval_cases j
  · have hPx := hP 0
    have hPy := hP 1
    have hPz := hP 2
    simp only [SbVec3f.get, SbVec3f.sub, ge_iff_le, gt_iff_lt, if_true, if_false,
      Nat.reduceAdd, Nat.reduceLeDiff, Nat.reduceSub, OfNat.ofNat_ne_zero, one_ne_zero,
      Nat.reduceEqDiff, if_pos, if_neg] at hd hmin hmax v1a v1b v2a v2b hPx hPy hPz
    obtain ⟨s, s0, s1, sP, sv⟩ := edge_param l1.x l2.x Pv.x n hn hd hmin hmax
    rw [sv l1.y l2.y] at v1a v1b
    rw [sv l1.z l2.z] at v2a v2b
    refine ⟨s, s0, s1, ?_⟩
    simp only [SbBox3f.Contains, SbVec3f.lerp]
    rw [sP]
    exact ⟨hPx.1, hPx.2, le_of_lt v1a, le_of_lt v1b, le_of_lt v2a, le_of_lt v2b⟩
  · have hPx := hP 0
    have hPy := hP 1
    have hPz := hP 2
    simp only [SbVec3f.get, SbVec3f.sub, ge_iff_le, gt_iff_lt, if_true, if_false,
      Nat.reduceAdd, Nat.reduceLeDiff, Nat.reduceSub, OfNat.ofNat_ne_zero, one_ne_zero,
      Nat.reduceEqDiff, if_pos, if_neg] at hd hmin hmax v1a v1b v2a v2b hPx hPy hPz
    obtain ⟨s, s0, s1, sP, sv⟩ := edge_param l1.y l2.y Pv.y n hn hd hmin hmax
    rw [sv l1.z l2.z] at v1a v1b
    rw [sv l1.x l2.x] at v2a v2b
    refine ⟨s, s0, s1, ?_⟩
    simp only [SbBox3f.Contains, SbVec3f.lerp]
    rw [sP]
    exact ⟨le_of_lt v2a, le_of_lt v2b, hPy.1, hPy.2, le_of_lt v1a, le_of_lt v1b⟩
  · have hPx := hP 0
    have hPy := hP 1
    have hPz := hP 2
    simp only [SbVec3f.get, SbVec3f.sub, ge_iff_le, gt_iff_lt, if_true, if_false,
      Nat.reduceAdd, Nat.reduceLeDiff, Nat.reduceSub, OfNat.ofNat_ne_zero, one_ne_zero,
      Nat.reduceEqDiff, if_pos, if_neg] at hd hmin hmax v1a v1b v2a v2b hPx hPy hPz
    obtain ⟨s, s0, s1, sP, sv⟩ := edge_param l1.z l2.z Pv.z n hn hd hmin hmax
    rw [sv l1.x l2.x] at v1a v1b
    rw [sv l1.y l2.y] at v2a v2b
    refine ⟨s, s0, s1, ?_⟩
    simp only [SbBox3f.Contains, SbVec3f.lerp]
    rw [sP]
    exact ⟨le_of_lt v1a, le_of_lt v1b, le_of_lt v2a, le_of_lt v2b, hPz.1, hPz.2⟩

theorem getD_map_range (f : Nat → SbVec3f) (n a : Nat) (d : SbVec3f) (h : a < n) :
    ((List.range n).map f).getD a d = f a := by
  simp [List.getD, List.getElem?_map, List.getElem?_range h]

/-- When `intersect_box_box` returns `TRUE`, with an affine matrix and two boxes that hold a
point, some point of the box `(boxmin, boxmax)` is carried into the box `(min, max)`. -/
theorem intersect_box_box_sound (mn mx bmin bmax : SbVec3f) (M : SbMatrix) (u : Bool)
    (hM : M.IsAffine) (hne : SbBox3f.NonEmpty ⟨mn, mx⟩) (hbe : SbBox3f.NonEmpty ⟨bmin, bmax⟩)
    (h : (intersect_box_box coin mn mx bmin bmax M u).1 = true) :
    ∃ p : SbVec3f, SbBox3f.Contains ⟨bmin, bmax⟩ p
      ∧ SbBox3f.Contains ⟨mn, mx⟩ (Std3D.multVecMatrix M p) := by
  unfold intersect_box_box at h
  rcases cornerLoop_cases coin mn mx bmin bmax M (List.range 8) SbBox3f.empty []
    with ⟨_, i, _, hc⟩ | ⟨h1, _⟩
  · exact ⟨cornerAt bmin bmax i, cornerAt_contains ⟨bmin, bmax⟩ hbe i, hc⟩
  · rw [h1] at h
    dsimp only at h
    split at h
    swap
    · exact absurd h Bool.false_ne_true
    obtain ⟨a, b, ha, hb, s, s0, s1, hs⟩ := intersect_box_edges_sound mn mx _ hne h
    rw [List.nil_append, getD_map_range _ 8 a _ ha, getD_map_range _ 8 b _ hb] at hs
    refine ⟨(cornerAt bmin bmax a).lerp (cornerAt bmin bmax b) s, ?_, ?_⟩
    · exact SbBox3f.contains_lerp _ _ _ s (cornerAt_contains ⟨bmin, bmax⟩ hbe a)
        (cornerAt_contains ⟨bmin, bmax⟩ hbe b) s0 s1
    · rw [Std3D.multVecMatrix_lerp M hM]
      exact hs

theorem foldl_boxExtendBy_keeps (l : List SbVec3f) :
    ∀ (acc : SbBox3f) (q : SbVec3f), acc.Contains q →
      (l.foldl coin.boxExtendBy acc).Contains q := by
  induction l with
  | nil => intro acc q h; exact h
  | cons a l ih => intro acc q h; exact ih _ q (coin_boxExtendBy_keeps acc a q h)

theorem foldl_boxExtendBy_contains (l : List SbVec3f) :
    ∀ (acc : SbBox3f) (p : SbVec3f), p ∈ l → (l.foldl coin.boxExtendBy acc).Contains p := by
  induction l with
  | nil => intro acc p h; cases h
  | cons a l ih =>
    intro acc p h
    rcases List.mem_cons.mp h with hpa | hpl
    · rw [hpa]
      exact foldl_boxExtendBy_keeps l _ a (coin_boxExtendBy_fits acc a)
    · exact ih _ p hpl

/-- The hull holds every transformed corner. -/
theorem cornerHull_contains (A : SbXfBox3f) (i : Nat) (hi : i < 8) :
    (cornerHull coin A).Contains (coin.multVecMatrix A.matrix (cornerAt A.getMin A.getMax i)) := by
  unfold cornerHull
  apply foldl_boxExtendBy_contains
  exact List.mem_map.mpr ⟨i, List.mem_range.mpr hi, rfl⟩

theorem coin_boxIntersectBox_of_common (b h : SbBox3f) (q : SbVec3f) (hb : b.Contains q)
    (hh : h.Contains q) : coin.boxIntersectBox b h = true := by
  obtain ⟨b1, b2, b3, b4, b5, b6⟩ := hb
  obtain ⟨h1, h2, h3, h4, h5, h6⟩ := hh
  simp only [coin, Std3D.boxIntersectBox, Bool.not_eq_true', Bool.or_eq_false_iff,
    decide_eq_false_iff_not, not_lt, gt_iff_lt]
  exact ⟨⟨⟨⟨⟨h1.trans b2, h3.trans b4⟩, h5.trans b6⟩, b1.trans h2⟩, b3.trans h4⟩, b5.trans h6⟩

/-- Two boxes that overlap on every axis and hold a point each have a common point. -/
theorem coin_boxIntersectBox_common (a b : SbBox3f) (ha : a.NonEmpty) (hb : b.NonEmpty)
    (h : coin.boxIntersectBox a b = true) : ∃ p, a.Contains p ∧ b.Contains p := by
  obtain ⟨a1, a2, a3⟩ := ha
  obtain ⟨b1, b2, b3⟩ := hb
  simp only [coin, Std3D.boxIntersectBox, Bool.not_eq_true', Bool.or_eq_false_iff,
    decide_eq_false_iff_not, not_lt, gt_iff_lt] at h
  obtain ⟨⟨⟨⟨⟨h1, h2⟩, h3⟩, h4⟩, h5⟩, h6⟩ := h
  refine ⟨⟨Max.max a.min.x b.min.x, Max.max a.min.y b.min.y, Max.max a.min.z b.min.z⟩, ?_, ?_⟩
  · exact ⟨le_max_left _ _, max_le a1 h1, le_max_left _ _, max_le a2 h2, le_max_left _ _,
      max_le a3 h3⟩
  · exact ⟨le_max_right _ _, max_le h4 b1, le_max_right _ _, max_le h5 b2, le_max_right _ _,
      max_le h6 b3⟩

/-- When the hull of the transformed corners misses the box `(min, max)`, `intersect_box_box`
returns `FALSE` and reports that the aligned boxes do not intersect. -/
theorem intersect_box_box_miss (mn mx bmin bmax : SbVec3f) (M : SbMatrix) (u : Bool)
    (h : coin.boxIntersectBox ⟨mn, mx⟩
      (((List.range 8).map (fun i => coin.multVecMatrix M (cornerAt bmin bmax i))).foldl
        coin.boxExtendBy SbBox3f.empty) = false) :
    intersect_box_box coin mn mx bmin bmax M u = (false, false) := by
  unfold intersect_box_box
  rcases cornerLoop_cases coin mn mx bmin bmax M (List.range 8) SbBox3f.empty []
    with ⟨_, i, hi, hc⟩ | ⟨h1, _⟩
  · have hin := foldl_boxExtendBy_contains
      ((List.range 8).map (fun i => coin.multVecMatrix M (cornerAt bmin bmax i))) SbBox3f.empty
      (coin.multVecMatrix M (cornerAt bmin bmax i)) (List.mem_map.mpr ⟨i, hi, rfl⟩)
    rw [coin_boxIntersectBox_of_common _ _ _ hc hin] at h
    exact absurd h (by decide)
  · rw [h1]
    dsimp only
    rw [h]
    rfl

/-- **C22.** Soundness of `SbXfBox3f::intersect(const SbBox3f &)`, with the standard base
library.  (1) For a box `A` that holds a point, carries a non-singular affine transform and is
in a coherent state (every producible state is), and a plain box `B` that holds a point: when
`A.intersect(B)` returns `TRUE`, some point of `A` is carried into `B` by the transform of
`A`.  (2) With the identity transform the result is `SbBox3f::intersect(B)` of the plain box
of `A`, and the object is left as it was.  (3) When the axis-aligned hull of the transformed
corners of `A` misses `B`, the result is `FALSE`, the object is left as it was, and
`intersect_box_box` ran at most once: there is no second pass. -/
theorem intersectBox_sound (A : SbXfBox3f) (B : SbBox3f) (uninit : Bool) :
    (A.toSbBox3f.NonEmpty → B.NonEmpty → A.matrix.IsAffine → Std3D.det4 A.matrix ≠ 0 →
      CacheCoherent coin A → (intersectBox coin A B uninit).1 = true → SharePoint coin A B)
    ∧ (A.matrix = SbMatrix.identity →
        intersectBox coin A B uninit = (coin.boxIntersectBox A.toSbBox3f B, A)
        ∧ intersectBoxPasses coin A B uninit = 0)
    ∧ (coin.boxIntersectBox B (cornerHull coin A) = false →
        intersectBox coin A B uninit = (false, A) ∧ intersectBoxPasses coin A B uninit ≤ 1) := by
  refine ⟨?_, ?_, ?_⟩
  · intro hA hB hM hd hc h
    unfold intersectBox at h
    by_cases hm : coin.matEq A.matrix SbMatrix.identity = true
    · rw [if_pos hm] at h
      have hmm : A.matrix = SbMatrix.identity := of_decide_eq_true hm
      obtain ⟨p, hp1, hp2⟩ := coin_boxIntersectBox_common _ _ hA hB h
      refine ⟨p, hp1, ?_⟩
      rw [hmm, coin_multVecMatrix_identity]
      exact hp2
    · rw [if_neg hm] at h
      dsimp only at h
      split at h
      · rename_i h1
        exact intersect_box_box_sound B.getMin B.getMax A.getMin A.getMax A.matrix uninit hM hB
          hA h1
      · split at h
        · exact absurd h Bool.false_ne_true
        · have hbox : (calcInverse coin A).toSbBox3f = A.toSbBox3f := calcInverse_toSbBox3f coin A
          have hinv : (calcInverse coin A).invertedmatrix = Std3D.inverse A.matrix :=
            calcInverse_invertedmatrix coin A hc
          have hA2 : SbBox3f.NonEmpty ⟨(calcInverse coin A).getMin, (calcInverse coin A).getMax⟩ := by
            show (calcInverse coin A).toSbBox3f.NonEmpty
            rw [hbox]
            exact hA
          obtain ⟨q, hq1, hq2⟩ := intersect_box_box_sound _ _ B.getMin B.getMax _ _
            (by rw [hinv]; exact Std3D.inverse_isAffine A.matrix hM hd) hA2 hB h
          rw [hinv] at hq2
          refine ⟨Std3D.multVecMatrix (Std3D.inverse A.matrix) q, ?_, ?_⟩
          · have : (calcInverse coin A).toSbBox3f.Contains
                (Std3D.multVecMatrix (Std3D.inverse A.matrix) q) := hq2
            rw [hbox] at this
            exact this
          · show B.Contains (Std3D.multVecMatrix A.matrix
              (Std3D.multVecMatrix (Std3D.inverse A.matrix) q))
            rw [Std3D.multVecMatrix_inverse A.matrix hM hd]
            exact hq1
  · intro hm
    have hmm : coin.matEq A.matrix SbMatrix.identity = true := decide_eq_true hm
    unfold intersectBox intersectBoxPasses
    rw [if_pos hmm, if_pos hmm]
    exact ⟨rfl, rfl⟩
  · intro hmiss
    unfold intersectBox intersectBoxPasses
    by_cases hm : coin.matEq A.matrix SbMatrix.identity = true
    · rw [if_pos hm, if_pos hm]
      refine ⟨?_, Nat.zero_le _⟩
      have hmm : A.matrix = SbMatrix.identity := of_decide_eq_true hm
      have h0 := cornerHull_contains A 0 (by decide)
      have h7 := cornerHull_contains A 7 (by decide)
      rw [hmm, coin_multVecMatrix_identity] at h0 h7
      obtain ⟨a1, a2, a3, a4, a5, a6⟩ := h0
      obtain ⟨b1, b2, b3, b4, b5, b6⟩ := h7
      have c0 : cornerAt A.getMin A.getMax 0 = A.max := rfl
      have c7 : cornerAt A.getMin A.getMax 7 = A.min := rfl
      rw [c0] at a1 a2 a3 a4 a5 a6
      rw [c7] at b1 b2 b3 b4 b5 b6
      have hf : coin.boxIntersectBox A.toSbBox3f B = false := by
        by_contra hne
        have ht : coin.boxIntersectBox A.toSbBox3f B = true := by
          cases hx : coin.boxIntersectBox A.toSbBox3f B
          · exact absurd hx hne
          · rfl
        simp only [coin, Std3D.boxIntersectBox, Bool.not_eq_true', Bool.or_eq_false_iff,
          decide_eq_false_iff_not, not_lt, gt_iff_lt] at ht
        obtain ⟨⟨⟨⟨⟨t1, t2⟩, t3⟩, t4⟩, t5⟩, t6⟩ := ht
        have hh : coin.boxIntersectBox B (cornerHull coin A) = true := by
          simp only [coin, Std3D.boxIntersectBox, Bool.not_eq_true', Bool.or_eq_false_iff,
            decide_eq_false_iff_not, not_lt, gt_iff_lt]
          exact ⟨⟨⟨⟨⟨b1.trans t4, b3.trans t5⟩, b5.trans t6⟩, t1.trans a2⟩, t2.trans a4⟩,
            t3.trans a6⟩
        rw [hh] at hmiss
        exact absurd hmiss (by decide)
      rw [hf]
    · rw [if_neg hm, if_neg hm]
      have hbb := intersect_box_box_miss B.getMin B.getMax A.getMin A.getMax A.matrix uninit hmiss
      dsimp only
      rw [hbb]
      exact ⟨rfl, le_refl _⟩

/-- **C22 (witness).** The unit cube under a shear and a translation meets the box
`[1,2] x [0,1] x [0,1]`, and its hull misses the box `[10,11]^3`; the unit cube without a
transform is tested as a plain box. -/
theorem intersectBox_sound_witness :
    SharePoint coin skewedUnit worldUnit
    ∧ intersectBox coin (ofBounds ⟨0, 0, 0⟩ ⟨1, 1, 1⟩) worldUnit false
        = (coin.boxIntersectBox (ofBounds ⟨0, 0, 0⟩ ⟨1, 1, 1⟩).toSbBox3f worldUnit,
            ofBounds ⟨0, 0, 0⟩ ⟨1, 1, 1⟩)
    ∧ intersectBox coin skewedUnit farBox false = (false, skewedUnit) :=
  ⟨(intersectBox_sound skewedUnit worldUnit false).1 (by decide!) (by decide!) (by decide!)
      (by decide!) (Or.inl rfl) (by decide!),
   ((intersectBox_sound (ofBounds ⟨0, 0, 0⟩ ⟨1, 1, 1⟩) worldUnit false).2.1 rfl).1,
   ((intersectBox_sound skewedUnit farBox false).2.2 (by decide!)).1⟩

end Coin
